import Mathlib

/-!
Shallow embedding of `src/kaldi/src/parser.rs` (a nom 5 recursive-descent
parser for the Kaldi nnet3 text format) and proofs about the claims of the
specification.

Modelling conventions:
* Input byte slices `&[u8]` are `List Nat` (each element a byte value).
* `nom::IResult<&[u8], O>` with the default error type `(&[u8], ErrorKind)`
  is `PResult O`: `ok rest val`, `err pos kind` (nom `Err::Error`; no parser
  in this file ever produces `Err::Failure` or `Incomplete`, since all
  combinators used are from `complete` and there is no `cut`), or `crash`,
  which models a Rust panic (the `unwrap` of `into_shape` and the `usize`
  division by zero in `matrix`).
* `f32` float values are represented by the byte string that
  `nom::number::complete::float` recognized: per §1 of the spec, IEEE-754
  semantics are out of scope, and every string matched by `recognize_float`
  is accepted by Rust's `f32: FromStr`, so `parse_to` never fails on it.
* `HashMap` is modelled as an association list `AMap` whose `insertA`
  replaces the value of an existing key (last writer wins), exactly the
  observable behaviour of `HashMap::insert` and of collecting pairs.
* The combinator bodies mirror nom 5.1 sources; in `many0` and
  `separated_list` the nom test `i1 == i` (slice content equality) is
  expressed by a length test plus an equality test, which coincide because
  every parser here returns a suffix of its input.
-/

namespace Kaldi

/-- Bytes of an input slice; all concrete inputs in this file are ASCII. -/
abbrev Input := List Nat

/-- UTF-8 bytes of an ASCII string literal (for ASCII text the char codes
are the bytes). -/
def bytes (s : String) : Input := s.data.map (fun c => c.toNat)

/-- The nom `ErrorKind` values that the parsers of this file can produce. -/
inductive ErrKind where
  | tagK
  | takeUntilK
  | mapResK
  | alphaK
  | alphaNumericK
  | spaceK
  | multiSpaceK
  | charK
  | digitK
  | many0K
  | separatedListK
  deriving DecidableEq

/-- Result of running a parser: nom `Ok`, nom `Err::Error`, or a Rust panic. -/
inductive PResult (O : Type) where
  | ok (rest : Input) (val : O)
  | err (pos : Input) (kind : ErrKind)
  | crash
  deriving DecidableEq

/-- A parser over byte slices. -/
def P (O : Type) : Type := Input → PResult O

/-- nom `map`. -/
def pmap {O O2 : Type} (f : P O) (g : O → O2) : P O2 := fun i =>
  match f i with
  | .ok r v => .ok r (g v)
  | .err p k => .err p k
  | .crash => .crash

/-- nom `map_res`; on a conversion failure the error holds the original
input position and `ErrorKind::MapRes`. -/
def map_res {O O2 : Type} (f : P O) (g : O → Option O2) : P O2 := fun i =>
  match f i with
  | .ok r v =>
    match g v with
    | some o => .ok r o
    | none => .err i .mapResK
  | .err p k => .err p k
  | .crash => .crash

/-- Sequencing of two parsers (the plumbing inside nom's tuple parsers). -/
def pseq {O O2 : Type} (f : P O) (g : O → P O2) : P O2 := fun i =>
  match f i with
  | .ok r v => g v r
  | .err p k => .err p k
  | .crash => .crash

/-- nom `pair`. -/
def pairP {A B : Type} (f : P A) (g : P B) : P (A × B) :=
  pseq f (fun a => pmap g (fun b => (a, b)))

/-- nom `tuple` for three components. -/
def tuple3 {A B C : Type} (f : P A) (g : P B) (h : P C) : P (A × B × C) :=
  pseq f (fun a => pseq g (fun b => pmap h (fun c => (a, b, c))))

/-- nom `delimited`. -/
def delimited {A B C : Type} (f : P A) (g : P B) (h : P C) : P B :=
  pseq f (fun _ => pseq g (fun b => pmap h (fun _ => b)))

/-- nom `alt` for two alternatives: the second runs only when the first
returns `Err::Error`, and the reported error is the second one's. -/
def altP {O : Type} (f g : P O) : P O := fun i =>
  match f i with
  | .ok r v => .ok r v
  | .crash => .crash
  | .err _ _ => g i

/-- nom `opt`. -/
def opt {O : Type} (f : P O) : P (Option O) := fun i =>
  match f i with
  | .ok r v => .ok r (some v)
  | .crash => .crash
  | .err _ _ => .ok i none

/-- nom `recognize`: return the consumed prefix of the input. -/
def recognize {O : Type} (f : P O) : P Input := fun i =>
  match f i with
  | .ok r _ => .ok r (i.take (i.length - r.length))
  | .err p k => .err p k
  | .crash => .crash

/-- nom `bytes::complete::tag`. -/
def tag (t : Input) : P Input := fun i =>
  if t.isPrefixOf i then .ok (i.drop t.length) t else .err i .tagK

/-- Index of the first occurrence of `t` in the list, if any. -/
def findSub (t : Input) : Input → Option Nat
  | [] => if t.isPrefixOf [] then some 0 else none
  | c :: cs =>
    if t.isPrefixOf (c :: cs) then some 0
    else (findSub t cs).map (fun n => n + 1)

/-- nom `bytes::complete::take_until`. -/
def take_until (t : Input) : P Input := fun i =>
  match findSub t i with
  | some n => .ok (i.drop n) (i.take n)
  | none => .err i .takeUntilK

/-- nom `bytes::complete::take_while` (never fails). -/
def take_while (p : Nat → Bool) : P Input := fun i =>
  let tk := i.takeWhile p
  .ok (i.drop tk.length) tk

/-- nom `character::complete::char` on one byte. -/
def charB (c : Nat) : P Nat := fun i =>
  match i with
  | b :: r => if b = c then .ok r b else .err (b :: r) .charK
  | [] => .err [] .charK

/-- ASCII decimal digit (nom `character::is_digit`). -/
def isDigitB (b : Nat) : Bool := 48 ≤ b && b ≤ 57

/-- ASCII letter. -/
def isAlphaB (b : Nat) : Bool := (65 ≤ b && b ≤ 90) || (97 ≤ b && b ≤ 122)

/-- ASCII letter or digit. -/
def isAlphaNumB (b : Nat) : Bool := isAlphaB b || isDigitB b

/-- Horizontal whitespace: space or tab (nom `space0`/`space1`). -/
def isHSpaceB (b : Nat) : Bool := b = 32 || b = 9

/-- Whitespace including newlines: space, tab, CR, LF (nom `multispace0`). -/
def isMSpaceB (b : Nat) : Bool := b = 32 || b = 9 || b = 13 || b = 10

/-- Shared shape of nom's `xxx1` character-class parsers: take the maximal
run satisfying `p`, failing with kind `k` when it is empty. -/
def takeWhile1K (p : Nat → Bool) (k : ErrKind) : P Input := fun i =>
  let tk := i.takeWhile p
  if tk.isEmpty then .err i k else .ok (i.drop tk.length) tk

/-- nom `digit1`. -/
def digit1 : P Input := takeWhile1K isDigitB .digitK

/-- nom `alpha1`. -/
def alpha1 : P Input := takeWhile1K isAlphaB .alphaK

/-- nom `alphanumeric1`. -/
def alphanumeric1 : P Input := takeWhile1K isAlphaNumB .alphaNumericK

/-- nom `space1`. -/
def space1 : P Input := takeWhile1K isHSpaceB .spaceK

/-- nom `space0`. -/
def space0 : P Input := fun i =>
  let tk := i.takeWhile isHSpaceB
  .ok (i.drop tk.length) tk

/-- nom `multispace0`. -/
def multispace0 : P Input := fun i =>
  let tk := i.takeWhile isMSpaceB
  .ok (i.drop tk.length) tk

/-- `spaced` from parser.rs: trim horizontal space on both sides. -/
def spaced {O : Type} (f : P O) : P O := delimited space0 f space0

/-- `multispaced` from parser.rs: trim any whitespace on both sides. -/
def multispaced {O : Type} (f : P O) : P O := delimited multispace0 f multispace0

/-- Loop body of nom 5.1 `multi::many0`: stop on the embedded parser's first
error, abort with `ErrorKind::Many0` if it succeeds without consuming.
The fuel argument only bounds the recursion; `many0` supplies `i.length`,
which the consumption check makes sufficient. -/
def many0Go {O : Type} (f : P O) : Nat → Input → PResult (List O)
  | fuel, i =>
    match f i with
    | .err _ _ => .ok i []
    | .crash => .crash
    | .ok r v =>
      if r.length < i.length then
        match fuel with
        | 0 => .err i .many0K
        | fuel' + 1 =>
          match many0Go f fuel' r with
          | .ok r2 vs => .ok r2 (v :: vs)
          | .err p k => .err p k
          | .crash => .crash
      else .err i .many0K

/-- nom 5.1 `multi::many0`. -/
def many0 {O : Type} (f : P O) : P (List O) := fun i => many0Go f i.length i

/-- The `loop` of nom 5.1 `multi::separated_list`, entered after the first
element: parse separator then element, stopping cleanly when either fails,
aborting with `ErrorKind::SeparatedList` when the separator consumes
nothing. An element that consumes nothing after a consuming separator is
accepted and pushed, exactly as in nom 5.1. -/
def sepLoop {A B : Type} (sep : P B) (f : P A) : Nat → Input → PResult (List A)
  | fuel, i =>
    match sep i with
    | .err _ _ => .ok i []
    | .crash => .crash
    | .ok i1 _ =>
      if i1 = i then .err i1 .separatedListK
      else
        match f i1 with
        | .err _ _ => .ok i []
        | .crash => .crash
        | .ok i2 v =>
          if i2 = i then .err i2 .separatedListK
          else if i2.length < i.length then
            match fuel with
            | 0 => .err i .separatedListK
            | fuel' + 1 =>
              match sepLoop sep f fuel' i2 with
              | .ok r vs => .ok r (v :: vs)
              | .err p k => .err p k
              | .crash => .crash
          else .err i .separatedListK

/-- nom 5.1 `multi::separated_list`: an empty list when the first element
fails; `ErrorKind::SeparatedList` when the first element succeeds without
consuming. -/
def separated_list {A B : Type} (sep : P B) (f : P A) : P (List A) := fun i =>
  match f i with
  | .err _ _ => .ok i []
  | .crash => .crash
  | .ok i1 v =>
    if i1 = i then .err i1 .separatedListK
    else
      match sepLoop sep f i1.length i1 with
      | .ok r vs => .ok r (v :: vs)
      | .err p k => .err p k
      | .crash => .crash

/-- The optional sign of nom 5.1 `number::complete::recognize_float`. -/
def signP : P (Option Nat) := opt (altP (charB 43) (charB 45))

/-- The mantissa alternative of `recognize_float`: `digit1 ('.' digit1?)?`
or `'.' digit1`. -/
def mantissa : P Unit :=
  altP
    (pmap (pairP digit1 (opt (pairP (charB 46) (opt digit1)))) (fun _ => ()))
    (pmap (pairP (charB 46) digit1) (fun _ => ()))

/-- The optional exponent of `recognize_float`: `('e'|'E') sign? digit1`. -/
def exponentPart : P (Option (Nat × Option Nat × Input)) :=
  opt (tuple3 (altP (charB 101) (charB 69)) signP digit1)

/-- nom 5.1 `number::complete::recognize_float`. -/
def recognize_float : P Input :=
  recognize (tuple3 signP mantissa exponentPart)

/-- nom 5.1 `number::complete::float`: recognize a float literal and convert
it with `parse_to::<f32>`. Every string matched by `recognize_float` is a
valid Rust `f32` literal, so the conversion never fails; the f32 value is
represented by the recognized byte string (see module comment). -/
def float : P Input := recognize_float

/-- A UTF-8 continuation byte. -/
def isContB (b : Nat) : Bool := 0x80 ≤ b && b ≤ 0xBF

/-- Inclusive byte range check. -/
def inRangeB (lo hi b : Nat) : Bool := lo ≤ b && b ≤ hi

/-- The byte at an offset, with an out-of-range sentinel 256 that fails
every byte-range test. -/
def byteAt (l : Input) (n : Nat) : Nat := (l.drop n).headD 256

/-- Classify a UTF-8 start byte: 0 ASCII; 1 two-byte lead; 2/4/5
three-byte leads (generic, `E0`, `ED`); 3/6/7 four-byte leads (generic,
`F0`, `F4`); 9 invalid (continuation bytes, overlong leads `C0`/`C1`,
and `F5`–`FF`). -/
def utf8Class (b : Nat) : Nat :=
  if b ≤ 0x7F then 0
  else if 0xC2 ≤ b && b ≤ 0xDF then 1
  else if b = 0xE0 then 4
  else if (0xE1 ≤ b && b ≤ 0xEC) || b = 0xEE || b = 0xEF then 2
  else if b = 0xED then 5
  else if b = 0xF0 then 6
  else if 0xF1 ≤ b && b ≤ 0xF3 then 3
  else if b = 0xF4 then 7
  else 9

/-- UTF-8 validation loop: decode one character per step, checking the
continuation bytes required by the lead byte's class, with the surrogate
and overlong exclusions (`E0 A0–BF`, `ED 80–9F`, `F0 90–BF`, `F4 80–8F`).
The fuel only bounds recursion; `utf8Valid` passes the list length, which
suffices because every step consumes at least one byte. -/
def utf8Go : Nat → Input → Bool
  | fuel, l =>
    match l with
    | [] => true
    | b :: r =>
      match fuel with
      | 0 => false
      | fuel' + 1 =>
        let c := utf8Class b
        if c = 0 then utf8Go fuel' r
        else if c = 1 then isContB (byteAt r 0) && utf8Go fuel' (r.drop 1)
        else if c = 2 then
          isContB (byteAt r 0) && isContB (byteAt r 1) && utf8Go fuel' (r.drop 2)
        else if c = 4 then
          inRangeB 0xA0 0xBF (byteAt r 0) && isContB (byteAt r 1) && utf8Go fuel' (r.drop 2)
        else if c = 5 then
          inRangeB 0x80 0x9F (byteAt r 0) && isContB (byteAt r 1) && utf8Go fuel' (r.drop 2)
        else if c = 3 then
          isContB (byteAt r 0) && isContB (byteAt r 1) && isContB (byteAt r 2) &&
            utf8Go fuel' (r.drop 3)
        else if c = 6 then
          inRangeB 0x90 0xBF (byteAt r 0) && isContB (byteAt r 1) && isContB (byteAt r 2) &&
            utf8Go fuel' (r.drop 3)
        else if c = 7 then
          inRangeB 0x80 0x8F (byteAt r 0) && isContB (byteAt r 1) && isContB (byteAt r 2) &&
            utf8Go fuel' (r.drop 3)
        else false

/-- Whether a byte sequence is valid UTF-8 (`std::str::from_utf8`
succeeds). -/
def utf8Valid (l : Input) : Bool := utf8Go l.length l

/-- `std::str::from_utf8`: the string is modelled by its byte sequence. -/
def from_utf8 (s : Input) : Option Input :=
  if utf8Valid s then some s else none

/-- Value of a nonempty all-digit byte string. -/
def digitsVal? (l : Input) : Option Nat :=
  if l.isEmpty then none
  else if l.all isDigitB then
    some (l.foldl (fun a b => a * 10 + (b - 48)) 0)
  else none

/-- Rust `str::parse::<i32>` on the strings producible by `integer`'s
`recognize`: an optional leading minus sign, then digits; fails on an empty
digit run or on 32-bit overflow. -/
def parse_i32 (s : Input) : Option Int :=
  match s with
  | b :: rest =>
    if b = 45 then
      (digitsVal? rest).bind (fun n => if n ≤ 2 ^ 31 then some (-(n : Int)) else none)
    else (digitsVal? s).bind (fun n => if n < 2 ^ 31 then some ((n : Int)) else none)
  | [] => (digitsVal? []).bind (fun n => if n < 2 ^ 31 then some ((n : Int)) else none)

/-- `integer` from parser.rs. -/
def integer : P Int :=
  map_res
    (map_res (recognize (pairP (opt (tag (bytes ("-")))) (take_while isDigitB))) from_utf8)
    parse_i32

/-- The repeated tail element of `name` from parser.rs:
`alt((alphanumeric1, tag("."), tag("_"), tag("-")))`. -/
def nameTailAlt : P Input :=
  altP alphanumeric1
    (altP (tag (bytes (".")))
      (altP (tag (bytes ("_"))) (tag (bytes ("-")))))

/-- `name` from parser.rs: a leading letter then letters, digits, `.`, `_`,
`-`. -/
def name : P Input :=
  map_res (recognize (pairP alpha1 (many0 nameTailAlt))) from_utf8

/-- `open` from parser.rs (`open` is a Lean keyword): match `<t>` with
whitespace tolerance. -/
def openTag (t : Input) : P Unit :=
  pmap (multispaced (tuple3 (tag (bytes ("<"))) (tag t) (tag (bytes (">"))))) (fun _ => ())

/-- `close` from parser.rs: match `</t>` with whitespace tolerance. -/
def closeTag (t : Input) : P Unit :=
  pmap (multispaced (tuple3 (tag (bytes ("</"))) (tag t) (tag (bytes (">"))))) (fun _ => ())

/-- `open_any` from parser.rs: `<` identifier `>`, returning the identifier. -/
def open_any : P Input :=
  multispaced (delimited (tag (bytes ("<"))) name (tag (bytes (">"))))

/-- A tract tensor as far as this parser observes it: rank 0 scalars (float,
integer or boolean), rank 1 float vectors, rank 2 float matrices. Float
values are represented by their literal byte strings. -/
inductive Tensor where
  | floatScalar (tok : Input)
  | intScalar (v : Int)
  | boolScalar (b : Bool)
  | rank1 (elems : List Input)
  | rank2 (rows cols : Nat) (data : List Input)
  deriving DecidableEq

/-- `scalar` from parser.rs: float, then integer, then `F`, then `T`. -/
def scalar : P Tensor :=
  altP (pmap float Tensor.floatScalar)
    (altP (pmap integer Tensor.intScalar)
      (altP (pmap (tag (bytes ("F"))) (fun _ => Tensor.boolScalar false))
        (pmap (tag (bytes ("T"))) (fun _ => Tensor.boolScalar true))))

/-- The bracketed newline-separated row list inside `matrix` from parser.rs,
up to and including the closing `]`. -/
def matrixRows : P (List (List Input)) :=
  delimited (multispaced (tag (bytes ("["))))
    (separated_list (spaced (tag (bytes ("\n")))) (separated_list space1 float))
    (multispaced (tag (bytes ("]"))))

/-- `matrix` from parser.rs: parse the rows, then reshape the flattened data
into `(lines, data.len() / lines)`. `lines = 0` makes the Rust `usize`
division panic, and `into_shape(..).unwrap()` panics when the row count
does not divide the element count. -/
def matrix : P Tensor := fun i =>
  match matrixRows i with
  | .ok r v =>
    let lines := v.length
    let data := v.flatten
    if lines = 0 then .crash
    else
      let cols := data.length / lines
      if lines * cols = data.length then .ok r (Tensor.rank2 lines cols data)
      else .crash
  | .err p k => .err p k
  | .crash => .crash

/-- `vector` from parser.rs: a single bracketed space-separated float row. -/
def vector : P Tensor :=
  pmap
    (delimited (spaced (tag (bytes ("["))))
      (separated_list space1 float)
      (spaced (tag (bytes ("]")))))
    Tensor.rank1

/-- `tensor` from parser.rs: `alt((scalar, vector, matrix))` — scalar is
tried first, then vector, then matrix. -/
def tensor : P Tensor := altP scalar (altP vector matrix)

/-- Model of `HashMap<String, V>`: an association list where `insertA`
overwrites the value of an existing key. -/
abbrev AMap (V : Type) := List (Input × V)

/-- `HashMap::insert`: replace the value when the key is present, add the
pair otherwise. -/
def insertA {V : Type} (m : AMap V) (k : Input) (v : V) : AMap V :=
  if m.any (fun p => p.1 = k) then
    m.map (fun p => if p.1 = k then (k, v) else p)
  else m ++ [(k, v)]

/-- `HashMap::get`. -/
def lookupA {V : Type} (m : AMap V) (k : Input) : Option V :=
  match m.find? (fun p => p.1 = k) with
  | some p => some p.2
  | none => none

/-- `HashMap::len`. -/
def sizeA {V : Type} (m : AMap V) : Nat := m.length

/-- `iter().collect::<HashMap<_,_>>()`: insert the pairs in order, the last
occurrence of a key winning. -/
def collectMap {V : Type} (l : List (Input × V)) : AMap V :=
  l.foldl (fun m p => insertA m p.1 p.2) []

/-- `Component` from model.rs: a class name and named tensor attributes. -/
structure Component where
  klass : Input
  attributes : AMap Tensor
  deriving DecidableEq

/-- `component` from parser.rs: class tag, `many0` of attribute pairs
collected into a map, then a closing tag that must echo the class name. -/
def component : P Component := fun i =>
  match open_any i with
  | .ok i1 k =>
    match many0 (pairP open_any tensor) i1 with
    | .ok i2 attrs =>
      match closeTag k i2 with
      | .ok i3 _ => .ok i3 (Component.mk k (collectMap attrs))
      | .err p kk => .err p kk
      | .crash => .crash
    | .err p kk => .err p kk
    | .crash => .crash
  | .err p kk => .err p kk
  | .crash => .crash

/-- `component_name` from parser.rs. -/
def component_name : P Input :=
  multispaced (delimited (fun i => openTag (bytes ("ComponentName")) i) name multispace0)

/-- `n as usize` on an `i32`, on a 64-bit target. -/
def usizeOfI32 (n : Int) : Nat := (n % (2 ^ 64)).toNat

/-- `num_components` from parser.rs. -/
def num_components : P Nat := fun i =>
  match openTag (bytes ("NumComponents")) i with
  | .ok i1 _ =>
    match multispaced integer i1 with
    | .ok i2 n => .ok i2 (usizeOfI32 n)
    | .err p k => .err p k
    | .crash => .crash
  | .err p k => .err p k
  | .crash => .crash

/-- The `for _ in 0..num_components` loop of `parse_top_level`: parse
exactly `n` pairs of `component_name` and `component`, inserting each into
the accumulated map. -/
def compLoop : Nat → AMap Component → P (AMap Component)
  | 0, m => fun i => .ok i m
  | n + 1, m => fun i =>
    match pairP component_name component i with
    | .ok i1 p => compLoop n (insertA m p.1 p.2) i1
    | .err p k => .err p k
    | .crash => .crash

/-- `parse_top_level` from parser.rs. -/
def parse_top_level : P (Input × AMap Component) := fun i =>
  match openTag (bytes ("Nnet3")) i with
  | .ok i1 _ =>
    match map_res (take_until (bytes ("<NumComponents>"))) from_utf8 i1 with
    | .ok i2 cfg =>
      match num_components i2 with
      | .ok i3 n =>
        match compLoop n [] i3 with
        | .ok i4 m =>
          match closeTag (bytes ("Nnet3")) i4 with
          | .ok i5 _ => .ok i5 (cfg, m)
          | .err p k => .err p k
          | .crash => .crash
        | .err p k => .err p k
        | .crash => .crash
      | .err p k => .err p k
      | .crash => .crash
    | .err p k => .err p k
    | .crash => .crash
  | .err p k => .err p k
  | .crash => .crash

/-- Modelled from the spec: `config_lines::parse_config` is not part of the
source under review — §1 treats the configuration blob as an opaque string
handed to a collaborator, so the model retains the raw text and always
succeeds. -/
def parse_config (s : Input) : Option Input := some s

/-- `KaldiProtoModel` from model.rs, with the configuration section kept as
the raw text (see `parse_config`). -/
structure KaldiProtoModel where
  config_lines : Input
  components : AMap Component
  deriving DecidableEq

/-- Result of the public entry point: a model, a translated parse error
(the formatted message keeps the failing position and kind), or a panic. -/
inductive RunResult (A : Type) where
  | ok (v : A)
  | parseError (pos : Input) (kind : ErrKind)
  | crash
  deriving DecidableEq

/-- `nnet3` from parser.rs: run `parse_top_level` on the whole slice
(ignoring any unconsumed rest), then build the model. -/
def nnet3 (slice : Input) : RunResult KaldiProtoModel :=
  match parse_top_level slice with
  | .ok _ p =>
    match parse_config p.1 with
    | some cfg => .ok (KaldiProtoModel.mk cfg p.2)
    | none => .parseError p.1 .mapResK
  | .err p k => .parseError p k
  | .crash => .crash

/-- The integer declared after `<NumComponents>`, read with the same
primitive parsers that `parse_top_level` uses (for stating claims about the
declared component count). -/
def declaredNumComponents (i : Input) : Option Nat :=
  match openTag (bytes ("Nnet3")) i with
  | .ok i1 _ =>
    match take_until (bytes ("<NumComponents>")) i1 with
    | .ok i2 _ =>
      match num_components i2 with
      | .ok _ n => some n
      | _ => none
    | _ => none
  | _ => none

/-! ### Definitions following the specification's words

`tensorSpecOrder` renders §4.2's alternative order for comparison with the
implementation, and the `G…` structures with `renderModel`/`WFModelB`
formalise the grammar of §6: an input matches the grammar exactly when it
is the rendering of a well-formed abstract document. Whitespace runs,
identifier and float tokens and the configuration bytes are all arbitrary,
subject only to the constraints §4.1/§6 themselves state (identifier and
integer shape, §3's equal-length matrix rows, and the configuration
section not containing the `<NumComponents>` marker before its end). -/

/-- The tensor grammar in the order the specification claims (§4.2):
matrix first, then vector, then scalar. -/
def tensorSpecOrder : P Tensor := altP matrix (altP vector scalar)

/-- §4.1's identifier tail characters: letters, digits, `.`, `_`, `-`. -/
def isNameCharB (b : Nat) : Bool := isAlphaNumB b || b = 46 || b = 95 || b = 45

/-- §4.1/§6 identifier grammar: a letter, then name characters. -/
def nameTokB : Input → Bool
  | [] => false
  | b :: t => isAlphaB b && t.all isNameCharB

/-- Drop one leading `+`/`-` sign if present. -/
def dropSign (l : Input) : Input :=
  match l with
  | b :: t => if b = 43 ∨ b = 45 then t else l
  | [] => l

/-- Whether `l` is empty or a complete exponent `('e'|'E') sign? digit+`. -/
def expOkB : Input → Bool
  | [] => true
  | b :: t =>
    (b = 101 || b = 69) &&
      (let t1 := dropSign t
       let d := t1.takeWhile isDigitB
       !d.isEmpty && (t1.drop d.length).isEmpty)

/-- The float literal token language of the grammar (§1 delegates float
tokenization to the standard scanner, i.e. `recognize_float`):
`sign? (digit+ ('.' digit*)? | '.' digit+) exponent?`. -/
def floatTokB (l : Input) : Bool :=
  let l1 := dropSign l
  let d1 := l1.takeWhile isDigitB
  match l1.drop d1.length with
  | [] => !d1.isEmpty
  | c :: l3 =>
    if c = 46 then
      let d2 := l3.takeWhile isDigitB
      (!d1.isEmpty || !d2.isEmpty) && expOkB (l3.drop d2.length)
    else !d1.isEmpty && expOkB (c :: l3)

/-- Bytes that can extend a float literal: digits, `.`, the exponent
letters and the exponent signs. A float token followed by none of these
is consumed exactly by `float`. -/
def isFloatExtB (b : Nat) : Bool :=
  isDigitB b || b = 46 || b = 101 || b = 69 || b = 43 || b = 45

/-- Bytes at which a space-separated float row stops cleanly: horizontal
space or float-extending bytes. -/
def isRowStopB (b : Nat) : Bool := isHSpaceB b || isFloatExtB b

/-- A whitespace run (§6 `WS`). -/
def wsRunB (l : Input) : Bool := l.all isMSpaceB

/-- A horizontal whitespace run. -/
def hRunB (l : Input) : Bool := l.all isHSpaceB

/-- One space-separated row of float tokens: the first token, then
(separator, token) pairs. -/
structure GRow where
  tok0 : Input
  toks : List (Input × Input)
  deriving DecidableEq

/-- The text of a row. -/
def renderRow (r : GRow) : Input :=
  r.tok0 ++ (r.toks.map (fun p => p.1 ++ p.2)).flatten

/-- The float tokens of a row. -/
def rowToks (r : GRow) : List Input := r.tok0 :: r.toks.map Prod.snd

/-- Well-formed row: float tokens separated by nonempty horizontal runs. -/
def WFRowB (r : GRow) : Bool :=
  floatTokB r.tok0 &&
    r.toks.all (fun p => !p.1.isEmpty && hRunB p.1 && floatTokB p.2)

/-- A tensor literal of §6: a scalar token (float/integer tokens both lie
in the float token language and `T`/`F` are the booleans), a bracketed
single row, or a bracketed newline-separated multi-row block. -/
inductive GTensor where
  | sFloat (tok : Input)
  | sTrue
  | sFalse
  | vecLit (s0 : Input) (content : Option GRow) (s1 : Input)
  | matLit (m0 : Input) (row0 : GRow) (rows : List (Input × Input × GRow)) (mE : Input)
  deriving DecidableEq

/-- The float tokens of an optional row. -/
def rowOptToks : Option GRow → List Input
  | some r => rowToks r
  | none => []

/-- Well-formedness of an optional row. -/
def WFOptRowB : Option GRow → Bool
  | some r => WFRowB r
  | none => true

/-- The rows of a matrix literal. -/
def matRowsOf (row0 : GRow) (rows : List (Input × Input × GRow)) : List GRow :=
  row0 :: rows.map (fun t => t.2.2)

/-- The text of a tensor literal. `matLit` rows are separated by one
newline with horizontal padding on each side (§6 `NEWLINE`). -/
def renderTensor : GTensor → Input
  | .sFloat tok => tok
  | .sTrue => bytes ("T")
  | .sFalse => bytes ("F")
  | .vecLit s0 content s1 =>
    bytes ("[") ++ s0 ++
      (match content with
       | some r => renderRow r
       | none => []) ++ s1 ++ bytes ("]")
  | .matLit m0 row0 rows mE =>
    bytes ("[") ++ m0 ++ renderRow row0 ++
      (rows.map (fun t => t.1 ++ (bytes ("\n") ++ (t.2.1 ++ renderRow t.2.2)))).flatten ++
      mE ++ bytes ("]")

/-- Well-formed tensor literal: tokens in their languages, horizontal
padding inside brackets, at least two matrix rows (§6 requires `(NEWLINE
row)+`) all of the same length (§3's equal-length-row invariant). -/
def WFTensorB : GTensor → Bool
  | .sFloat tok => floatTokB tok
  | .sTrue => true
  | .sFalse => true
  | .vecLit s0 content s1 =>
    hRunB s0 && hRunB s1 && WFOptRowB content
  | .matLit m0 row0 rows mE =>
    wsRunB m0 && WFRowB row0 && !rows.isEmpty &&
      rows.all (fun t => hRunB t.1 && hRunB t.2.1 && WFRowB t.2.2) &&
      hRunB mE &&
      (matRowsOf row0 rows).all
        (fun r => (rowToks r).length = (rowToks row0).length)

/-- The tensor value the parser produces for a well-formed literal. -/
def valueTensor : GTensor → Tensor
  | .sFloat tok => .floatScalar tok
  | .sTrue => .boolScalar true
  | .sFalse => .boolScalar false
  | .vecLit _ content _ => .rank1 (rowOptToks content)
  | .matLit _ row0 rows _ =>
    .rank2 (matRowsOf row0 rows).length (rowToks row0).length
      ((matRowsOf row0 rows).map rowToks).flatten

/-- One attribute of §6: leading whitespace, `<name>`, whitespace, then a
tensor literal. -/
structure GAttr where
  wsA : Input
  aname : Input
  wsB : Input
  lit : GTensor
  deriving DecidableEq

/-- The text of an attribute after its leading whitespace. -/
def renderAttrTail (a : GAttr) : Input :=
  bytes ("<") ++ a.aname ++ bytes (">") ++ a.wsB ++ renderTensor a.lit

/-- The text of an attribute. -/
def renderAttr (a : GAttr) : Input := a.wsA ++ renderAttrTail a

/-- Well-formed attribute. -/
def WFAttrB (a : GAttr) : Bool :=
  wsRunB a.wsA && nameTokB a.aname && wsRunB a.wsB && WFTensorB a.lit

/-- The (name, tensor) pair an attribute parses to. -/
def valueAttr (a : GAttr) : Input × Tensor := (a.aname, valueTensor a.lit)

/-- One component block of §6: `<ComponentName>`, the component name, the
class tag, the attributes, the echoed close tag, and trailing whitespace. -/
structure GComp where
  wsN : Input
  cname : Input
  wsK : Input
  klass : Input
  attrs : List GAttr
  wsEnd : Input
  wsAfter : Input
  deriving DecidableEq

/-- The text of a component block. -/
def renderComp (c : GComp) : Input :=
  bytes ("<ComponentName>") ++ c.wsN ++ c.cname ++ c.wsK ++
    bytes ("<") ++ c.klass ++ bytes (">") ++
    (c.attrs.map renderAttr).flatten ++ c.wsEnd ++
    bytes ("</") ++ c.klass ++ bytes (">") ++ c.wsAfter

/-- Well-formed component block. -/
def WFCompB (c : GComp) : Bool :=
  wsRunB c.wsN && nameTokB c.cname && wsRunB c.wsK &&
    nameTokB c.klass && c.attrs.all WFAttrB && wsRunB c.wsEnd && wsRunB c.wsAfter

/-- The `Component` a block parses to. -/
def valueComp (c : GComp) : Component :=
  Component.mk c.klass (collectMap (c.attrs.map valueAttr))

/-- A document of the §6 grammar: the envelope with its configuration
bytes, the declared count digits, whitespace, and the component blocks. -/
structure GModel where
  config : Input
  wsD : Input
  ndigits : Input
  wsN0 : Input
  comps : List GComp
  deriving DecidableEq

/-- The complete text of a document. -/
def renderModel (d : GModel) : Input :=
  bytes ("<Nnet3>") ++ d.config ++ bytes ("<NumComponents>") ++ d.wsD ++
    d.ndigits ++ d.wsN0 ++ (d.comps.map renderComp).flatten ++ bytes ("</Nnet3>")

/-- Well-formed document: the configuration contains no early occurrence
of the `<NumComponents>` marker, the declared count is a digit run whose
value is the number of component blocks (it must fit in an `i32` for §4.1's
integer grammar), and all blocks are well formed. -/
def WFModelB (d : GModel) : Bool :=
  (findSub (bytes ("<NumComponents>")) (d.config ++ bytes ("<NumComponents>"))
      = some d.config.length : Bool) &&
    wsRunB d.wsD &&
    (digitsVal? d.ndigits = some d.comps.length : Bool) &&
    d.comps.length < 2 ^ 31 &&
    d.comps.all WFCompB && wsRunB d.wsN0

/-- An input byte sequence matches the grammar of §6 exactly when it is
the rendering of some well-formed document. -/
def MatchesGrammar (i : Input) : Prop :=
  ∃ d : GModel, WFModelB d = true ∧ renderModel d = i

/-- Names of the declared components, in declaration order. -/
def declaredNames (d : GModel) : List Input := d.comps.map GComp.cname

/-- The pairs consumed by successive runs of `pair(component_name,
component)` from one input position to another: the trace of the
component loop. -/
def ChainPairs : Input → List (Input × Component) → Input → Prop
  | i, [], r => i = r
  | i, p :: L, r => ∃ i1, pairP component_name component i = .ok i1 p ∧ ChainPairs i1 L r

/-- The end-to-end example input of §8. -/
def c4input : Input :=
  bytes ("<Nnet3>\ninput-node name=input dim=3\n<NumComponents> 1\n<ComponentName> foo <FixedAffineComponent> <LinearParams> [\n  1.0 2.0 3.0\n  4.0 5.0 6.0 ]\n<BiasParams> [ 7.0 8.0 ]\n</FixedAffineComponent>\n</Nnet3>")

/-- A grammar-conforming envelope declaring two components that share the
name `foo`. -/
def gDupComp1 : GComp :=
  GComp.mk (bytes (" ")) (bytes ("foo")) (bytes (" ")) (bytes ("Ka"))
    [GAttr.mk (bytes (" ")) (bytes ("Pa")) (bytes (" ")) (GTensor.sFloat (bytes ("1.0")))]
    (bytes (" ")) (bytes (" "))

/-- The second of the two same-named components. -/
def gDupComp2 : GComp :=
  GComp.mk (bytes (" ")) (bytes ("foo")) (bytes (" ")) (bytes ("Kb"))
    [GAttr.mk (bytes (" ")) (bytes ("Pa")) (bytes (" ")) (GTensor.sFloat (bytes ("2.0")))]
    (bytes (" ")) (bytes (" "))

/-- The duplicate-name document. -/
def gDup : GModel :=
  GModel.mk (bytes (" c ")) (bytes (" ")) (bytes ("2")) (bytes (" ")) [gDupComp1, gDupComp2]

/-- The duplicate-name input text. -/
def dupInput : Input :=
  bytes ("<Nnet3> c <NumComponents> 2 <ComponentName> foo <Ka> <Pa> 1.0 </Ka> <ComponentName> foo <Kb> <Pa> 2.0 </Kb> </Nnet3>")

/-- A grammar-conforming envelope whose configuration section is the
single byte `0xFF`, which is not valid UTF-8. -/
def gBad : GModel := GModel.mk [255] [] (bytes ("0")) (bytes (" ")) []

/-- An envelope declaring two components but containing only one block. -/
def c7missing : Input :=
  bytes ("<Nnet3> x <NumComponents> 2 <ComponentName> foo <Ka> </Ka> </Nnet3>")

/-- An envelope declaring one component but containing two blocks. -/
def c7trailing : Input :=
  bytes ("<Nnet3> x <NumComponents> 1 <ComponentName> foo <Ka> </Ka> <ComponentName> bar <Kb> </Kb> </Nnet3>")

/-- A component block that repeats the attribute name `A`. -/
def c9attrInput : Input := bytes ("<C> <A> 1.0 <A> 2.0 </C>")

/-- A parser that never grows its input: the rest of a success is at most
as long as the input. -/
def NonIncreasing {O : Type} (f : P O) : Prop :=
  ∀ i r v, f i = .ok r v → r.length ≤ i.length

/-- A parser that always consumes at least one byte on success. -/
def Decreasing {O : Type} (f : P O) : Prop :=
  ∀ i r v, f i = .ok r v → r.length < i.length

/-- A parser that can never panic. -/
def NoCrash {O : Type} (f : P O) : Prop := ∀ i, f i ≠ .crash

/-- A result that is a nom error. -/
def IsErr {O : Type} (x : PResult O) : Prop := ∃ p k, x = .err p k

/-- Whether the head of a byte list, when there is one, falsifies `p`. -/
def HeadNot (p : Nat → Bool) : Input → Prop
  | [] => True
  | b :: _ => p b = false

/-! ## Theorems -/

set_option maxRecDepth 100000
set_option maxHeartbeats 2000000

/-! ### Combinator inversion and introduction lemmas -/

theorem pseq_ok {O O2 : Type} {f : P O} {g : O → P O2} {i r : Input} {v : O2}
    (h : pseq f g i = .ok r v) : ∃ i1 v1, f i = .ok i1 v1 ∧ g v1 i1 = .ok r v := by
  unfold pseq at h
  split at h
  next i1 v1 hf => exact ⟨i1, v1, hf, h⟩
  next => cases h
  next => cases h

theorem pseq_intro {O O2 : Type} {f : P O} {g : O → P O2} {i i1 : Input} {v1 : O}
    (h : f i = .ok i1 v1) : pseq f g i = g v1 i1 := by
  unfold pseq
  rw [h]

theorem pseq_intro_err {O O2 : Type} {f : P O} {g : O → P O2} {i p : Input} {k : ErrKind}
    (h : f i = .err p k) : pseq f g i = .err p k := by
  unfold pseq
  rw [h]

theorem pairP_intro_err {A B : Type} {f : P A} {g : P B} {i p : Input} {k : ErrKind}
    (h : f i = .err p k) : pairP f g i = .err p k := by
  unfold pairP
  exact pseq_intro_err h

theorem space0_ok {i r : Input} {v : Input} (h : space0 i = .ok r v) :
    v = i.takeWhile isHSpaceB ∧ r = i.drop (i.takeWhile isHSpaceB).length := by
  unfold space0 at h
  cases h
  exact ⟨rfl, rfl⟩

theorem pmap_ok {O O2 : Type} {f : P O} {g : O → O2} {i r : Input} {v : O2}
    (h : pmap f g i = .ok r v) : ∃ v1, f i = .ok r v1 ∧ v = g v1 := by
  unfold pmap at h
  split at h
  next r1 v1 hf =>
    cases h
    exact ⟨v1, hf, rfl⟩
  next => cases h
  next => cases h

theorem pmap_intro {O O2 : Type} {f : P O} {g : O → O2} {i r : Input} {v : O}
    (h : f i = .ok r v) : pmap f g i = .ok r (g v) := by
  simp only [pmap, h]

theorem pmap_intro_err {O O2 : Type} {f : P O} {g : O → O2} {i p : Input} {k : ErrKind}
    (h : f i = .err p k) : pmap f g i = .err p k := by
  simp only [pmap, h]

theorem map_res_ok {O O2 : Type} {f : P O} {g : O → Option O2} {i r : Input} {v : O2}
    (h : map_res f g i = .ok r v) : ∃ v1, f i = .ok r v1 ∧ g v1 = some v := by
  unfold map_res at h
  split at h
  next r1 v1 hf =>
    split at h
    next o hg =>
      cases h
      exact ⟨v1, hf, hg⟩
    next => cases h
  next => cases h
  next => cases h

theorem map_res_intro_some {O O2 : Type} {f : P O} {g : O → Option O2} {i r : Input}
    {v : O} {o : O2} (hf : f i = .ok r v) (hg : g v = some o) :
    map_res f g i = .ok r o := by
  simp only [map_res, hf, hg]

theorem map_res_intro_none {O O2 : Type} {f : P O} {g : O → Option O2} {i r : Input}
    {v : O} (hf : f i = .ok r v) (hg : g v = none) :
    map_res f g i = .err i .mapResK := by
  simp only [map_res, hf, hg]

theorem map_res_intro_err {O O2 : Type} {f : P O} {g : O → Option O2} {i p : Input}
    {k : ErrKind} (hf : f i = .err p k) : map_res f g i = .err p k := by
  simp only [map_res, hf]

theorem opt_intro_ok {O : Type} {f : P O} {i r : Input} {v : O}
    (h : f i = .ok r v) : opt f i = .ok r (some v) := by
  simp only [opt, h]

theorem opt_intro_err {O : Type} {f : P O} {i p : Input} {k : ErrKind}
    (h : f i = .err p k) : opt f i = .ok i none := by
  simp only [opt, h]

theorem altP_intro_ok {O : Type} {f g : P O} {i r : Input} {v : O}
    (h : f i = .ok r v) : altP f g i = .ok r v := by
  simp only [altP, h]

theorem altP_intro_err {O : Type} {f g : P O} {i p : Input} {k : ErrKind}
    (h : f i = .err p k) : altP f g i = g i := by
  simp only [altP, h]

theorem recognize_intro {O : Type} {f : P O} {i r : Input} {v : O}
    (h : f i = .ok r v) : recognize f i = .ok r (i.take (i.length - r.length)) := by
  simp only [recognize, h]

theorem recognize_intro_err {O : Type} {f : P O} {i p : Input} {k : ErrKind}
    (h : f i = .err p k) : recognize f i = .err p k := by
  simp only [recognize, h]

theorem isPrefixOf_append_self (t rest : Input) : t.isPrefixOf (t ++ rest) = true := by
  induction t with
  | nil => cases rest <;> rfl
  | cons a t ih => simp [List.isPrefixOf, ih]

theorem tag_intro (t rest : Input) : tag t (t ++ rest) = .ok rest t := by
  simp only [tag, isPrefixOf_append_self, if_true, List.drop_left]

theorem tag_intro_err {t i : Input} (h : t.isPrefixOf i = false) :
    tag t i = .err i .tagK := by
  simp only [tag, h, Bool.false_eq_true, if_false]

theorem tag_ok {t i r v : Input} (h : tag t i = .ok r v) :
    v = t ∧ t.isPrefixOf i = true ∧ r = i.drop t.length := by
  unfold tag at h
  split at h
  next hp =>
    cases h
    exact ⟨rfl, hp, rfl⟩
  next => cases h

theorem charB_intro (c : Nat) (t : Input) : charB c (c :: t) = .ok t c := by
  simp [charB]

theorem charB_intro_ne {b c : Nat} (t : Input) (h : ¬ b = c) :
    charB c (b :: t) = .err (b :: t) .charK := by
  simp [charB, h]

theorem charB_nil (c : Nat) : charB c [] = .err [] .charK := rfl

/-! ### takeWhile and whitespace lemmas -/

theorem takeWhile_append_all {p : Nat → Bool} :
    ∀ {a rest : Input}, a.all p = true →
      (a ++ rest).takeWhile p = a ++ rest.takeWhile p := by
  intro a
  induction a with
  | nil => intro rest _; rfl
  | cons b t ih =>
    intro rest h
    simp only [List.all_cons, Bool.and_eq_true] at h
    simp [List.takeWhile_cons, h.1, ih h.2]

theorem takeWhile_headNot {p : Nat → Bool} {rest : Input} (h : HeadNot p rest) :
    rest.takeWhile p = [] := by
  cases rest with
  | nil => rfl
  | cons b t =>
    unfold HeadNot at h
    simp [List.takeWhile_cons, h]

theorem takeWhile_append_exact {p : Nat → Bool} {a rest : Input}
    (ha : a.all p = true) (hr : HeadNot p rest) :
    (a ++ rest).takeWhile p = a := by
  rw [takeWhile_append_all ha, takeWhile_headNot hr, List.append_nil]

theorem ms0_exact {ws rest : Input} (hws : wsRunB ws = true)
    (hr : HeadNot isMSpaceB rest) : multispace0 (ws ++ rest) = .ok rest ws := by
  have ht : (ws ++ rest).takeWhile isMSpaceB = ws := takeWhile_append_exact hws hr
  simp only [multispace0, ht, List.drop_left]

theorem sp0_exact {hs rest : Input} (hhs : hRunB hs = true)
    (hr : HeadNot isHSpaceB rest) : space0 (hs ++ rest) = .ok rest hs := by
  have ht : (hs ++ rest).takeWhile isHSpaceB = hs := takeWhile_append_exact hhs hr
  simp only [space0, ht, List.drop_left]

theorem takeWhile1K_exact {p : Nat → Bool} {k : ErrKind} {a rest : Input}
    (ha : a.all p = true) (hne : ¬ a = []) (hr : HeadNot p rest) :
    takeWhile1K p k (a ++ rest) = .ok rest a := by
  have ht : (a ++ rest).takeWhile p = a := takeWhile_append_exact ha hr
  have hemp : a.isEmpty = false := by
    cases a with
    | nil => exact absurd rfl hne
    | cons b t => rfl
  simp only [takeWhile1K, ht, hemp, Bool.false_eq_true, if_false, List.drop_left]

theorem takeWhile1K_err {p : Nat → Bool} {k : ErrKind} {i : Input}
    (h : HeadNot p i) : takeWhile1K p k i = .err i k := by
  have ht : i.takeWhile p = [] := takeWhile_headNot h
  simp [takeWhile1K, ht]

theorem space1_exact {hs rest : Input} (hhs : hRunB hs = true) (hne : ¬ hs = [])
    (hr : HeadNot isHSpaceB rest) : space1 (hs ++ rest) = .ok rest hs :=
  takeWhile1K_exact hhs hne hr

theorem digit1_exact {ds rest : Input} (hds : ds.all isDigitB = true) (hne : ¬ ds = [])
    (hr : HeadNot isDigitB rest) : digit1 (ds ++ rest) = .ok rest ds :=
  takeWhile1K_exact hds hne hr

/-! ### No-crash and consumption lemmas -/

theorem pseq_noCrash {O O2 : Type} {f : P O} {g : O → P O2}
    (hf : NoCrash f) (hg : ∀ a, NoCrash (g a)) : NoCrash (pseq f g) := by
  intro i h
  unfold pseq at h
  split at h
  next i1 v1 _ => exact hg v1 i1 h
  next => cases h
  next hfi => exact hf i hfi

theorem pmap_noCrash {O O2 : Type} {f : P O} {g : O → O2}
    (hf : NoCrash f) : NoCrash (pmap f g) := by
  intro i h
  unfold pmap at h
  split at h
  next r1 v1 _ => cases h
  next => cases h
  next hfi => exact hf i hfi

theorem map_res_noCrash {O O2 : Type} {f : P O} {g : O → Option O2}
    (hf : NoCrash f) : NoCrash (map_res f g) := by
  intro i h
  unfold map_res at h
  split at h
  next r1 v1 _ =>
    split at h
    next => cases h
    next => cases h
  next => cases h
  next hfi => exact hf i hfi

theorem opt_noCrash {O : Type} {f : P O} (hf : NoCrash f) : NoCrash (opt f) := by
  intro i h
  unfold opt at h
  split at h
  next r1 v1 _ => cases h
  next hfi => exact hf i hfi
  next => cases h

theorem altP_noCrash {O : Type} {f g : P O} (hf : NoCrash f) (hg : NoCrash g) :
    NoCrash (altP f g) := by
  intro i h
  unfold altP at h
  split at h
  next r1 v1 _ => cases h
  next hfi => exact hf i hfi
  next => exact hg i h

theorem recognize_noCrash {O : Type} {f : P O} (hf : NoCrash f) :
    NoCrash (recognize f) := by
  intro i h
  unfold recognize at h
  split at h
  next r1 v1 _ => cases h
  next => cases h
  next hfi => exact hf i hfi

theorem tag_noCrash (t : Input) : NoCrash (tag t) := by
  intro i h
  unfold tag at h
  split at h <;> cases h

theorem charB_noCrash (c : Nat) : NoCrash (charB c) := by
  intro i h
  unfold charB at h
  split at h
  next b t => split at h <;> cases h
  next => cases h

theorem takeWhile1K_noCrash (p : Nat → Bool) (k : ErrKind) :
    NoCrash (takeWhile1K p k) := by
  intro i h
  simp only [takeWhile1K] at h
  split at h <;> cases h

theorem space0_noCrash : NoCrash space0 := by
  intro i h
  unfold space0 at h
  cases h

theorem ms0_noCrash : NoCrash multispace0 := by
  intro i h
  unfold multispace0 at h
  cases h

theorem take_while_noCrash (p : Nat → Bool) : NoCrash (take_while p) := by
  intro i h
  unfold take_while at h
  cases h

theorem pmap_nonInc {O O2 : Type} {f : P O} {g : O → O2} (hf : NonIncreasing f) :
    NonIncreasing (pmap f g) := by
  intro i r v h
  obtain ⟨v1, hf1, _⟩ := pmap_ok h
  exact hf i r v1 hf1

theorem pmap_dec {O O2 : Type} {f : P O} {g : O → O2} (hf : Decreasing f) :
    Decreasing (pmap f g) := by
  intro i r v h
  obtain ⟨v1, hf1, _⟩ := pmap_ok h
  exact hf i r v1 hf1

theorem pseq_nonInc {O O2 : Type} {f : P O} {g : O → P O2}
    (hf : NonIncreasing f) (hg : ∀ a, NonIncreasing (g a)) :
    NonIncreasing (pseq f g) := by
  intro i r v h
  obtain ⟨i1, v1, hf1, hg1⟩ := pseq_ok h
  exact le_trans (hg v1 i1 r v hg1) (hf i i1 v1 hf1)

theorem pseq_dec_left {O O2 : Type} {f : P O} {g : O → P O2}
    (hf : Decreasing f) (hg : ∀ a, NonIncreasing (g a)) :
    Decreasing (pseq f g) := by
  intro i r v h
  obtain ⟨i1, v1, hf1, hg1⟩ := pseq_ok h
  exact lt_of_le_of_lt (hg v1 i1 r v hg1) (hf i i1 v1 hf1)

theorem pseq_dec_right {O O2 : Type} {f : P O} {g : O → P O2}
    (hf : NonIncreasing f) (hg : ∀ a, Decreasing (g a)) :
    Decreasing (pseq f g) := by
  intro i r v h
  obtain ⟨i1, v1, hf1, hg1⟩ := pseq_ok h
  exact lt_of_lt_of_le (hg v1 i1 r v hg1) (hf i i1 v1 hf1)

theorem opt_nonInc {O : Type} {f : P O} (hf : NonIncreasing f) :
    NonIncreasing (opt f) := by
  intro i r v h
  unfold opt at h
  split at h
  next r1 v1 hf1 =>
    cases h
    exact hf i _ _ hf1
  next => cases h
  next =>
    cases h
    exact le_refl _

theorem altP_nonInc {O : Type} {f g : P O}
    (hf : NonIncreasing f) (hg : NonIncreasing g) : NonIncreasing (altP f g) := by
  intro i r v h
  unfold altP at h
  split at h
  next r1 v1 hf1 =>
    cases h
    exact hf i _ _ hf1
  next => cases h
  next => exact hg i r v h

theorem altP_dec {O : Type} {f g : P O}
    (hf : Decreasing f) (hg : Decreasing g) : Decreasing (altP f g) := by
  intro i r v h
  unfold altP at h
  split at h
  next r1 v1 hf1 =>
    cases h
    exact hf i _ _ hf1
  next => cases h
  next => exact hg i r v h

theorem charB_dec (c : Nat) : Decreasing (charB c) := by
  intro i r v h
  unfold charB at h
  split at h
  next b t =>
    split at h
    · cases h
      simp
    · cases h
  next => cases h

theorem takeWhile_len_le (p : Nat → Bool) : ∀ l : Input, (l.takeWhile p).length ≤ l.length := by
  intro l
  induction l with
  | nil => simp
  | cons a t ih =>
    by_cases h : p a <;> simp [List.takeWhile_cons, h] <;> omega

theorem takeWhile1K_dec (p : Nat → Bool) (k : ErrKind) : Decreasing (takeWhile1K p k) := by
  intro i r v h
  simp only [takeWhile1K] at h
  split at h
  next he => cases h
  next he =>
    cases h
    have hlen : 0 < (i.takeWhile p).length := by
      cases htk : i.takeWhile p with
      | nil => rw [htk] at he; simp at he
      | cons a l => simp [htk]
    have hle : (i.takeWhile p).length ≤ i.length := takeWhile_len_le p i
    simp only [List.length_drop]
    omega

theorem tag_nonInc (t : Input) : NonIncreasing (tag t) := by
  intro i r v h
  obtain ⟨_, _, hr⟩ := tag_ok h
  subst hr
  simp [List.length_drop]

theorem ms0_nonInc : NonIncreasing multispace0 := by
  intro i r v h
  unfold multispace0 at h
  cases h
  simp [List.length_drop]

theorem sp0_nonInc : NonIncreasing space0 := by
  intro i r v h
  unfold space0 at h
  cases h
  simp [List.length_drop]

theorem take_while_nonInc (p : Nat → Bool) : NonIncreasing (take_while p) := by
  intro i r v h
  unfold take_while at h
  cases h
  simp [List.length_drop]

theorem recognize_nonInc {O : Type} {f : P O} (hf : NonIncreasing f) :
    NonIncreasing (recognize f) := by
  intro i r v h
  unfold recognize at h
  split at h
  next r1 v1 hf1 =>
    cases h
    exact hf i _ _ hf1
  next => cases h
  next => cases h

theorem recognize_dec {O : Type} {f : P O} (hf : Decreasing f) :
    Decreasing (recognize f) := by
  intro i r v h
  unfold recognize at h
  split at h
  next r1 v1 hf1 =>
    cases h
    exact hf i _ _ hf1
  next => cases h
  next => cases h

theorem map_res_nonInc {O O2 : Type} {f : P O} {g : O → Option O2}
    (hf : NonIncreasing f) : NonIncreasing (map_res f g) := by
  intro i r v h
  obtain ⟨v1, hf1, _⟩ := map_res_ok h
  exact hf i r v1 hf1

theorem signP_nonInc : NonIncreasing signP :=
  opt_nonInc (altP_nonInc (fun i r v h => le_of_lt (charB_dec 43 i r v h))
    (fun i r v h => le_of_lt (charB_dec 45 i r v h)))

theorem digit1_dec : Decreasing digit1 := takeWhile1K_dec isDigitB .digitK

theorem mantissa_dec : Decreasing mantissa := by
  apply altP_dec
  · apply pmap_dec
    apply pseq_dec_left digit1_dec
    intro a
    apply pmap_nonInc
    apply opt_nonInc
    apply pseq_nonInc (fun i r v h => le_of_lt (charB_dec 46 i r v h))
    intro b
    exact pmap_nonInc (opt_nonInc (fun i r v h => le_of_lt (digit1_dec i r v h)))
  · apply pmap_dec
    exact pseq_dec_left (charB_dec 46)
      (fun a => pmap_nonInc (fun i r v h => le_of_lt (digit1_dec i r v h)))

theorem exponentPart_nonInc : NonIncreasing exponentPart := by
  apply opt_nonInc
  apply pseq_nonInc (altP_nonInc (fun i r v h => le_of_lt (charB_dec 101 i r v h))
    (fun i r v h => le_of_lt (charB_dec 69 i r v h)))
  intro a
  apply pseq_nonInc signP_nonInc
  intro b
  exact pmap_nonInc (fun i r v h => le_of_lt (digit1_dec i r v h))

theorem float_dec : Decreasing float := by
  show Decreasing (recognize (tuple3 signP mantissa exponentPart))
  apply recognize_dec
  unfold tuple3
  apply pseq_dec_right signP_nonInc
  intro a
  apply pseq_dec_left mantissa_dec
  intro b
  exact pmap_nonInc exponentPart_nonInc

theorem signP_noCrash : NoCrash signP :=
  opt_noCrash (altP_noCrash (charB_noCrash 43) (charB_noCrash 45))

theorem digit1_noCrash : NoCrash digit1 := takeWhile1K_noCrash isDigitB .digitK

theorem float_noCrash : NoCrash float := by
  show NoCrash (recognize (tuple3 signP mantissa exponentPart))
  apply recognize_noCrash
  unfold tuple3
  apply pseq_noCrash signP_noCrash
  intro a
  apply pseq_noCrash
  · apply altP_noCrash
    · apply pmap_noCrash
      apply pseq_noCrash digit1_noCrash
      intro c
      apply pmap_noCrash
      apply opt_noCrash
      apply pseq_noCrash (charB_noCrash 46)
      intro d
      exact pmap_noCrash (opt_noCrash digit1_noCrash)
    · apply pmap_noCrash
      apply pseq_noCrash (charB_noCrash 46)
      intro c
      exact pmap_noCrash digit1_noCrash
  · intro b
    apply pmap_noCrash
    apply opt_noCrash
    apply pseq_noCrash (altP_noCrash (charB_noCrash 101) (charB_noCrash 69))
    intro c
    apply pseq_noCrash signP_noCrash
    intro d
    exact pmap_noCrash digit1_noCrash

theorem space1_dec : Decreasing space1 := takeWhile1K_dec isHSpaceB .spaceK

theorem space1_noCrash : NoCrash space1 := takeWhile1K_noCrash isHSpaceB .spaceK

/-! ### The inner row parser never fails -/

theorem sepLoop_inner_total :
    ∀ (fuel : Nat) (i : Input), i.length ≤ fuel →
      ∃ r v, sepLoop space1 float fuel i = .ok r v ∧ r.length ≤ i.length := by
  intro fuel
  induction fuel with
  | zero =>
    intro i hle
    have hi : i = [] := List.length_eq_zero.mp (Nat.le_zero.mp hle)
    subst hi
    cases hs : space1 [] with
    | ok r2 v2 => exact absurd (space1_dec [] r2 v2 hs) (by simp)
    | err p k =>
      refine ⟨[], [], ?_, le_refl _⟩
      rw [sepLoop]
      simp [hs]
    | crash => exact absurd hs (space1_noCrash [])
  | succ fuel ih =>
    intro i hle
    cases hs : space1 i with
    | err p k =>
      refine ⟨i, [], ?_, le_refl _⟩
      rw [sepLoop]
      simp [hs]
    | crash => exact absurd hs (space1_noCrash i)
    | ok i1 v1 =>
      have h1 : i1.length < i.length := space1_dec i i1 v1 hs
      have hne1 : ¬ i1 = i := fun he => by rw [he] at h1; exact lt_irrefl _ h1
      cases hf : float i1 with
      | err p k =>
        refine ⟨i, [], ?_, le_refl _⟩
        rw [sepLoop]
        simp [hs, hne1, hf]
      | crash => exact absurd hf (float_noCrash i1)
      | ok i2 v2 =>
        have h2 : i2.length < i1.length := float_dec i1 i2 v2 hf
        have hne2 : ¬ i2 = i := fun he => by rw [he] at h2; omega
        have hlt : i2.length < i.length := by omega
        obtain ⟨r, vs, hrec, hrle⟩ := ih i2 (by omega)
        refine ⟨r, v2 :: vs, ?_, by omega⟩
        rw [sepLoop]
        simp only [hs, if_neg hne1, hf, if_neg hne2, if_pos hlt, hrec]

theorem inner_row_total :
    ∀ i : Input, ∃ r v, separated_list space1 float i = .ok r v ∧ r.length ≤ i.length := by
  intro i
  cases hf : float i with
  | err p k =>
    refine ⟨i, [], ?_, le_refl _⟩
    simp only [separated_list, hf]
  | crash => exact absurd hf (float_noCrash i)
  | ok i1 v1 =>
    have h1 : i1.length < i.length := float_dec i i1 v1 hf
    have hne1 : ¬ i1 = i := fun he => by rw [he] at h1; exact lt_irrefl _ h1
    obtain ⟨r, vs, hrec, hrle⟩ := sepLoop_inner_total i1.length i1 (le_refl _)
    refine ⟨r, v1 :: vs, ?_, by omega⟩
    simp only [separated_list, hf, if_neg hne1, hrec]

theorem separated_list_first_empty {A B : Type} {sep : P B} {f : P A} {i : Input}
    {v0 : A} (h : f i = .ok i v0) :
    separated_list sep f i = .err i .separatedListK := by
  simp [separated_list, h]

theorem separated_list_intro_cons {A B : Type} {sep : P B} {f : P A} {i i1 : Input}
    {v1 : A} (h : f i = .ok i1 v1) (hne : ¬ i1 = i) :
    separated_list sep f i =
      (match sepLoop sep f i1.length i1 with
        | .ok r vs => .ok r (v1 :: vs)
        | .err p k => .err p k
        | .crash => .crash) := by
  simp only [separated_list, h, if_neg hne]

/-- Whenever the outer newline-separated row list of `matrix` succeeds, it
holds at least one row: the inner row parser always succeeds, so a first
row that consumes no input makes the outer list abort with
`ErrorKind::SeparatedList` instead of succeeding. -/
theorem rowList_ok_nonempty :
    ∀ i r v,
      separated_list (spaced (tag (bytes ("\n")))) (separated_list space1 float) i
        = .ok r v → 0 < v.length := by
  intro i r v h
  obtain ⟨r0, v0, hin, hle⟩ := inner_row_total i
  by_cases he : r0 = i
  · rw [he] at hin
    rw [separated_list_first_empty hin] at h
    cases h
  · rw [separated_list_intro_cons hin he] at h
    split at h
    next r2 vs _ =>
      cases h
      simp
    next => cases h
    next => cases h

theorem delimited_ok {A B C : Type} {f : P A} {g : P B} {hp : P C} {i r : Input} {v : B}
    (h : delimited f g hp i = .ok r v) :
    ∃ i1 v1 i2 v3, f i = .ok i1 v1 ∧ g i1 = .ok i2 v ∧ hp i2 = .ok r v3 := by
  unfold delimited at h
  obtain ⟨i1, v1, hf, h2⟩ := pseq_ok h
  obtain ⟨i2, v2, hg, h3⟩ := pseq_ok h2
  obtain ⟨v3, hh, hv⟩ := pmap_ok h3
  subst hv
  exact ⟨i1, v1, i2, v3, hf, hg, hh⟩

theorem matrixRows_nonempty :
    ∀ i r v, matrixRows i = .ok r v → 0 < v.length := by
  intro i r v h
  obtain ⟨i1, v1, i2, v3, _, hg, _⟩ := delimited_ok h
  exact rowList_ok_nonempty i1 i2 v hg

/-- Claim C10: the row-list combinator rejects a first row that consumes
no input (the inner list always succeeds, so zero consumption is an
immediate `SeparatedList` error), and every successfully consumed
bracketed row list has at least one row, so the column computation
`data.len() / lines` never divides by zero. -/
theorem claim10_confirmed :
    (∀ i v0,
      separated_list space1 float i = .ok i v0 →
      separated_list (spaced (tag (bytes ("\n")))) (separated_list space1 float) i
        = .err i .separatedListK) ∧
    ∀ i r v, matrixRows i = .ok r v → 0 < v.length :=
  ⟨fun _ _ h => separated_list_first_empty h, matrixRows_nonempty⟩

/-- Witness for claim C10: a row list whose first row is empty (input `]`)
is rejected, and a successful one-row list has a positive row count. -/
theorem claim10_witness :
    separated_list (spaced (tag (bytes ("\n")))) (separated_list space1 float)
      (bytes ("]")) = .err (bytes ("]")) .separatedListK ∧
    (0 : Nat) < ([[bytes ("1.0")]] : List (List Input)).length :=
  ⟨claim10_confirmed.1 (bytes ("]")) [] (by decide),
   claim10_confirmed.2 (bytes ("[ 1.0 ]")) [] [[bytes ("1.0")]] (by decide)⟩

/-! ### Whitespace skipping and name extraction -/

theorem ms0_skip {i : Input} (h : HeadNot isMSpaceB i) : multispace0 i = .ok i [] := by
  have ht := takeWhile_headNot h
  simp [multispace0, ht]

theorem sp0_skip {i : Input} (h : HeadNot isHSpaceB i) : space0 i = .ok i [] := by
  have ht := takeWhile_headNot h
  simp [space0, ht]

theorem takeWhile_append_headNot {p : Nat → Bool} :
    ∀ (a : Input) {rest : Input}, HeadNot p rest →
      (a ++ rest).takeWhile p = a.takeWhile p := by
  intro a
  induction a with
  | nil =>
    intro rest h
    simpa using takeWhile_headNot h
  | cons b t ih =>
    intro rest h
    by_cases hb : p b
    · simp [List.takeWhile_cons, hb, ih h]
    · simp [List.takeWhile_cons, hb]

theorem all_drop {p : Nat → Bool} {l : Input} (h : l.all p = true) (n : Nat) :
    (l.drop n).all p = true := by
  rw [List.all_eq_true] at *
  intro x hx
  exact h x (List.mem_of_mem_drop hx)

theorem many0_stop {O : Type} {f : P O} {i p : Input} {k : ErrKind}
    (h : f i = .err p k) : many0 f i = .ok i [] := by
  unfold many0
  rw [many0Go]
  simp [h]

theorem headNot_alphaNum_of_nameChar {i : Input} (h : HeadNot isNameCharB i) :
    HeadNot isAlphaNumB i := by
  cases i with
  | nil => exact trivial
  | cons b t =>
    unfold HeadNot at *
    unfold isNameCharB at h
    simp only [Bool.or_eq_false_iff] at h
    exact h.1.1.1

theorem headNot_alpha_of_nameChar {i : Input} (h : HeadNot isNameCharB i) :
    HeadNot isAlphaB i := by
  have h2 := headNot_alphaNum_of_nameChar h
  cases i with
  | nil => exact trivial
  | cons b t =>
    unfold HeadNot at *
    unfold isAlphaNumB at h2
    simp only [Bool.or_eq_false_iff] at h2
    exact h2.1

/-- `nameTailAlt` fails whenever the next byte is not a name character. -/
theorem nameTailAlt_err {i : Input} (h : HeadNot isNameCharB i) :
    nameTailAlt i = .err i .tagK := by
  have h1 : alphanumeric1 i = .err i .alphaNumericK :=
    takeWhile1K_err (headNot_alphaNum_of_nameChar h)
  have hpun : ∀ c : Nat, (c = 46 ∨ c = 95 ∨ c = 45) →
      tag [c] i = .err i .tagK := by
    intro c hco
    apply tag_intro_err
    cases i with
    | nil => simp [List.isPrefixOf]
    | cons b t =>
      unfold HeadNot isNameCharB at h
      simp only [Bool.or_eq_false_iff] at h
      have hb : ¬ b = c := by
        intro he
        subst he
        rcases hco with hc | hc | hc <;> subst hc <;> simp at h
      simp [List.isPrefixOf, hb, Ne.symm]
  have hdot := hpun 46 (Or.inl rfl)
  have hund := hpun 95 (Or.inr (Or.inl rfl))
  have hdash := hpun 45 (Or.inr (Or.inr rfl))
  unfold nameTailAlt
  rw [altP_intro_err h1,
    altP_intro_err (show tag (bytes (".")) i = .err i .tagK from hdot),
    altP_intro_err (show tag (bytes ("_")) i = .err i .tagK from hund)]
  exact hdash

/-- The tail loop of `name` consumes exactly a run of name characters,
stopping at the first byte that is not one. -/
theorem many0Go_nameTail :
    ∀ (n : Nat) (s rest : Input), s.length ≤ n → s.all isNameCharB = true →
      HeadNot isNameCharB rest →
      ∃ vs, many0Go nameTailAlt n (s ++ rest) = .ok rest vs := by
  intro n
  induction n with
  | zero =>
    intro s rest hlen hall hr
    have hs : s = [] := List.length_eq_zero.mp (Nat.le_zero.mp hlen)
    subst hs
    refine ⟨[], ?_⟩
    rw [many0Go]
    simp [nameTailAlt_err hr]
  | succ n ih =>
    intro s rest hlen hall hr
    cases s with
    | nil =>
      refine ⟨[], ?_⟩
      rw [many0Go]
      simp [nameTailAlt_err hr]
    | cons c s' =>
      simp only [List.all_cons, Bool.and_eq_true] at hall
      obtain ⟨hc, hall'⟩ := hall
      by_cases hcan : isAlphaNumB c = true
      · set A := (c :: s').takeWhile isAlphaNumB with hA
        have hAne : ¬ A = [] := by
          rw [hA]
          simp [List.takeWhile_cons, hcan]
        have hAall : A.all isAlphaNumB = true := by
          rw [List.all_eq_true]
          intro x hx
          exact List.mem_takeWhile_imp hx
        have hAlen : A.length ≤ (c :: s').length := by
          rw [hA]
          exact takeWhile_len_le _ _
        have hApos : 0 < A.length := by
          cases hAe : A with
          | nil => exact absurd hAe hAne
          | cons x xs => simp [hAe]
        have htw : ((c :: s') ++ rest).takeWhile isAlphaNumB = A := by
          rw [takeWhile_append_headNot _ (headNot_alphaNum_of_nameChar hr), hA]
        have hie : A.isEmpty = false := by
          cases hAe : A with
          | nil => exact absurd hAe hAne
          | cons x xs => rfl
        have h1 : alphanumeric1 ((c :: s') ++ rest) =
            .ok ((c :: s').drop A.length ++ rest) A := by
          simp only [alphanumeric1, takeWhile1K, htw, hie, Bool.false_eq_true, if_false,
            List.drop_append_of_le_length hAlen]
        have hstep : nameTailAlt ((c :: s') ++ rest) =
            .ok ((c :: s').drop A.length ++ rest) A := by
          unfold nameTailAlt
          rw [altP_intro_ok h1]
        have hall2 : ((c :: s').drop A.length).all isNameCharB = true := by
          apply all_drop
          simp [List.all_cons, hc, hall']
        have hlen2 : ((c :: s').drop A.length).length ≤ n := by
          simp only [List.length_drop, List.length_cons]
          simp only [List.length_cons] at hlen
          omega
        obtain ⟨vs, hrec⟩ := ih ((c :: s').drop A.length) rest hlen2 hall2 hr
        refine ⟨A :: vs, ?_⟩
        rw [many0Go]
        have hcons : (((c :: s').drop A.length ++ rest).length <
            ((c :: s') ++ rest).length) := by
          simp only [List.length_append, List.length_drop, List.length_cons]
          omega
        simp only [hstep, hcons, if_pos, hrec]
      · have h1 : alphanumeric1 ((c :: s') ++ rest) =
            .err ((c :: s') ++ rest) .alphaNumericK := by
          apply takeWhile1K_err
          exact (by simpa using hcan : isAlphaNumB c = false)
        have hcs : c = 46 ∨ c = 95 ∨ c = 45 := by
          unfold isNameCharB at hc
          simp only [Bool.or_eq_true, decide_eq_true_eq] at hc
          rcases hc with ((hh | hh) | hh) | hh
          · exact absurd hh hcan
          · exact Or.inl hh
          · exact Or.inr (Or.inl hh)
          · exact Or.inr (Or.inr hh)
        have hall2 : s'.all isNameCharB = true := hall'
        have hlen2 : s'.length ≤ n := by
          simp only [List.length_cons] at hlen
          omega
        obtain ⟨vs, hrec⟩ := ih s' rest hlen2 hall2 hr
        have hcons : ((s' ++ rest).length < ((c :: s') ++ rest).length) := by
          simp
        rcases hcs with hc46 | hc95 | hc45
        · subst hc46
          have htg : tag (bytes (".")) ((46 :: s') ++ rest) = .ok (s' ++ rest) (bytes (".")) :=
            tag_intro (bytes (".")) (s' ++ rest)
          have hstep : nameTailAlt ((46 :: s') ++ rest) = .ok (s' ++ rest) (bytes (".")) := by
            unfold nameTailAlt
            rw [altP_intro_err h1, altP_intro_ok htg]
          refine ⟨bytes (".") :: vs, ?_⟩
          rw [many0Go]
          simp only [hstep, hcons, if_pos, hrec]
        · subst hc95
          have htg : tag (bytes ("_")) ((95 :: s') ++ rest) = .ok (s' ++ rest) (bytes ("_")) :=
            tag_intro (bytes ("_")) (s' ++ rest)
          have htgdot : tag (bytes (".")) ((95 :: s') ++ rest) =
              .err ((95 :: s') ++ rest) .tagK := by
            apply tag_intro_err
            simp [show bytes (".") = [46] from by decide, List.isPrefixOf]
          have hstep : nameTailAlt ((95 :: s') ++ rest) = .ok (s' ++ rest) (bytes ("_")) := by
            unfold nameTailAlt
            rw [altP_intro_err h1, altP_intro_err htgdot, altP_intro_ok htg]
          refine ⟨bytes ("_") :: vs, ?_⟩
          rw [many0Go]
          simp only [hstep, hcons, if_pos, hrec]
        · subst hc45
          have htg : tag (bytes ("-")) ((45 :: s') ++ rest) = .ok (s' ++ rest) (bytes ("-")) :=
            tag_intro (bytes ("-")) (s' ++ rest)
          have htgdot : tag (bytes (".")) ((45 :: s') ++ rest) =
              .err ((45 :: s') ++ rest) .tagK := by
            apply tag_intro_err
            simp [show bytes (".") = [46] from by decide, List.isPrefixOf]
          have htgund : tag (bytes ("_")) ((45 :: s') ++ rest) =
              .err ((45 :: s') ++ rest) .tagK := by
            apply tag_intro_err
            simp [show bytes ("_") = [95] from by decide, List.isPrefixOf]
          have hstep : nameTailAlt ((45 :: s') ++ rest) = .ok (s' ++ rest) (bytes ("-")) := by
            unfold nameTailAlt
            rw [altP_intro_err h1, altP_intro_err htgdot, altP_intro_err htgund, htg]
          refine ⟨bytes ("-") :: vs, ?_⟩
          rw [many0Go]
          simp only [hstep, hcons, if_pos, hrec]

theorem isAlphaB_le {b : Nat} (h : isAlphaB b = true) : b ≤ 127 := by
  unfold isAlphaB at h
  simp only [Bool.or_eq_true, Bool.and_eq_true, decide_eq_true_eq] at h
  omega

theorem isNameCharB_le {b : Nat} (h : isNameCharB b = true) : b ≤ 127 := by
  unfold isNameCharB isAlphaNumB isAlphaB isDigitB at h
  simp only [Bool.or_eq_true, Bool.and_eq_true, decide_eq_true_eq] at h
  omega

theorem utf8Go_cons_ascii (fuel : Nat) (b : Nat) (t : Input) (h : b ≤ 127) :
    utf8Go (fuel + 1) (b :: t) = utf8Go fuel t := by
  have hc : utf8Class b = 0 := by
    unfold utf8Class
    rw [if_pos (by omega : b ≤ 0x7F)]
  rw [utf8Go]
  simp only [hc, if_pos]

theorem utf8Go_ascii_append (a : Input) :
    ∀ (fuel : Nat) (b : Input), a.all (fun x => x ≤ 127) = true →
    utf8Go (a.length + fuel) (a ++ b) = utf8Go fuel b := by
  induction a with
  | nil =>
    intro fuel b _
    simp
  | cons c t ih =>
    intro fuel b ha
    simp only [List.all_cons, Bool.and_eq_true, decide_eq_true_eq] at ha
    have he : (c :: t).length + fuel = (t.length + fuel) + 1 := by
      simp only [List.length_cons]
      omega
    rw [he, List.cons_append, utf8Go_cons_ascii _ _ _ ha.1]
    exact ih fuel b ha.2

theorem utf8Valid_of_ascii_append {a b : Input} (ha : a.all (fun x => x ≤ 127) = true)
    (h : utf8Valid (a ++ b) = true) : utf8Valid b = true := by
  unfold utf8Valid at *
  rw [show (a ++ b).length = a.length + b.length from by simp,
    utf8Go_ascii_append a b.length b ha] at h
  exact h

theorem utf8Valid_ascii (l : Input) (h : l.all (fun x => x ≤ 127) = true) :
    utf8Valid l = true := by
  have h2 := utf8Go_ascii_append l 0 [] h
  unfold utf8Valid
  rw [show l ++ [] = l from by simp] at h2
  rw [show l.length = l.length + 0 from by omega, h2]
  rfl

/-- `name` on a grammar identifier followed by a non-name byte consumes
exactly the identifier. -/
theorem name_exact {nm rest : Input} (hnm : nameTokB nm = true)
    (hr : HeadNot isNameCharB rest) : name (nm ++ rest) = .ok rest nm := by
  obtain ⟨b, t, hbt⟩ : ∃ b t, nm = b :: t := by
    cases nm with
    | nil => simp [nameTokB] at hnm
    | cons b t => exact ⟨b, t, rfl⟩
  subst hbt
  simp only [nameTokB, Bool.and_eq_true] at hnm
  obtain ⟨hb, ht⟩ := hnm
  set A := (b :: t).takeWhile isAlphaB with hA
  have hAne : ¬ A = [] := by
    rw [hA]
    simp [List.takeWhile_cons, hb]
  have hAlen : A.length ≤ (b :: t).length := by
    rw [hA]
    exact takeWhile_len_le _ _
  have htw : ((b :: t) ++ rest).takeWhile isAlphaB = A := by
    rw [takeWhile_append_headNot _ (headNot_alpha_of_nameChar hr), hA]
  have hie : A.isEmpty = false := by
    cases hAe : A with
    | nil => exact absurd hAe hAne
    | cons x xs => rfl
  have halpha : alpha1 ((b :: t) ++ rest) = .ok ((b :: t).drop A.length ++ rest) A := by
    simp only [alpha1, takeWhile1K, htw, hie, Bool.false_eq_true, if_false,
      List.drop_append_of_le_length hAlen]
  have hall2 : ((b :: t).drop A.length).all isNameCharB = true := by
    apply all_drop
    rw [List.all_cons, Bool.and_eq_true]
    constructor
    · unfold isNameCharB isAlphaNumB
      simp [hb]
    · exact ht
  obtain ⟨vs, hmany0⟩ := many0Go_nameTail ((b :: t).drop A.length ++ rest).length
    ((b :: t).drop A.length) rest (by simp) hall2 hr
  have hmany : many0 nameTailAlt ((b :: t).drop A.length ++ rest) = .ok rest vs := hmany0
  have hpair : pairP alpha1 (many0 nameTailAlt) ((b :: t) ++ rest) = .ok rest (A, vs) := by
    unfold pairP
    rw [pseq_intro halpha, pmap_intro hmany]
  have hrec : recognize (pairP alpha1 (many0 nameTailAlt)) ((b :: t) ++ rest) =
      .ok rest (b :: t) := by
    rw [recognize_intro hpair]
    have harith : ((b :: t) ++ rest).length - rest.length = (b :: t).length := by
      simp only [List.length_append]
      omega
    rw [harith, List.take_left]
  have hascii : (b :: t).all (fun x => x ≤ 127) = true := by
    rw [List.all_eq_true]
    intro x hx
    rcases List.mem_cons.mp hx with hx1 | hx2
    · subst hx1
      simpa using isAlphaB_le hb
    · have := (List.all_eq_true.mp ht) x hx2
      simpa using isNameCharB_le this
  have hutf : from_utf8 (b :: t) = some (b :: t) := by
    unfold from_utf8
    rw [if_pos (utf8Valid_ascii _ hascii)]
  unfold name
  exact map_res_intro_some hrec hutf

/-! ### Scalar failure on bracketed and padded inputs -/

theorem float_err_head {b : Nat} (t : Input) (hd : isDigitB b = false)
    (hs : ¬ b = 43) (hs2 : ¬ b = 45) (hdot : ¬ b = 46) :
    float (b :: t) = .err (b :: t) .charK := by
  have hsign : signP (b :: t) = .ok (b :: t) none := by
    unfold signP
    rw [opt_intro_err (show altP (charB 43) (charB 45) (b :: t) = .err (b :: t) .charK by
      rw [altP_intro_err (charB_intro_ne t hs), charB_intro_ne t hs2])]
  have hman : mantissa (b :: t) = .err (b :: t) .charK := by
    have hd1 : digit1 (b :: t) = .err (b :: t) .digitK := by
      apply takeWhile1K_err
      exact hd
    unfold mantissa
    rw [altP_intro_err (pmap_intro_err (pairP_intro_err hd1)),
      pmap_intro_err (pairP_intro_err (charB_intro_ne t hdot))]
  show recognize (tuple3 signP mantissa exponentPart) (b :: t) = _
  apply recognize_intro_err
  unfold tuple3
  rw [pseq_intro hsign, pseq_intro_err hman]

theorem integer_err_head {b : Nat} (t : Input) (hd : isDigitB b = false)
    (hs : ¬ b = 45) : integer (b :: t) = .err (b :: t) .mapResK := by
  have htag : tag (bytes ("-")) (b :: t) = .err (b :: t) .tagK := by
    apply tag_intro_err
    simp [show bytes ("-") = [45] from by decide, List.isPrefixOf, hs]
    intro he
    exact absurd he.symm hs
  have htw : take_while isDigitB (b :: t) = .ok (b :: t) [] := by
    unfold take_while
    simp [List.takeWhile_cons, hd]
  have hpair : pairP (opt (tag (bytes ("-")))) (take_while isDigitB) (b :: t) =
      .ok (b :: t) (none, []) := by
    unfold pairP
    rw [pseq_intro (opt_intro_err htag), pmap_intro htw]
  have hrec : recognize (pairP (opt (tag (bytes ("-")))) (take_while isDigitB)) (b :: t) =
      .ok (b :: t) [] := by
    rw [recognize_intro hpair, Nat.sub_self, List.take_zero]
  unfold integer
  apply map_res_intro_none (map_res_intro_some hrec (show from_utf8 [] = some [] from rfl))
  rfl

theorem scalar_err_head {b : Nat} (t : Input)
    (hb : b = 32 ∨ b = 9 ∨ b = 91) : scalar (b :: t) = .err (b :: t) .tagK := by
  have hcond : isDigitB b = false ∧ ¬ b = 43 ∧ ¬ b = 45 ∧ ¬ b = 46 ∧
      ¬ b = 70 ∧ ¬ b = 84 := by
    rcases hb with h | h | h <;> subst h <;> refine ⟨by decide, ?_, ?_, ?_, ?_, ?_⟩ <;> decide
  obtain ⟨hd, h43, h45, h46, h70, h84⟩ := hcond
  have hfl := float_err_head t hd h43 h45 h46
  have hint := integer_err_head t hd h45
  have hF : tag (bytes ("F")) (b :: t) = .err (b :: t) .tagK := by
    apply tag_intro_err
    simp [show bytes ("F") = [70] from by decide, List.isPrefixOf]
    intro he
    exact absurd he.symm h70
  have hT : tag (bytes ("T")) (b :: t) = .err (b :: t) .tagK := by
    apply tag_intro_err
    simp [show bytes ("T") = [84] from by decide, List.isPrefixOf]
    intro he
    exact absurd he.symm h84
  unfold scalar
  rw [altP_intro_err (pmap_intro_err hfl), altP_intro_err (pmap_intro_err hint),
    altP_intro_err (pmap_intro_err hF), pmap_intro_err hT]

/-- Claim C1 (amended): whenever the bracketed row list is consumed, the
matrix parser reshapes the flattened elements into `(rows, total / rows)`
exactly when the row count divides the total element count, and panics
otherwise; a ragged literal whose counts happen to divide (rows `1.0` and
`2.0 3.0 4.0`) is silently reshaped into a 2×2 tensor whose second row
starts inside the original second row. -/
theorem claim1_amended :
    (∀ i r v, matrixRows i = .ok r v →
      matrix i = if v.flatten.length % v.length = 0
        then .ok r (Tensor.rank2 v.length (v.flatten.length / v.length) v.flatten)
        else .crash) ∧
    tensor (bytes ("[ 1.0\n 2.0 3.0 4.0 ]")) =
      .ok [] (Tensor.rank2 2 2 [bytes ("1.0"), bytes ("2.0"), bytes ("3.0"),
        bytes ("4.0")]) := by
  refine ⟨?_, by decide⟩
  intro i r v h
  have hpos : 0 < v.length := matrixRows_nonempty i r v h
  have hne : ¬ v.length = 0 := by omega
  have hdm := Nat.div_add_mod v.flatten.length v.length
  have hiff : (v.length * (v.flatten.length / v.length) = v.flatten.length) ↔
      (v.flatten.length % v.length = 0) := by
    constructor <;> intro he <;> omega
  simp only [matrix, h, hne, if_false]
  by_cases hdv : v.flatten.length % v.length = 0
  · rw [if_pos (hiff.mpr hdv), if_pos hdv]
  · rw [if_neg (fun hc => hdv (hiff.mp hc)), if_neg hdv]

/-- Witness for claim C1's first conjunct: on the ragged literal with rows
`1.0` and `2.0 3.0`, the row list is consumed but the parse panics. -/
theorem claim1_witness : matrix (bytes ("[ 1.0\n 2.0 3.0 ]")) = .crash := by
  have h := claim1_amended.1 (bytes ("[ 1.0\n 2.0 3.0 ]")) []
    [[bytes ("1.0")], [bytes ("2.0"), bytes ("3.0")]] (by decide)
  rw [h]
  decide

/-- Claim C3 (amended): the alternatives are tried scalar first, then
vector, then matrix, but the visible classification matches the claim's
consequence: whenever the vector alternative succeeds, `tensor` returns
its result (the scalar alternative rejects every input on which the
vector alternative can succeed), so a single-row bracketed literal is a
rank-1 vector and only multi-row literals reach the matrix alternative. -/
theorem claim3_amended :
    (∀ i r v, vector i = .ok r v → tensor i = .ok r v) ∧
    tensor (bytes ("[ 7.5 8.5 ]")) =
      .ok [] (Tensor.rank1 [bytes ("7.5"), bytes ("8.5")]) ∧
    tensor (bytes ("[\n 7.5\n 8.5 ]")) =
      .ok [] (Tensor.rank2 2 1 [bytes ("7.5"), bytes ("8.5")]) := by
  refine ⟨?_, by decide, by decide⟩
  intro i r v hv
  obtain ⟨b, t, hi, hb⟩ : ∃ b t, i = b :: t ∧ (b = 32 ∨ b = 9 ∨ b = 91) := by
    unfold vector at hv
    obtain ⟨v1, hdel, _⟩ := pmap_ok hv
    obtain ⟨i1, w1, i2, w3, hsp, _, _⟩ := delimited_ok hdel
    obtain ⟨ia, wa, ib, wb, hs0, htag, _⟩ := delimited_ok hsp
    cases i with
    | nil =>
      obtain ⟨hwa, hia⟩ := space0_ok hs0
      simp only [List.takeWhile_nil, List.length_nil, List.drop_nil] at hia
      subst hia
      obtain ⟨_, hpre, _⟩ := tag_ok htag
      exact absurd hpre (by decide)
    | cons b t =>
      refine ⟨b, t, rfl, ?_⟩
      by_cases hbs : isHSpaceB b = true
      · unfold isHSpaceB at hbs
        simp only [Bool.or_eq_true, decide_eq_true_eq] at hbs
        rcases hbs with h1 | h1
        · exact Or.inl h1
        · exact Or.inr (Or.inl h1)
      · right; right
        obtain ⟨hwa, hia⟩ := space0_ok hs0
        rw [show (b :: t).takeWhile isHSpaceB = [] from by
          simp [List.takeWhile_cons, hbs]] at hia
        simp only [List.length_nil, List.drop_zero] at hia
        subst hia
        obtain ⟨_, hpre, _⟩ := tag_ok htag
        rw [show bytes ("[") = [91] from by decide] at hpre
        have h91 : (91 : Nat) = b := by simpa [List.isPrefixOf] using hpre
        exact h91.symm
  subst hi
  unfold tensor
  rw [altP_intro_err (scalar_err_head t hb), altP_intro_ok hv]

/-- Witness for claim C3's first conjunct at a concrete one-element
vector literal. -/
theorem claim3_witness : tensor (bytes ("[ 2.5 ]")) = .ok [] (Tensor.rank1 [bytes ("2.5")]) :=
  claim3_amended.1 (bytes ("[ 2.5 ]")) [] (Tensor.rank1 [bytes ("2.5")]) (by decide)

/-! ### Tag and bracket assembly lemmas -/

theorem delimited_intro {A B C : Type} {f : P A} {g : P B} {hp : P C}
    {i i1 i2 r : Input} {v1 : A} {v : B} {v3 : C}
    (h1 : f i = .ok i1 v1) (h2 : g i1 = .ok i2 v) (h3 : hp i2 = .ok r v3) :
    delimited f g hp i = .ok r v := by
  unfold delimited
  rw [pseq_intro h1, pseq_intro h2, pmap_intro h3]

theorem delimited_intro_err1 {A B C : Type} {f : P A} {g : P B} {hp : P C}
    {i p : Input} {k : ErrKind} (h1 : f i = .err p k) :
    delimited f g hp i = .err p k := by
  unfold delimited
  rw [pseq_intro_err h1]

theorem delimited_intro_err2 {A B C : Type} {f : P A} {g : P B} {hp : P C}
    {i i1 p : Input} {v1 : A} {k : ErrKind}
    (h1 : f i = .ok i1 v1) (h2 : g i1 = .err p k) :
    delimited f g hp i = .err p k := by
  unfold delimited
  rw [pseq_intro h1, pseq_intro_err h2]

theorem delimited_intro_err3 {A B C : Type} {f : P A} {g : P B} {hp : P C}
    {i i1 i2 p : Input} {v1 : A} {v : B} {k : ErrKind}
    (h1 : f i = .ok i1 v1) (h2 : g i1 = .ok i2 v) (h3 : hp i2 = .err p k) :
    delimited f g hp i = .err p k := by
  unfold delimited
  rw [pseq_intro h1, pseq_intro h2, pmap_intro_err h3]

theorem tuple3_intro {A B C : Type} {f : P A} {g : P B} {hp : P C}
    {i i1 i2 r : Input} {v1 : A} {v2 : B} {v3 : C}
    (h1 : f i = .ok i1 v1) (h2 : g i1 = .ok i2 v2) (h3 : hp i2 = .ok r v3) :
    tuple3 f g hp i = .ok r (v1, v2, v3) := by
  unfold tuple3
  rw [pseq_intro h1, pseq_intro h2, pmap_intro h3]

theorem tuple3_intro_err2 {A B C : Type} {f : P A} {g : P B} {hp : P C}
    {i i1 p : Input} {v1 : A} {k : ErrKind}
    (h1 : f i = .ok i1 v1) (h2 : g i1 = .err p k) :
    tuple3 f g hp i = .err p k := by
  unfold tuple3
  rw [pseq_intro h1, pseq_intro_err h2]

theorem tuple3_intro_err3 {A B C : Type} {f : P A} {g : P B} {hp : P C}
    {i i1 i2 p : Input} {v1 : A} {v2 : B} {k : ErrKind}
    (h1 : f i = .ok i1 v1) (h2 : g i1 = .ok i2 v2) (h3 : hp i2 = .err p k) :
    tuple3 f g hp i = .err p k := by
  unfold tuple3
  rw [pseq_intro h1, pseq_intro h2, pmap_intro_err h3]

theorem pairP_intro {A B : Type} {f : P A} {g : P B} {i i1 r : Input} {v1 : A} {v2 : B}
    (h1 : f i = .ok i1 v1) (h2 : g i1 = .ok r v2) :
    pairP f g i = .ok r (v1, v2) := by
  unfold pairP
  rw [pseq_intro h1, pmap_intro h2]

theorem headNot_ms_lt (X : Input) : HeadNot isMSpaceB (bytes ("<") ++ X) :=
  (by decide : isMSpaceB 60 = false)

theorem headNot_ms_close (X : Input) : HeadNot isMSpaceB (bytes ("</") ++ X) :=
  (by decide : isMSpaceB 60 = false)

theorem headNot_name_gt (X : Input) : HeadNot isNameCharB (bytes (">") ++ X) :=
  (by decide : isNameCharB 62 = false)

/-- `open(t)` on a rendered `<t>` tag with surrounding whitespace. -/
theorem openTag_exact {t wsA wsB rest : Input} (h1 : wsRunB wsA = true)
    (h2 : wsRunB wsB = true) (hrest : HeadNot isMSpaceB rest) :
    openTag t (wsA ++ (bytes ("<") ++ (t ++ (bytes (">") ++ (wsB ++ rest)))))
      = .ok rest () := by
  unfold openTag multispaced
  apply pmap_intro
  exact delimited_intro (ms0_exact h1 (headNot_ms_lt _))
    (tuple3_intro (tag_intro (bytes ("<")) _) (tag_intro t _) (tag_intro (bytes (">")) _))
    (ms0_exact h2 hrest)

/-- `close(t)` on a rendered `</t>` tag with surrounding whitespace. -/
theorem closeTag_exact {t wsA wsB rest : Input} (h1 : wsRunB wsA = true)
    (h2 : wsRunB wsB = true) (hrest : HeadNot isMSpaceB rest) :
    closeTag t (wsA ++ (bytes ("</") ++ (t ++ (bytes (">") ++ (wsB ++ rest)))))
      = .ok rest () := by
  unfold closeTag multispaced
  apply pmap_intro
  exact delimited_intro (ms0_exact h1 (headNot_ms_close _))
    (tuple3_intro (tag_intro (bytes ("</")) _) (tag_intro t _) (tag_intro (bytes (">")) _))
    (ms0_exact h2 hrest)

/-- `open_any` on a rendered `<name>` tag. -/
theorem open_any_exact {k wsA wsB rest : Input} (h1 : wsRunB wsA = true)
    (hk : nameTokB k = true) (h2 : wsRunB wsB = true) (hrest : HeadNot isMSpaceB rest) :
    open_any (wsA ++ (bytes ("<") ++ (k ++ (bytes (">") ++ (wsB ++ rest)))))
      = .ok rest k := by
  unfold open_any multispaced
  exact delimited_intro (ms0_exact h1 (headNot_ms_lt _))
    (delimited_intro (tag_intro (bytes ("<")) _)
      (name_exact hk (headNot_name_gt _)) (tag_intro (bytes (">")) _))
    (ms0_exact h2 hrest)

/-- `name` fails on a close tag's slash. -/
theorem name_err_slash (X : Input) : name ([47] ++ X) = .err ([47] ++ X) .alphaK := by
  have ha : alpha1 ([47] ++ X) = .err ([47] ++ X) .alphaK :=
    takeWhile1K_err (by decide : isAlphaB 47 = false)
  unfold name
  apply map_res_intro_err
  apply recognize_intro_err
  exact pairP_intro_err ha

/-- `open_any` fails at a closing tag `</…`, consuming nothing. -/
theorem open_any_err_close (X : Input) :
    open_any (bytes ("</") ++ X) = .err ([47] ++ X) .alphaK := by
  unfold open_any multispaced
  have htg : tag (bytes ("<")) (bytes ("</") ++ X) = .ok ([47] ++ X) (bytes ("<")) :=
    tag_intro (bytes ("<")) ([47] ++ X)
  exact delimited_intro_err2 (ms0_skip (headNot_ms_close _))
    (delimited_intro_err2 htg (name_err_slash X))

/-- The attribute loop of `component` stops without consuming at `</…`. -/
theorem attrs_stop_close (X : Input) :
    many0 (pairP open_any tensor) (bytes ("</") ++ X) = .ok (bytes ("</") ++ X) [] :=
  many0_stop (pairP_intro_err (open_any_err_close X))

theorem nameTok_all_nameChar {k : Input} (h : nameTokB k = true) :
    k.all isNameCharB = true := by
  cases k with
  | nil => simp [nameTokB] at h
  | cons b t =>
    simp only [nameTokB, Bool.and_eq_true] at h
    rw [List.all_cons, Bool.and_eq_true]
    refine ⟨?_, h.2⟩
    unfold isNameCharB isAlphaNumB
    simp [h.1]

theorem nameTok_ne_nil {k : Input} (h : nameTokB k = true) : ¬ k = [] := by
  intro he
  subst he
  simp [nameTokB] at h

/-- Claim C8 (amended): every component block whose close tag differs from
its class tag fails with a tag-kind error. -/
theorem claim8_amended :
    ∀ k k2 ws rest : Input, nameTokB k = true → nameTokB k2 = true →
      wsRunB ws = true → ¬ k = k2 →
      ∃ p, component
        (bytes ("<") ++ (k ++ (bytes (">") ++ (ws ++
          (bytes ("</") ++ (k2 ++ (bytes (">") ++ rest)))))))
        = .err p .tagK := by
  intro k k2 ws rest hk hk2 hws hne
  have hopen : open_any
      (bytes ("<") ++ (k ++ (bytes (">") ++ (ws ++
        (bytes ("</") ++ (k2 ++ (bytes (">") ++ rest)))))))
      = .ok (bytes ("</") ++ (k2 ++ (bytes (">") ++ rest))) k := by
    have h : open_any ([] ++ (bytes ("<") ++ (k ++ (bytes (">") ++ (ws ++
        (bytes ("</") ++ (k2 ++ (bytes (">") ++ rest))))))))
        = .ok (bytes ("</") ++ (k2 ++ (bytes (">") ++ rest))) k :=
      open_any_exact (show wsRunB [] = true from rfl) hk hws (headNot_ms_close _)
    simpa using h
  have hattrs := attrs_stop_close (k2 ++ (bytes (">") ++ rest))
  have htg1 : tag (bytes ("</")) (bytes ("</") ++ (k2 ++ (bytes (">") ++ rest)))
      = .ok (k2 ++ (bytes (">") ++ rest)) (bytes ("</")) :=
    tag_intro (bytes ("</")) _
  have hdich : k.isPrefixOf (k2 ++ (bytes (">") ++ rest)) = false ∨
      ∃ s, k2 = k ++ s ∧ ¬ s = [] ∧ s.all isNameCharB = true := by
    by_cases hp : k.isPrefixOf (k2 ++ (bytes (">") ++ rest)) = true
    · right
      have hkpre : k <+: k2 ++ (bytes (">") ++ rest) := List.isPrefixOf_iff_prefix.mp hp
      by_cases hlen : k.length ≤ k2.length
      · have hkk2 : k <+: k2 :=
          List.prefix_of_prefix_length_le hkpre (List.prefix_append _ _) hlen
        obtain ⟨s, hs⟩ := hkk2
        refine ⟨s, hs.symm, ?_, ?_⟩
        · intro hse
          subst hse
          rw [List.append_nil] at hs
          exact hne hs
        · have hall : (k ++ s).all isNameCharB = true := by
            rw [hs]
            exact nameTok_all_nameChar hk2
          rw [List.all_append, Bool.and_eq_true] at hall
          exact hall.2
      · exfalso
        have hassoc : k2 ++ (bytes (">") ++ rest) = (k2 ++ bytes (">")) ++ rest := by
          rw [List.append_assoc]
        rw [hassoc] at hkpre
        have h62 : k2 ++ bytes (">") <+: k := by
          apply List.prefix_of_prefix_length_le (List.prefix_append _ _) hkpre
          simp only [List.length_append]
          rw [show (bytes (">")).length = 1 from by decide]
          omega
        obtain ⟨u, hu⟩ := h62
        have hmem : (62 : Nat) ∈ k := by
          rw [← hu]
          have : (62 : Nat) ∈ bytes (">") := by decide
          simp [List.mem_append, this]
        have hall := nameTok_all_nameChar hk
        rw [List.all_eq_true] at hall
        exact absurd (hall 62 hmem) (by decide)
    · left
      cases hq : List.isPrefixOf k (k2 ++ (bytes (">") ++ rest)) with
      | false => rfl
      | true => exact absurd hq hp
  rcases hdich with hnp | ⟨s, hs, hsne, hsall⟩
  · have htg2 : tag k (k2 ++ (bytes (">") ++ rest))
        = .err (k2 ++ (bytes (">") ++ rest)) .tagK := tag_intro_err hnp
    have hclose : closeTag k (bytes ("</") ++ (k2 ++ (bytes (">") ++ rest)))
        = .err (k2 ++ (bytes (">") ++ rest)) .tagK := by
      unfold closeTag multispaced
      apply pmap_intro_err
      exact delimited_intro_err2 (ms0_skip (headNot_ms_close _))
        (tuple3_intro_err2 htg1 htg2)
    refine ⟨k2 ++ (bytes (">") ++ rest), ?_⟩
    simp only [component, hopen, hattrs, hclose]
  · subst hs
    cases s with
    | nil => exact absurd rfl hsne
    | cons c s' =>
      have hc : isNameCharB c = true := by
        rw [List.all_cons, Bool.and_eq_true] at hsall
        exact hsall.1
      have hc62 : ¬ c = 62 := by
        intro he
        subst he
        simp [isNameCharB, isAlphaNumB, isAlphaB, isDigitB] at hc
      have htg2 : tag k ((k ++ (c :: s')) ++ (bytes (">") ++ rest))
          = .ok ((c :: s') ++ (bytes (">") ++ rest)) k := by
        have h := tag_intro k ((c :: s') ++ (bytes (">") ++ rest))
        rw [show k ++ ((c :: s') ++ (bytes (">") ++ rest))
          = (k ++ (c :: s')) ++ (bytes (">") ++ rest) from by rw [List.append_assoc]] at h
        exact h
      have htg3 : tag (bytes (">")) ((c :: s') ++ (bytes (">") ++ rest))
          = .err ((c :: s') ++ (bytes (">") ++ rest)) .tagK := by
        apply tag_intro_err
        rw [show bytes (">") = [62] from by decide]
        simp [List.isPrefixOf]
        intro he
        exact absurd he.symm hc62
      have hclose : closeTag k (bytes ("</") ++ ((k ++ (c :: s')) ++ (bytes (">") ++ rest)))
        = .err ((c :: s') ++ (bytes (">") ++ rest)) .tagK := by
        unfold closeTag multispaced
        apply pmap_intro_err
        exact delimited_intro_err2 (ms0_skip (headNot_ms_close _))
          (tuple3_intro_err3 htg1 htg2 htg3)
      refine ⟨(c :: s') ++ (bytes (">") ++ rest), ?_⟩
      simp only [component, hopen, hattrs, hclose]

/-- Witness for claim C8 at tags `Foo` vs `Baz` with a one-space gap. -/
theorem claim8_witness :
    ∃ p, component
      (bytes ("<") ++ (bytes ("Foo") ++ (bytes (">") ++ (bytes (" ") ++
        (bytes ("</") ++ (bytes ("Baz") ++ (bytes (">") ++ [])))))))
      = .err p .tagK :=
  claim8_amended (bytes ("Foo")) (bytes ("Baz")) (bytes (" ")) []
    (by decide) (by decide) (by decide) (by decide)

theorem lookupA_insertA {V : Type} (m : AMap V) (k : Input) (v : V) :
    lookupA (insertA m k v) k = some v := by
  induction m with
  | nil => simp [insertA, lookupA, List.find?]
  | cons p t ih =>
    by_cases hp : p.1 = k
    · have hc : (p :: t).any (fun p => p.1 = k) = true := by
        simp [List.any_cons, hp]
      simp [insertA, hc, lookupA, List.find?, hp]
    · by_cases hct : t.any (fun p => p.1 = k) = true
      · have hc : (p :: t).any (fun p => p.1 = k) = true := by
          simp [List.any_cons, hct]
        have ih2 := ih
        simp only [insertA, hct, if_true] at ih2
        simp only [insertA, hc, if_true, List.map_cons, if_neg hp]
        simpa [lookupA, List.find?, hp] using ih2
      · have hc : ¬ (p :: t).any (fun p => p.1 = k) = true := by
          simp [List.any_cons, hp, hct]
        have ih2 := ih
        simp only [insertA, hct, if_false, Bool.not_eq_true] at ih2
        simp only [insertA, hc, if_false, Bool.not_eq_true]
        by_cases hb : (t.any (fun p => p.1 = k)) = true
        · exact absurd hb hct
        · simp only [List.cons_append]
          simpa [lookupA, List.find?, hp] using ih2

theorem compLoop_chain :
    ∀ (n : Nat) (m0 : AMap Component) (i r : Input) (m : AMap Component),
      compLoop n m0 i = .ok r m →
      ∃ L, L.length = n ∧ ChainPairs i L r ∧
        m = L.foldl (fun mm p => insertA mm p.1 p.2) m0 := by
  intro n
  induction n with
  | zero =>
    intro m0 i r m h
    unfold compLoop at h
    cases h
    exact ⟨[], rfl, rfl, rfl⟩
  | succ n ih =>
    intro m0 i r m h
    unfold compLoop at h
    cases hp : pairP component_name component i with
    | ok i1 p =>
      rw [hp] at h
      obtain ⟨L, hlen, hchain, hfold⟩ := ih (insertA m0 p.1 p.2) i1 r m h
      exact ⟨p :: L, by simp [hlen], ⟨i1, hp, hchain⟩, by simpa using hfold⟩
    | err q k => rw [hp] at h; cases h
    | crash => rw [hp] at h; cases h

/-- Claim C5: on the single-line input `[ 7.0 8.0 ]` the tensor parser
returns a rank-1 tensor with the two elements `7.0` and `8.0`, and on the
two-line bracketed input with rows `1.0 2.0 3.0` and `4.0 5.0 6.0` it
returns a rank-2 tensor of shape 2×3. -/
theorem claim5_confirmed :
    tensor (bytes ("[ 7.0 8.0 ]")) =
      .ok [] (Tensor.rank1 [bytes ("7.0"), bytes ("8.0")]) ∧
    tensor (bytes ("[\n 1.0 2.0 3.0\n 4.0 5.0 6.0 ]")) =
      .ok [] (Tensor.rank2 2 3 [bytes ("1.0"), bytes ("2.0"), bytes ("3.0"),
        bytes ("4.0"), bytes ("5.0"), bytes ("6.0")]) :=
  ⟨by decide, by decide⟩

/-- Claim C3 counterexample: the implementation's `tensor` does not try the
alternatives in the claimed order matrix–vector–scalar. On `[ 7.0 8.0 ]`
the implementation returns a rank-1 vector, while the parser with the
claimed order (`tensorSpecOrder`) returns a 1×2 rank-2 matrix, because the
matrix alternative of the implementation also accepts single-row literals. -/
theorem claim3_counterexample :
    tensor (bytes ("[ 7.0 8.0 ]")) =
      .ok [] (Tensor.rank1 [bytes ("7.0"), bytes ("8.0")]) ∧
    tensorSpecOrder (bytes ("[ 7.0 8.0 ]")) =
      .ok [] (Tensor.rank2 1 2 [bytes ("7.0"), bytes ("8.0")]) :=
  ⟨by decide, by decide⟩

/-- Claim C1 counterexample: the bracketed multi-row literal with rows
`1.0` and `2.0 3.0` has unequal row lengths (1 and 2); its row list is
consumed successfully, but parsing then panics (`into_shape(..).unwrap()`)
because the row count 2 does not divide the element count 3 — it is not
silently reshaped. -/
theorem claim1_counterexample :
    matrixRows (bytes ("[ 1.0\n 2.0 3.0 ]")) =
      .ok [] [[bytes ("1.0")], [bytes ("2.0"), bytes ("3.0")]] ∧
    tensor (bytes ("[ 1.0\n 2.0 3.0 ]")) = .crash :=
  ⟨by decide, by decide⟩

/-- Claim C8 counterexample: on `<Foo></Bar>` the component parser fails,
but the error value (nom's default error: the remaining input `Bar>` plus
`ErrorKind::Tag`) does not reference the expected tag name `Foo` — the
expected name occurs nowhere in the error position. -/
theorem claim8_counterexample :
    component (bytes ("<Foo></Bar>")) = .err (bytes ("Bar>")) .tagK ∧
    findSub (bytes ("Foo")) (bytes ("Bar>")) = none :=
  ⟨by decide, by decide⟩

/-- Claim C6: in `scalar` the float scan is attempted before the integer
scan: `3` parses as a float scalar (the float scanner accepts bare
integers), `3.0` parses as a float scalar, `T` and `F` parse as the
boolean scalars true and false; and whenever the float scanner succeeds,
`scalar` returns its result as a float scalar. -/
theorem claim6_confirmed :
    scalar (bytes ("3")) = .ok [] (Tensor.floatScalar (bytes ("3"))) ∧
    scalar (bytes ("3.0")) = .ok [] (Tensor.floatScalar (bytes ("3.0"))) ∧
    scalar (bytes ("T")) = .ok [] (Tensor.boolScalar true) ∧
    scalar (bytes ("F")) = .ok [] (Tensor.boolScalar false) ∧
    ∀ i r tok, float i = .ok r tok → scalar i = .ok r (Tensor.floatScalar tok) := by
  refine ⟨by decide, by decide, by decide, by decide, ?_⟩
  intro i r tok h
  simp only [scalar, altP, pmap, h]

/-- Witness for claim C6's final conjunct at the input `2.5`. -/
theorem claim6_witness :
    scalar (bytes ("2.5")) = .ok [] (Tensor.floatScalar (bytes ("2.5"))) :=
  claim6_confirmed.2.2.2.2 (bytes ("2.5")) [] (bytes ("2.5")) (by decide)

/-- Claim C9: duplicate keys are never rejected. Parsing the envelope
`dupInput`, whose two blocks are both named `foo`, succeeds with a single
mapping entry holding the later component (class `Kb`); a component block
repeating attribute `A` keeps only the last pair; and the map insertion
used at every collection point overwrites the previous value of a key. -/
theorem claim9_confirmed :
    nnet3 dupInput = .ok (KaldiProtoModel.mk (bytes ("c "))
      [(bytes ("foo"), Component.mk (bytes ("Kb"))
        [(bytes ("Pa"), Tensor.floatScalar (bytes ("2.0")))])]) ∧
    component c9attrInput = .ok []
      (Component.mk (bytes ("C")) [(bytes ("A"), Tensor.floatScalar (bytes ("2.0")))]) ∧
    ∀ (V : Type) (m : AMap V) (k : Input) (v : V), lookupA (insertA m k v) k = some v := by
  refine ⟨?_, by decide, fun V m k v => lookupA_insertA m k v⟩
  have h0 : openTag (bytes ("Nnet3")) dupInput =
      .ok (bytes ("c <NumComponents> 2 <ComponentName> foo <Ka> <Pa> 1.0 </Ka> <ComponentName> foo <Kb> <Pa> 2.0 </Kb> </Nnet3>")) () := by
    decide
  have h1 : map_res (take_until (bytes ("<NumComponents>"))) from_utf8
      (bytes ("c <NumComponents> 2 <ComponentName> foo <Ka> <Pa> 1.0 </Ka> <ComponentName> foo <Kb> <Pa> 2.0 </Kb> </Nnet3>")) =
      .ok (bytes ("<NumComponents> 2 <ComponentName> foo <Ka> <Pa> 1.0 </Ka> <ComponentName> foo <Kb> <Pa> 2.0 </Kb> </Nnet3>"))
        (bytes ("c ")) := by decide
  have h2 : num_components
      (bytes ("<NumComponents> 2 <ComponentName> foo <Ka> <Pa> 1.0 </Ka> <ComponentName> foo <Kb> <Pa> 2.0 </Kb> </Nnet3>")) =
      .ok (bytes ("<ComponentName> foo <Ka> <Pa> 1.0 </Ka> <ComponentName> foo <Kb> <Pa> 2.0 </Kb> </Nnet3>")) 2 := by decide
  have h3 : pairP component_name component
      (bytes ("<ComponentName> foo <Ka> <Pa> 1.0 </Ka> <ComponentName> foo <Kb> <Pa> 2.0 </Kb> </Nnet3>")) =
      .ok (bytes ("<ComponentName> foo <Kb> <Pa> 2.0 </Kb> </Nnet3>"))
        (bytes ("foo"), Component.mk (bytes ("Ka"))
          [(bytes ("Pa"), Tensor.floatScalar (bytes ("1.0")))]) := by decide
  have h4 : pairP component_name component
      (bytes ("<ComponentName> foo <Kb> <Pa> 2.0 </Kb> </Nnet3>")) =
      .ok (bytes ("</Nnet3>"))
        (bytes ("foo"), Component.mk (bytes ("Kb"))
          [(bytes ("Pa"), Tensor.floatScalar (bytes ("2.0")))]) := by decide
  have h5 : closeTag (bytes ("Nnet3")) (bytes ("</Nnet3>")) = .ok [] () := by decide
  have h6 : insertA (insertA ([] : AMap Component) (bytes ("foo"))
        (Component.mk (bytes ("Ka")) [(bytes ("Pa"), Tensor.floatScalar (bytes ("1.0")))]))
      (bytes ("foo")) (Component.mk (bytes ("Kb"))
        [(bytes ("Pa"), Tensor.floatScalar (bytes ("2.0")))]) =
      [(bytes ("foo"), Component.mk (bytes ("Kb"))
        [(bytes ("Pa"), Tensor.floatScalar (bytes ("2.0")))])] := by decide
  simp only [nnet3, parse_top_level, h0, h1, h2, h3, h4, h5, compLoop, h6, parse_config]

/-- Claim C2 counterexample: `dupInput` matches the grammar of §6 (it is
the rendering of the well-formed document `gDup`) and declares
`<NumComponents> 2`, yet `nnet3` succeeds with a component mapping of one
entry, because the two blocks share the name `foo`; and the rendering of
`gBad` also matches the grammar, yet `nnet3` fails on it, because its
configuration bytes are not valid UTF-8. -/
theorem claim2_counterexample :
    MatchesGrammar dupInput ∧
    declaredNumComponents dupInput = some 2 ∧
    nnet3 dupInput = .ok (KaldiProtoModel.mk (bytes ("c "))
      [(bytes ("foo"), Component.mk (bytes ("Kb"))
        [(bytes ("Pa"), Tensor.floatScalar (bytes ("2.0")))])]) ∧
    sizeA [(bytes ("foo"), Component.mk (bytes ("Kb"))
      [(bytes ("Pa"), Tensor.floatScalar (bytes ("2.0")))])] = 1 ∧
    MatchesGrammar (renderModel gBad) ∧
    nnet3 (renderModel gBad) =
      .parseError ([255] ++ bytes ("<NumComponents>0 </Nnet3>")) .mapResK := by
  refine ⟨⟨gDup, by decide, by decide⟩, by decide, ?_, by decide, ⟨gBad, by decide, rfl⟩,
    by decide⟩
  have h0 : openTag (bytes ("Nnet3")) dupInput =
      .ok (bytes ("c <NumComponents> 2 <ComponentName> foo <Ka> <Pa> 1.0 </Ka> <ComponentName> foo <Kb> <Pa> 2.0 </Kb> </Nnet3>")) () := by
    decide
  have h1 : map_res (take_until (bytes ("<NumComponents>"))) from_utf8
      (bytes ("c <NumComponents> 2 <ComponentName> foo <Ka> <Pa> 1.0 </Ka> <ComponentName> foo <Kb> <Pa> 2.0 </Kb> </Nnet3>")) =
      .ok (bytes ("<NumComponents> 2 <ComponentName> foo <Ka> <Pa> 1.0 </Ka> <ComponentName> foo <Kb> <Pa> 2.0 </Kb> </Nnet3>"))
        (bytes ("c ")) := by decide
  have h2 : num_components
      (bytes ("<NumComponents> 2 <ComponentName> foo <Ka> <Pa> 1.0 </Ka> <ComponentName> foo <Kb> <Pa> 2.0 </Kb> </Nnet3>")) =
      .ok (bytes ("<ComponentName> foo <Ka> <Pa> 1.0 </Ka> <ComponentName> foo <Kb> <Pa> 2.0 </Kb> </Nnet3>")) 2 := by decide
  have h3 : pairP component_name component
      (bytes ("<ComponentName> foo <Ka> <Pa> 1.0 </Ka> <ComponentName> foo <Kb> <Pa> 2.0 </Kb> </Nnet3>")) =
      .ok (bytes ("<ComponentName> foo <Kb> <Pa> 2.0 </Kb> </Nnet3>"))
        (bytes ("foo"), Component.mk (bytes ("Ka"))
          [(bytes ("Pa"), Tensor.floatScalar (bytes ("1.0")))]) := by decide
  have h4 : pairP component_name component
      (bytes ("<ComponentName> foo <Kb> <Pa> 2.0 </Kb> </Nnet3>")) =
      .ok (bytes ("</Nnet3>"))
        (bytes ("foo"), Component.mk (bytes ("Kb"))
          [(bytes ("Pa"), Tensor.floatScalar (bytes ("2.0")))]) := by decide
  have h5 : closeTag (bytes ("Nnet3")) (bytes ("</Nnet3>")) = .ok [] () := by decide
  have h6 : insertA (insertA ([] : AMap Component) (bytes ("foo"))
        (Component.mk (bytes ("Ka")) [(bytes ("Pa"), Tensor.floatScalar (bytes ("1.0")))]))
      (bytes ("foo")) (Component.mk (bytes ("Kb"))
        [(bytes ("Pa"), Tensor.floatScalar (bytes ("2.0")))]) =
      [(bytes ("foo"), Component.mk (bytes ("Kb"))
        [(bytes ("Pa"), Tensor.floatScalar (bytes ("2.0")))])] := by decide
  simp only [nnet3, parse_top_level, h0, h1, h2, h3, h4, h5, compLoop, h6, parse_config]

/-- Claim C4: parsing the end-to-end example of §8 succeeds and yields a
model with exactly one component, named `foo`, of class
`FixedAffineComponent`, whose `LinearParams` attribute is a 2×3 rank-2
tensor and whose `BiasParams` attribute is a rank-1 tensor of length 2,
and whose configuration text contains the `input-node` line verbatim
(`findSub` locates it at offset 0). -/
theorem claim4_confirmed :
    nnet3 c4input = .ok (KaldiProtoModel.mk (bytes ("input-node name=input dim=3\n"))
      [(bytes ("foo"), Component.mk (bytes ("FixedAffineComponent"))
        [(bytes ("LinearParams"), Tensor.rank2 2 3 [bytes ("1.0"), bytes ("2.0"),
          bytes ("3.0"), bytes ("4.0"), bytes ("5.0"), bytes ("6.0")]),
         (bytes ("BiasParams"), Tensor.rank1 [bytes ("7.0"), bytes ("8.0")])])]) ∧
    findSub (bytes ("input-node name=input dim=3")) (bytes ("input-node name=input dim=3\n"))
      = some 0 := by
  refine ⟨?_, by decide⟩
  have h0 : openTag (bytes ("Nnet3")) c4input =
      .ok (bytes ("input-node name=input dim=3\n<NumComponents> 1\n<ComponentName> foo <FixedAffineComponent> <LinearParams> [\n  1.0 2.0 3.0\n  4.0 5.0 6.0 ]\n<BiasParams> [ 7.0 8.0 ]\n</FixedAffineComponent>\n</Nnet3>")) () := by
    decide
  have h1 : map_res (take_until (bytes ("<NumComponents>"))) from_utf8
      (bytes ("input-node name=input dim=3\n<NumComponents> 1\n<ComponentName> foo <FixedAffineComponent> <LinearParams> [\n  1.0 2.0 3.0\n  4.0 5.0 6.0 ]\n<BiasParams> [ 7.0 8.0 ]\n</FixedAffineComponent>\n</Nnet3>")) =
      .ok (bytes ("<NumComponents> 1\n<ComponentName> foo <FixedAffineComponent> <LinearParams> [\n  1.0 2.0 3.0\n  4.0 5.0 6.0 ]\n<BiasParams> [ 7.0 8.0 ]\n</FixedAffineComponent>\n</Nnet3>"))
        (bytes ("input-node name=input dim=3\n")) := by decide
  have h2 : num_components
      (bytes ("<NumComponents> 1\n<ComponentName> foo <FixedAffineComponent> <LinearParams> [\n  1.0 2.0 3.0\n  4.0 5.0 6.0 ]\n<BiasParams> [ 7.0 8.0 ]\n</FixedAffineComponent>\n</Nnet3>")) =
      .ok (bytes ("<ComponentName> foo <FixedAffineComponent> <LinearParams> [\n  1.0 2.0 3.0\n  4.0 5.0 6.0 ]\n<BiasParams> [ 7.0 8.0 ]\n</FixedAffineComponent>\n</Nnet3>")) 1 := by decide
  have h3 : pairP component_name component
      (bytes ("<ComponentName> foo <FixedAffineComponent> <LinearParams> [\n  1.0 2.0 3.0\n  4.0 5.0 6.0 ]\n<BiasParams> [ 7.0 8.0 ]\n</FixedAffineComponent>\n</Nnet3>")) =
      .ok (bytes ("</Nnet3>"))
        (bytes ("foo"), Component.mk (bytes ("FixedAffineComponent"))
          [(bytes ("LinearParams"), Tensor.rank2 2 3 [bytes ("1.0"), bytes ("2.0"),
            bytes ("3.0"), bytes ("4.0"), bytes ("5.0"), bytes ("6.0")]),
           (bytes ("BiasParams"), Tensor.rank1 [bytes ("7.0"), bytes ("8.0")])]) := by decide
  have h5 : closeTag (bytes ("Nnet3")) (bytes ("</Nnet3>")) = .ok [] () := by decide
  have h6 : insertA ([] : AMap Component) (bytes ("foo"))
      (Component.mk (bytes ("FixedAffineComponent"))
        [(bytes ("LinearParams"), Tensor.rank2 2 3 [bytes ("1.0"), bytes ("2.0"),
          bytes ("3.0"), bytes ("4.0"), bytes ("5.0"), bytes ("6.0")]),
         (bytes ("BiasParams"), Tensor.rank1 [bytes ("7.0"), bytes ("8.0")])]) =
      [(bytes ("foo"), Component.mk (bytes ("FixedAffineComponent"))
        [(bytes ("LinearParams"), Tensor.rank2 2 3 [bytes ("1.0"), bytes ("2.0"),
          bytes ("3.0"), bytes ("4.0"), bytes ("5.0"), bytes ("6.0")]),
         (bytes ("BiasParams"), Tensor.rank1 [bytes ("7.0"), bytes ("8.0")])])] := by decide
  simp only [nnet3, parse_top_level, h0, h1, h2, h3, h5, compLoop, h6, parse_config]

/-- Claim C7: a declared count exceeding the number of blocks present is a
parse error (`c7missing` declares 2 with one block: the error points at the
failed `<ComponentName>` tag), trailing extra components are a parse error
(`c7trailing` declares 1 with two blocks: the error points at the second
block where `</Nnet3>` was required), and whenever the component loop
succeeds it has consumed exactly `n` name/component pairs. -/
theorem claim7_confirmed :
    parse_top_level c7missing = .err (bytes ("/Nnet3>")) .tagK ∧
    parse_top_level c7trailing =
      .err (bytes ("<ComponentName> bar <Kb> </Kb> </Nnet3>")) .tagK ∧
    ∀ (n : Nat) (i r : Input) (m : AMap Component),
      compLoop n [] i = .ok r m →
      ∃ L, L.length = n ∧ ChainPairs i L r ∧
        m = L.foldl (fun mm p => insertA mm p.1 p.2) [] := by
  refine ⟨by decide, by decide, fun n i r m h => compLoop_chain n [] i r m h⟩

/-- Witness for claim C7's final conjunct: the loop run on a one-component
rest consumes exactly one pair. -/
theorem claim7_witness :
    ∃ L, L.length = 1 ∧
      ChainPairs (bytes ("<ComponentName> a <B> </B>")) L [] ∧
      ([(bytes ("a"), Component.mk (bytes ("B")) [])] : AMap Component) =
        L.foldl (fun mm p => insertA mm p.1 p.2) [] :=
  claim7_confirmed.2.2 1 (bytes ("<ComponentName> a <B> </B>")) []
    [(bytes ("a"), Component.mk (bytes ("B")) [])] (by decide)

/-! ### Float token extraction -/

theorem headNot_imp {p q : Nat → Bool} (himp : ∀ b, q b = false → p b = false)
    {l : Input} (h : HeadNot q l) : HeadNot p l := by
  cases l with
  | nil => exact trivial
  | cons b t =>
    unfold HeadNot at *
    exact himp b h

theorem charB_err_of {c : Nat} {i : Input} (h : HeadNot (fun b => decide (b = c)) i) :
    charB c i = .err i .charK := by
  cases i with
  | nil => exact charB_nil c
  | cons b t =>
    have hb : decide (b = c) = false := h
    exact charB_intro_ne t (of_decide_eq_false hb)

theorem drop_takeWhile (p : Nat → Bool) :
    ∀ l : Input, l.drop (l.takeWhile p).length = l.dropWhile p := by
  intro l
  induction l with
  | nil => rfl
  | cons b t ih =>
    by_cases hb : p b = true
    · simp [List.takeWhile_cons, List.dropWhile_cons, hb, ih]
    · simp [List.takeWhile_cons, List.dropWhile_cons, hb]

theorem takeWhile_all (p : Nat → Bool) (l : Input) : (l.takeWhile p).all p = true := by
  rw [List.all_eq_true]
  intro x hx
  exact List.mem_takeWhile_imp hx

theorem isEmpty_eq_nil {l : Input} (h : l.isEmpty = true) : l = [] := by
  cases l with
  | nil => rfl
  | cons b t => simp at h

theorem isEmpty_false_ne {l : Input} (h : l.isEmpty = false) : ¬ l = [] := by
  intro he
  subst he
  simp at h

/-- Split the byte classes excluded by `isFloatExtB`. -/
theorem floatExt_split (b : Nat) (hb : isFloatExtB b = false) :
    decide (b = 101) = false ∧ decide (b = 69) = false ∧ isDigitB b = false ∧
      decide (b = 46) = false ∧ decide (b = 43) = false ∧ decide (b = 45) = false := by
  unfold isFloatExtB at hb
  simp only [Bool.or_eq_false_iff] at hb
  exact ⟨hb.1.1.1.2, hb.1.1.2, hb.1.1.1.1.1, hb.1.1.1.1.2, hb.1.2, hb.2⟩

/-- Decompose a valid exponent into its letter, sign and digit run. -/
theorem expOk_decomp {l : Input} (h : expOkB l = true) :
    l = [] ∨ ∃ eb sg d, l = eb :: (sg ++ d) ∧ (eb = 101 ∨ eb = 69) ∧
      (sg = [] ∨ sg = [43] ∨ sg = [45]) ∧ d.all isDigitB = true ∧ ¬ d = [] := by
  cases l with
  | nil => exact Or.inl rfl
  | cons b t =>
    right
    simp only [expOkB, Bool.and_eq_true, Bool.or_eq_true, decide_eq_true_eq,
      Bool.not_eq_true'] at h
    obtain ⟨heb, hne, hdrop⟩ := h
    have hdw : (dropSign t).dropWhile isDigitB = [] := by
      rw [drop_takeWhile] at hdrop
      exact isEmpty_eq_nil hdrop
    have ht1 : dropSign t = (dropSign t).takeWhile isDigitB := by
      have h0 : (dropSign t).takeWhile isDigitB ++ (dropSign t).dropWhile isDigitB
          = dropSign t := List.takeWhile_append_dropWhile _ _
      rw [hdw, List.append_nil] at h0
      exact h0.symm
    have hsg : ∃ sg, (sg = [] ∨ sg = [43] ∨ sg = [45]) ∧ t = sg ++ dropSign t := by
      cases t with
      | nil => exact ⟨[], Or.inl rfl, rfl⟩
      | cons c u =>
        by_cases hc : c = 43 ∨ c = 45
        · refine ⟨[c], ?_, ?_⟩
          · rcases hc with h | h <;> subst h <;> simp
          · simp only [dropSign, if_pos hc]
            rfl
        · refine ⟨[], Or.inl rfl, ?_⟩
          simp only [dropSign, if_neg hc]
          rfl
    obtain ⟨sg, hsgc, hts⟩ := hsg
    have hts2 : t = sg ++ (dropSign t).takeWhile isDigitB := by
      rw [← ht1]
      exact hts
    exact ⟨b, sg, (dropSign t).takeWhile isDigitB, congrArg (List.cons b) hts2, heb, hsgc,
      takeWhile_all _ _, isEmpty_false_ne hne⟩

/-- Decompose a float token into sign, mantissa and exponent parts. -/
theorem floatTok_decomp {l : Input} (h : floatTokB l = true) :
    ∃ sg m e, l = sg ++ (m ++ e) ∧
      (sg = [] ∨ sg = [43] ∨ sg = [45]) ∧
      ((∃ d1 d2, m = d1 ++ (46 :: d2) ∧ d1.all isDigitB = true ∧ ¬ d1 = [] ∧
          d2.all isDigitB = true) ∨
        (m.all isDigitB = true ∧ ¬ m = []) ∨
        (∃ d2, m = 46 :: d2 ∧ d2.all isDigitB = true ∧ ¬ d2 = [])) ∧
      expOkB e = true := by
  have hsg : ∃ sg, (sg = [] ∨ sg = [43] ∨ sg = [45]) ∧ l = sg ++ dropSign l := by
    cases l with
    | nil => exact ⟨[], Or.inl rfl, rfl⟩
    | cons c u =>
      by_cases hc : c = 43 ∨ c = 45
      · refine ⟨[c], ?_, ?_⟩
        · rcases hc with h | h <;> subst h <;> simp
        · simp only [dropSign, if_pos hc]
          rfl
      · refine ⟨[], Or.inl rfl, ?_⟩
        simp only [dropSign, if_neg hc]
        rfl
  obtain ⟨sg, hsgc, hls⟩ := hsg
  simp only [floatTokB] at h
  generalize hgen : dropSign l = l1 at h hls
  have hdrop1 : l1.drop (l1.takeWhile isDigitB).length = l1.dropWhile isDigitB :=
    drop_takeWhile _ _
  have hsplit1 : l1.takeWhile isDigitB ++ l1.dropWhile isDigitB = l1 :=
    List.takeWhile_append_dropWhile _ _
  split at h
  next heq =>
    simp only [Bool.not_eq_true'] at h
    have hdw : l1.dropWhile isDigitB = [] := by rw [← hdrop1, heq]
    have h0 := hsplit1
    rw [hdw, List.append_nil] at h0
    refine ⟨sg, l1.takeWhile isDigitB, [], ?_, hsgc,
      Or.inr (Or.inl ⟨takeWhile_all _ _, isEmpty_false_ne h⟩), rfl⟩
    rw [hls, h0, List.append_nil]
  next c l3 heq =>
    have hsplit3 : l3 = l3.takeWhile isDigitB ++ l3.drop (l3.takeWhile isDigitB).length := by
      rw [drop_takeWhile]
      exact (List.takeWhile_append_dropWhile _ _).symm
    have hl1 : l1.takeWhile isDigitB ++ (c :: l3) = l1 := by
      rw [← heq, hdrop1]
      exact hsplit1
    by_cases hc : c = 46
    · subst hc
      rw [if_pos rfl] at h
      simp only [Bool.and_eq_true, Bool.or_eq_true, Bool.not_eq_true'] at h
      obtain ⟨hne, hexp⟩ := h
      rcases hne with hne | hne
      · refine ⟨sg, l1.takeWhile isDigitB ++ (46 :: l3.takeWhile isDigitB),
          l3.drop (l3.takeWhile isDigitB).length, ?_, hsgc,
          Or.inl ⟨l1.takeWhile isDigitB, l3.takeWhile isDigitB, rfl,
            takeWhile_all _ _, isEmpty_false_ne hne, takeWhile_all _ _⟩, hexp⟩
        rw [hls, List.append_assoc, List.cons_append, ← hsplit3, hl1]
      · by_cases hemp : (l1.takeWhile isDigitB).isEmpty = true
        · have hd1nil := isEmpty_eq_nil hemp
          rw [hd1nil, List.nil_append] at hl1
          refine ⟨sg, 46 :: l3.takeWhile isDigitB,
            l3.drop (l3.takeWhile isDigitB).length, ?_, hsgc,
            Or.inr (Or.inr ⟨l3.takeWhile isDigitB, rfl, takeWhile_all _ _,
              isEmpty_false_ne hne⟩), hexp⟩
          rw [hls, List.cons_append, ← hsplit3, hl1]
        · have hempf : (l1.takeWhile isDigitB).isEmpty = false := by
            cases hie : (l1.takeWhile isDigitB).isEmpty with
            | false => rfl
            | true => exact absurd hie hemp
          refine ⟨sg, l1.takeWhile isDigitB ++ (46 :: l3.takeWhile isDigitB),
            l3.drop (l3.takeWhile isDigitB).length, ?_, hsgc,
            Or.inl ⟨l1.takeWhile isDigitB, l3.takeWhile isDigitB, rfl,
              takeWhile_all _ _, isEmpty_false_ne hempf, takeWhile_all _ _⟩, hexp⟩
          rw [hls, List.append_assoc, List.cons_append, ← hsplit3, hl1]
    · rw [if_neg hc] at h
      simp only [Bool.and_eq_true, Bool.not_eq_true'] at h
      obtain ⟨hne, hexp⟩ := h
      refine ⟨sg, l1.takeWhile isDigitB, c :: l3, ?_, hsgc,
        Or.inr (Or.inl ⟨takeWhile_all _ _, isEmpty_false_ne hne⟩), hexp⟩
      rw [hls, hl1]

/-- Every float token starts with a digit, a dot, or a sign. -/
theorem floatTok_head {tok : Input} (h : floatTokB tok = true) :
    ∃ c t, tok = c :: t ∧ (isDigitB c || c = 46 || c = 43 || c = 45) = true := by
  obtain ⟨sg, m, e, heq, hsg, hm, _⟩ := floatTok_decomp h
  have hmhead : ∃ c m2, m = c :: m2 ∧ (isDigitB c || c = 46) = true := by
    rcases hm with ⟨d1, d2, hmeq, hall, hne, _⟩ | ⟨hall, hne⟩ | ⟨d2, hmeq, _, _⟩
    · cases d1 with
      | nil => exact absurd rfl hne
      | cons c u =>
        simp only [List.all_cons, Bool.and_eq_true] at hall
        exact ⟨c, u ++ (46 :: d2), by rw [hmeq]; rfl, by simp [hall.1]⟩
    · cases m with
      | nil => exact absurd rfl hne
      | cons c u =>
        simp only [List.all_cons, Bool.and_eq_true] at hall
        exact ⟨c, u, rfl, by simp [hall.1]⟩
    · exact ⟨46, d2, by rw [hmeq], by decide⟩
  obtain ⟨c, m2, hm2, hc⟩ := hmhead
  rcases hsg with h0 | h1 | h2
  · subst h0
    refine ⟨c, m2 ++ e, ?_, ?_⟩
    · rw [heq, hm2]
      rfl
    · simp only [Bool.or_eq_true] at hc ⊢
      tauto
  · subst h1
    exact ⟨43, m ++ e, by rw [heq]; rfl, by decide⟩
  · subst h2
    exact ⟨45, m ++ e, by rw [heq]; rfl, by decide⟩

theorem signP_skip {i : Input}
    (h : HeadNot (fun b => decide (b = 43) || decide (b = 45)) i) :
    signP i = .ok i none := by
  cases i with
  | nil => rfl
  | cons b t =>
    have hb : (decide (b = 43) || decide (b = 45)) = false := h
    simp only [Bool.or_eq_false_iff, decide_eq_false_iff_not] at hb
    unfold signP
    rw [opt_intro_err (show altP (charB 43) (charB 45) (b :: t) = .err (b :: t) .charK from by
      rw [altP_intro_err (charB_intro_ne t hb.1)]
      exact charB_intro_ne t hb.2)]

theorem signP_sign {c : Nat} (t : Input) (hc : c = 43 ∨ c = 45) :
    signP (c :: t) = .ok t (some c) := by
  rcases hc with h | h <;> subst h
  · unfold signP
    rw [opt_intro_ok (altP_intro_ok (charB_intro 43 t))]
  · unfold signP
    rw [opt_intro_ok (show altP (charB 43) (charB 45) (45 :: t) = .ok t 45 from by
      rw [altP_intro_err (charB_intro_ne t (by decide))]
      exact charB_intro 45 t)]

theorem headNot_sign_of_digit_head {c : Nat} (X : Input) (hc : isDigitB c = true) :
    HeadNot (fun b => decide (b = 43) || decide (b = 45)) (c :: X) := by
  show (decide (c = 43) || decide (c = 45)) = false
  unfold isDigitB at hc
  simp only [Bool.and_eq_true, decide_eq_true_eq] at hc
  simp only [Bool.or_eq_false_iff, decide_eq_false_iff_not]
  omega

theorem opt_digit1_run {d X : Input} (hd : d.all isDigitB = true)
    (hX : HeadNot isDigitB X) : ∃ o, opt digit1 (d ++ X) = .ok X o := by
  cases d with
  | nil => exact ⟨none, opt_intro_err (takeWhile1K_err hX)⟩
  | cons c u =>
    exact ⟨some (c :: u), opt_intro_ok (digit1_exact hd (by simp) hX)⟩

/-- The mantissa parser consumes exactly a grammar mantissa when the next
byte is neither a digit nor a dot. -/
theorem mantissa_exact {m X : Input}
    (hm : (∃ d1 d2, m = d1 ++ (46 :: d2) ∧ d1.all isDigitB = true ∧ ¬ d1 = [] ∧
        d2.all isDigitB = true) ∨
      (m.all isDigitB = true ∧ ¬ m = []) ∨
      (∃ d2, m = 46 :: d2 ∧ d2.all isDigitB = true ∧ ¬ d2 = []))
    (hX : HeadNot (fun b => isDigitB b || decide (b = 46)) X) :
    mantissa (m ++ X) = .ok X () := by
  have hXd : HeadNot isDigitB X := headNot_imp (fun b hb => by
    simp only [Bool.or_eq_false_iff] at hb
    exact hb.1) hX
  have hX46 : HeadNot (fun b => decide (b = 46)) X := headNot_imp (fun b hb => by
    simp only [Bool.or_eq_false_iff] at hb
    exact hb.2) hX
  rcases hm with ⟨d1, d2, hmeq, ha1, hne1, ha2⟩ | ⟨ha, hne⟩ | ⟨d2, hmeq, ha2, hne2⟩
  · subst hmeq
    have hassoc : (d1 ++ (46 :: d2)) ++ X = d1 ++ (46 :: (d2 ++ X)) := by
      rw [List.append_assoc]
      rfl
    rw [hassoc]
    have h1 : digit1 (d1 ++ (46 :: (d2 ++ X))) = .ok (46 :: (d2 ++ X)) d1 :=
      digit1_exact ha1 hne1 (by decide : isDigitB 46 = false)
    obtain ⟨o, ho⟩ := opt_digit1_run ha2 hXd
    have h2 : opt (pairP (charB 46) (opt digit1)) (46 :: (d2 ++ X)) = .ok X (some (46, o)) :=
      opt_intro_ok (pairP_intro (charB_intro 46 _) ho)
    unfold mantissa
    apply altP_intro_ok
    exact pmap_intro (pairP_intro h1 h2)
  · have h1 : digit1 (m ++ X) = .ok X m := digit1_exact ha hne hXd
    have h2 : opt (pairP (charB 46) (opt digit1)) X = .ok X none :=
      opt_intro_err (pairP_intro_err (charB_err_of hX46))
    unfold mantissa
    apply altP_intro_ok
    exact pmap_intro (pairP_intro h1 h2)
  · subst hmeq
    have h1 : digit1 ((46 :: d2) ++ X) = .err ((46 :: d2) ++ X) .digitK :=
      takeWhile1K_err (by decide : isDigitB 46 = false)
    have h2 : digit1 (d2 ++ X) = .ok X d2 := digit1_exact ha2 hne2 hXd
    unfold mantissa
    rw [altP_intro_err (pmap_intro_err (pairP_intro_err h1))]
    exact pmap_intro (pairP_intro (charB_intro 46 (d2 ++ X)) h2)

/-- The exponent parser consumes exactly a grammar exponent (possibly
empty) when the following bytes cannot extend a float. -/
theorem exponentPart_exact {e rest : Input}
    (he : e = [] ∨ ∃ eb sg d, e = eb :: (sg ++ d) ∧ (eb = 101 ∨ eb = 69) ∧
      (sg = [] ∨ sg = [43] ∨ sg = [45]) ∧ d.all isDigitB = true ∧ ¬ d = [])
    (hr : HeadNot isFloatExtB rest) :
    ∃ o, exponentPart (e ++ rest) = .ok rest o := by
  rcases he with he | ⟨eb, sg, d, heeq, heb, hsg, hall, hne⟩
  · subst he
    have hcE : altP (charB 101) (charB 69) rest = .err rest .charK := by
      rw [altP_intro_err (charB_err_of (headNot_imp (fun b hb => (floatExt_split b hb).1) hr))]
      exact charB_err_of (headNot_imp (fun b hb => (floatExt_split b hb).2.1) hr)
    refine ⟨none, ?_⟩
    unfold exponentPart
    apply opt_intro_err
    unfold tuple3
    exact pseq_intro_err hcE
  · subst heeq
    have hfirst : altP (charB 101) (charB 69) ((eb :: (sg ++ d)) ++ rest)
        = .ok ((sg ++ d) ++ rest) eb := by
      rcases heb with h | h <;> subst h
      · exact altP_intro_ok (charB_intro 101 _)
      · show altP (charB 101) (charB 69) (69 :: ((sg ++ d) ++ rest))
            = .ok ((sg ++ d) ++ rest) 69
        rw [altP_intro_err (charB_intro_ne ((sg ++ d) ++ rest)
          (by decide : ¬ (69 : Nat) = 101))]
        exact charB_intro 69 _
    have hdig : digit1 (d ++ rest) = .ok rest d :=
      digit1_exact hall hne (headNot_imp (fun b hb => (floatExt_split b hb).2.2.1) hr)
    have hsign : ∃ s, signP ((sg ++ d) ++ rest) = .ok (d ++ rest) s := by
      rcases hsg with h | h | h <;> subst h
      · refine ⟨none, ?_⟩
        rw [List.nil_append]
        apply signP_skip
        cases d with
        | nil => exact absurd rfl hne
        | cons c u =>
          simp only [List.all_cons, Bool.and_eq_true] at hall
          exact headNot_sign_of_digit_head _ hall.1
      · exact ⟨some 43, signP_sign _ (Or.inl rfl)⟩
      · exact ⟨some 45, signP_sign _ (Or.inr rfl)⟩
    obtain ⟨s, hsign⟩ := hsign
    refine ⟨some (eb, s, d), ?_⟩
    unfold exponentPart
    apply opt_intro_ok
    exact tuple3_intro hfirst hsign hdig

/-- `float` consumes exactly a grammar float token when the following
bytes cannot extend it. -/
theorem float_exact {tok rest : Input} (htok : floatTokB tok = true)
    (hr : HeadNot isFloatExtB rest) : float (tok ++ rest) = .ok rest tok := by
  obtain ⟨sg, m, e, heq, hsg, hm, hexp⟩ := floatTok_decomp htok
  have hmhead : HeadNot (fun b => decide (b = 43) || decide (b = 45)) (m ++ (e ++ rest)) := by
    rcases hm with ⟨d1, d2, hmeq, ha1, hne1, _⟩ | ⟨ha, hne⟩ | ⟨d2, hmeq, _, _⟩
    · subst hmeq
      cases d1 with
      | nil => exact absurd rfl hne1
      | cons c u =>
        simp only [List.all_cons, Bool.and_eq_true] at ha1
        exact headNot_sign_of_digit_head _ ha1.1
    · cases m with
      | nil => exact absurd rfl hne
      | cons c u =>
        simp only [List.all_cons, Bool.and_eq_true] at ha
        exact headNot_sign_of_digit_head _ ha.1
    · subst hmeq
      exact (by decide : (decide ((46 : Nat) = 43) || decide ((46 : Nat) = 45)) = false)
  have hXman : HeadNot (fun b => isDigitB b || decide (b = 46)) (e ++ rest) := by
    rcases expOk_decomp hexp with he | ⟨eb, sg2, d, heeq, heb, _, _, _⟩
    · subst he
      exact headNot_imp (fun b hb => by
        have h2 := floatExt_split b hb
        show (isDigitB b || decide (b = 46)) = false
        simp only [Bool.or_eq_false_iff]
        exact ⟨h2.2.2.1, h2.2.2.2.1⟩) hr
    · subst heeq
      rcases heb with h | h <;> subst h
      · exact (by decide : (isDigitB 101 || decide ((101 : Nat) = 46)) = false)
      · exact (by decide : (isDigitB 69 || decide ((69 : Nat) = 46)) = false)
  have hman : mantissa (m ++ (e ++ rest)) = .ok (e ++ rest) () := mantissa_exact hm hXman
  obtain ⟨o, hexpP⟩ := exponentPart_exact (expOk_decomp hexp) hr
  have hsign : ∃ s, signP (sg ++ (m ++ (e ++ rest))) = .ok (m ++ (e ++ rest)) s := by
    rcases hsg with h | h | h <;> subst h
    · exact ⟨none, signP_skip hmhead⟩
    · exact ⟨some 43, signP_sign _ (Or.inl rfl)⟩
    · exact ⟨some 45, signP_sign _ (Or.inr rfl)⟩
  obtain ⟨s, hsign⟩ := hsign
  have htup : tuple3 signP mantissa exponentPart (sg ++ (m ++ (e ++ rest)))
      = .ok rest (s, (), o) := tuple3_intro hsign hman hexpP
  have hin : tok ++ rest = sg ++ (m ++ (e ++ rest)) := by
    rw [heq]
    simp [List.append_assoc]
  show recognize (tuple3 signP mantissa exponentPart) (tok ++ rest) = .ok rest tok
  rw [hin, recognize_intro htup]
  have harith : (sg ++ (m ++ (e ++ rest))).length - rest.length = tok.length := by
    rw [heq]
    simp only [List.length_append]
    omega
  rw [harith, ← hin, List.take_left]

/-! ### Row extraction -/

theorem floatTokHead_not_ws {c : Nat}
    (hc : (isDigitB c || c = 46 || c = 43 || c = 45) = true) :
    isHSpaceB c = false ∧ isMSpaceB c = false := by
  simp only [isDigitB, Bool.or_eq_true, Bool.and_eq_true, decide_eq_true_eq] at hc
  constructor
  · simp only [isHSpaceB, Bool.or_eq_false_iff, decide_eq_false_iff_not]
    omega
  · simp only [isMSpaceB, Bool.or_eq_false_iff, decide_eq_false_iff_not]
    omega

theorem floatTok_headNot_hs {tok : Input} (h : floatTokB tok = true) (X : Input) :
    HeadNot isHSpaceB (tok ++ X) := by
  obtain ⟨c, t, heq, hc⟩ := floatTok_head h
  subst heq
  exact (floatTokHead_not_ws hc).1

theorem floatTok_headNot_ms {tok : Input} (h : floatTokB tok = true) (X : Input) :
    HeadNot isMSpaceB (tok ++ X) := by
  obtain ⟨c, t, heq, hc⟩ := floatTok_head h
  subst heq
  exact (floatTokHead_not_ws hc).2

theorem floatTok_ne_nil {tok : Input} (h : floatTokB tok = true) : ¬ tok = [] := by
  obtain ⟨c, t, heq, _⟩ := floatTok_head h
  rw [heq]
  simp

theorem floatExt_false_of_hs {c : Nat} (h : isHSpaceB c = true) : isFloatExtB c = false := by
  simp only [isHSpaceB, Bool.or_eq_true, decide_eq_true_eq] at h
  rcases h with h | h <;> subst h <;> decide

theorem rowStop_proj (b : Nat) (hb : isRowStopB b = false) :
    isFloatExtB b = false ∧ isHSpaceB b = false := by
  simp only [isRowStopB, Bool.or_eq_false_iff] at hb
  exact ⟨hb.2, hb.1⟩

theorem float_err_of_stop {i : Input} (h : HeadNot isFloatExtB i) :
    float i = .err i .charK := by
  cases i with
  | nil => decide
  | cons b t =>
    have h2 := floatExt_split b h
    exact float_err_head t h2.2.2.1 (of_decide_eq_false h2.2.2.2.2.1)
      (of_decide_eq_false h2.2.2.2.2.2) (of_decide_eq_false h2.2.2.2.1)

/-- The bytes after a row's remaining pairs cannot extend a float token. -/
theorem rowTail_headNot_floatExt :
    ∀ (ps : List (Input × Input)) (hs rest : Input),
      ps.all (fun p => !p.1.isEmpty && hRunB p.1 && floatTokB p.2) = true →
      hRunB hs = true → HeadNot isRowStopB rest →
      HeadNot isFloatExtB ((ps.map (fun p => p.1 ++ p.2)).flatten ++ (hs ++ rest)) := by
  intro ps hs rest hps hhs hrest
  cases ps with
  | nil =>
    cases hs with
    | nil => exact headNot_imp (fun b hb => (rowStop_proj b hb).1) hrest
    | cons c u =>
      simp only [hRunB, List.all_cons, Bool.and_eq_true] at hhs
      exact floatExt_false_of_hs hhs.1
  | cons p ps2 =>
    simp only [List.all_cons, Bool.and_eq_true] at hps
    obtain ⟨⟨⟨hne, hrun⟩, _⟩, _⟩ := hps
    cases hp1 : p.1 with
    | nil =>
      rw [hp1] at hne
      simp at hne
    | cons c u =>
      rw [hp1] at hrun
      simp only [hRunB, List.all_cons, Bool.and_eq_true] at hrun
      simp only [List.map_cons, List.flatten_cons, hp1]
      exact floatExt_false_of_hs hrun.1

/-- The separator loop of the inner row list consumes exactly the
rendered (separator, token) pairs, leaving the trailing padding. -/
theorem sepLoop_row (hs rest : Input) (hhs : hRunB hs = true)
    (hrest : HeadNot isRowStopB rest) :
    ∀ (ps : List (Input × Input)) (fuel : Nat),
      ps.all (fun p => !p.1.isEmpty && hRunB p.1 && floatTokB p.2) = true →
      ((ps.map (fun p => p.1 ++ p.2)).flatten ++ (hs ++ rest)).length ≤ fuel →
      sepLoop space1 float fuel ((ps.map (fun p => p.1 ++ p.2)).flatten ++ (hs ++ rest))
        = .ok (hs ++ rest) (ps.map Prod.snd) := by
  intro ps
  induction ps with
  | nil =>
    intro fuel _ _
    simp only [List.map_nil, List.flatten_nil, List.nil_append]
    have hreste : HeadNot isHSpaceB rest := headNot_imp (fun b hb => (rowStop_proj b hb).2) hrest
    by_cases hhs0 : hs = []
    · subst hhs0
      have hsp : space1 rest = .err rest .spaceK := takeWhile1K_err hreste
      rw [sepLoop]
      simp [hsp]
    · have hsp : space1 (hs ++ rest) = .ok rest hs := space1_exact hhs hhs0 hreste
      have hlt : rest.length < (hs ++ rest).length := by
        have : 0 < hs.length := by
          cases hse : hs with
          | nil => exact absurd hse hhs0
          | cons a b => simp
        simp only [List.length_append]
        omega
      have hne : ¬ rest = hs ++ rest := by
        intro he
        have := congrArg List.length he
        simp only [List.length_append] at this
        have h0 : 0 < hs.length := by
          cases hse : hs with
          | nil => exact absurd hse hhs0
          | cons a b => simp
        omega
      have hfl : float rest = .err rest .charK :=
        float_err_of_stop (headNot_imp (fun b hb => (rowStop_proj b hb).1) hrest)
      rw [sepLoop]
      simp only [hsp, if_neg hne, hfl]
  | cons p ps2 ih =>
    intro fuel hps hfuel
    simp only [List.all_cons, Bool.and_eq_true] at hps
    obtain ⟨⟨⟨hne1, hrun1⟩, htok1⟩, hall2⟩ := hps
    simp only [Bool.not_eq_true'] at hne1
    have hp1ne : ¬ p.1 = [] := isEmpty_false_ne hne1
    have hp1pos : 0 < p.1.length := by
      cases hpe : p.1 with
      | nil => exact absurd hpe hp1ne
      | cons a b => simp
    have hp2pos : 0 < p.2.length := by
      cases hpe : p.2 with
      | nil => exact absurd hpe (floatTok_ne_nil htok1)
      | cons a b => simp
    simp only [List.map_cons, List.flatten_cons] at hfuel ⊢
    rw [List.append_assoc, List.append_assoc] at hfuel ⊢
    set tail := (ps2.map (fun p => p.1 ++ p.2)).flatten ++ (hs ++ rest) with htail
    have hsp : space1 (p.1 ++ (p.2 ++ tail)) = .ok (p.2 ++ tail) p.1 :=
      space1_exact hrun1 hp1ne (floatTok_headNot_hs htok1 tail)
    have hnea : ¬ p.2 ++ tail = p.1 ++ (p.2 ++ tail) := by
      intro he
      have := congrArg List.length he
      simp only [List.length_append] at this
      omega
    have hfl : float (p.2 ++ tail) = .ok tail p.2 :=
      float_exact htok1 (rowTail_headNot_floatExt ps2 hs rest hall2 hhs hrest)
    have hneb : ¬ tail = p.1 ++ (p.2 ++ tail) := by
      intro he
      have := congrArg List.length he
      simp only [List.length_append] at this
      omega
    have hltb : tail.length < (p.1 ++ (p.2 ++ tail)).length := by
      simp only [List.length_append]
      omega
    cases fuel with
    | zero =>
      exfalso
      simp only [List.length_append] at hfuel
      omega
    | succ fuel2 =>
      have hrec : sepLoop space1 float fuel2 tail = .ok (hs ++ rest) (ps2.map Prod.snd) := by
        apply ih fuel2 hall2
        simp only [List.length_append] at hfuel ⊢
        omega
      rw [sepLoop]
      simp only [hsp, if_neg hnea, hfl, if_neg hneb, if_pos hltb, hrec]

/-- The inner space-separated float list consumes exactly a rendered row,
leaving the trailing horizontal padding and the stop byte. -/
theorem row_exact {r : GRow} {hs rest : Input} (hwf : WFRowB r = true)
    (hhs : hRunB hs = true) (hrest : HeadNot isRowStopB rest) :
    separated_list space1 float (renderRow r ++ (hs ++ rest))
      = .ok (hs ++ rest) (rowToks r) := by
  simp only [WFRowB, Bool.and_eq_true] at hwf
  obtain ⟨htok0, hall⟩ := hwf
  unfold renderRow rowToks
  rw [List.append_assoc]
  set tail := (r.toks.map (fun p => p.1 ++ p.2)).flatten ++ (hs ++ rest) with htail
  have hfl : float (r.tok0 ++ tail) = .ok tail r.tok0 :=
    float_exact htok0 (rowTail_headNot_floatExt r.toks hs rest hall hhs hrest)
  have htokpos : 0 < r.tok0.length := by
    cases hpe : r.tok0 with
    | nil => exact absurd hpe (floatTok_ne_nil htok0)
    | cons a b => simp
  have hne : ¬ tail = r.tok0 ++ tail := by
    intro he
    have := congrArg List.length he
    simp only [List.length_append] at this
    omega
  rw [separated_list_intro_cons hfl hne,
    sepLoop_row hs rest hhs hrest r.toks tail.length hall (le_refl _)]

/-! ### Tensor literal extraction -/

theorem hs_false_of_ms_false {b : Nat} (hb : isMSpaceB b = false) : isHSpaceB b = false := by
  simp only [isMSpaceB, Bool.or_eq_false_iff] at hb
  simp only [isHSpaceB, Bool.or_eq_false_iff]
  exact ⟨hb.1.1.1, hb.1.1.2⟩

theorem drop_tw_append (p : Nat → Bool) :
    ∀ (ws rest : Input), (ws ++ rest).drop (ws.takeWhile p).length = ws.dropWhile p ++ rest := by
  intro ws rest
  induction ws with
  | nil => simp
  | cons c t ih =>
    by_cases hc : p c = true
    · simp [List.takeWhile_cons, List.dropWhile_cons, hc, ih]
    · simp [List.takeWhile_cons, List.dropWhile_cons, hc]

theorem headNot_cons2 (p : Nat → Bool) (c : Nat) (t : Input) (hc : p c = false) :
    HeadNot p (c :: t) := hc

theorem sp0_skip2 (c : Nat) (t : Input) (hc : isHSpaceB c = false) :
    space0 (c :: t) = .ok (c :: t) [] := sp0_skip hc

theorem ms0_skip2 (c : Nat) (t : Input) (hc : isMSpaceB c = false) :
    multispace0 (c :: t) = .ok (c :: t) [] := ms0_skip hc

/-- `space0` on a whitespace run followed by a non-whitespace byte eats the
horizontal prefix of the run. -/
theorem sp0_run {ws rest : Input} (hrest : HeadNot isMSpaceB rest) :
    space0 (ws ++ rest) = .ok (ws.dropWhile isHSpaceB ++ rest) (ws.takeWhile isHSpaceB) := by
  have hrh : HeadNot isHSpaceB rest := headNot_imp (fun b hb => hs_false_of_ms_false hb) hrest
  have ht : (ws ++ rest).takeWhile isHSpaceB = ws.takeWhile isHSpaceB :=
    takeWhile_append_headNot ws hrh
  have hd := drop_tw_append isHSpaceB ws rest
  simp only [space0, ht, hd]

theorem all_dropWhile {q : Nat → Bool} {l : Input} (h : l.all q = true) (p : Nat → Bool) :
    (l.dropWhile p).all q = true := by
  induction l with
  | nil => rfl
  | cons c t ih =>
    simp only [List.all_cons, Bool.and_eq_true] at h
    by_cases hc : p c = true
    · simp only [List.dropWhile_cons, hc, if_true]
      exact ih h.2
    · simp only [List.dropWhile_cons, hc, if_false]
      simp [h.1, h.2]

theorem dropWhile_head_false (p : Nat → Bool) :
    ∀ {l : Input} {b : Nat} {t : Input}, l.dropWhile p = b :: t → p b = false := by
  intro l
  induction l with
  | nil => intro b t h; cases h
  | cons c u ih =>
    intro b t h
    by_cases hc : p c = true
    · rw [List.dropWhile_cons, if_pos hc] at h
      exact ih h
    · rw [List.dropWhile_cons, if_neg hc] at h
      cases h
      simp only [Bool.not_eq_true] at hc
      exact hc

theorem wsRun_of_hRun {l : Input} (h : hRunB l = true) : wsRunB l = true := by
  rw [hRunB, List.all_eq_true] at h
  rw [wsRunB, List.all_eq_true]
  intro x hx
  have h2 := h x hx
  simp only [isHSpaceB, Bool.or_eq_true, decide_eq_true_eq] at h2
  simp only [isMSpaceB, Bool.or_eq_true, decide_eq_true_eq]
  tauto

theorem floatExt_false_of_ms {c : Nat} (h : isMSpaceB c = true) : isFloatExtB c = false := by
  simp only [isMSpaceB, Bool.or_eq_true, decide_eq_true_eq] at h
  rcases h with ((h | h) | h) | h <;> subst h <;> decide

theorem headNot_floatExt_ws_lt {ws : Input} (X : Input) (hws : wsRunB ws = true) :
    HeadNot isFloatExtB (ws ++ (60 :: X)) := by
  cases ws with
  | nil => exact (by decide : isFloatExtB 60 = false)
  | cons c u =>
    simp only [wsRunB, List.all_cons, Bool.and_eq_true] at hws
    exact floatExt_false_of_ms hws.1

theorem renderRow_headNot_hs {r : GRow} (h : WFRowB r = true) (Y : Input) :
    HeadNot isHSpaceB (renderRow r ++ Y) := by
  simp only [WFRowB, Bool.and_eq_true] at h
  unfold renderRow
  rw [List.append_assoc]
  exact floatTok_headNot_hs h.1 _

theorem renderRow_headNot_ms {r : GRow} (h : WFRowB r = true) (Y : Input) :
    HeadNot isMSpaceB (renderRow r ++ Y) := by
  simp only [WFRowB, Bool.and_eq_true] at h
  unfold renderRow
  rw [List.append_assoc]
  exact floatTok_headNot_ms h.1 _

/-- `vector` on a rendered single-row bracketed literal eats the literal
and the horizontal prefix of the following whitespace. -/
theorem vector_vec {s0 s1 ws : Input} {content : Option GRow} {X : Input}
    (h0 : hRunB s0 = true) (h1 : hRunB s1 = true)
    (hcon : WFOptRowB content = true)
    (hws : wsRunB ws = true) :
    vector (renderTensor (.vecLit s0 content s1) ++ (ws ++ (60 :: X)))
      = .ok (ws.dropWhile isHSpaceB ++ (60 :: X)) (Tensor.rank1 (rowOptToks content)) := by
  have hrest : HeadNot isMSpaceB (60 :: X) := (by decide : isMSpaceB 60 = false)
  cases content with
  | none =>
    simp only [renderTensor, List.append_assoc, List.nil_append]
    -- input: [ ++ (s0 ++ (s1 ++ (] ++ (ws ++ 60 :: X))))
    have hopen : spaced (tag (bytes ("["))) (bytes ("[") ++ (s0 ++ (s1 ++ (bytes ("]") ++ (ws ++ (60 :: X))))))
        = .ok (bytes ("]") ++ (ws ++ (60 :: X))) (bytes ("[")) := by
      apply delimited_intro (sp0_skip2 91 _ (by decide)) (tag_intro (bytes ("[")) _)
      rw [show s0 ++ (s1 ++ (bytes ("]") ++ (ws ++ (60 :: X))))
          = (s0 ++ s1) ++ (bytes ("]") ++ (ws ++ (60 :: X))) from by rw [List.append_assoc]]
      apply sp0_exact ?_ (headNot_cons2 isHSpaceB 93 _ (by decide))
      simp only [hRunB, List.all_append, Bool.and_eq_true]
      exact ⟨h0, h1⟩
    have hinner : separated_list space1 float (bytes ("]") ++ (ws ++ (60 :: X)))
        = .ok (bytes ("]") ++ (ws ++ (60 :: X))) [] := by
      have hfl : float (bytes ("]") ++ (ws ++ (60 :: X)))
          = .err (bytes ("]") ++ (ws ++ (60 :: X))) .charK :=
        float_err_of_stop (by decide : isFloatExtB 93 = false)
      simp only [separated_list, hfl]
    have hclose : spaced (tag (bytes ("]"))) (bytes ("]") ++ (ws ++ (60 :: X)))
        = .ok (ws.dropWhile isHSpaceB ++ (60 :: X)) (bytes ("]")) := by
      apply delimited_intro (sp0_skip2 93 _ (by decide)) (tag_intro (bytes ("]")) _)
      exact sp0_run hrest
    unfold vector
    exact pmap_intro (delimited_intro hopen hinner hclose)
  | some r =>
    simp only [renderTensor, List.append_assoc]
    have hopen : spaced (tag (bytes ("[")))
        (bytes ("[") ++ (s0 ++ (renderRow r ++ (s1 ++ (bytes ("]") ++ (ws ++ (60 :: X)))))))
        = .ok (renderRow r ++ (s1 ++ (bytes ("]") ++ (ws ++ (60 :: X))))) (bytes ("[")) := by
      apply delimited_intro (sp0_skip2 91 _ (by decide)) (tag_intro (bytes ("[")) _)
      exact sp0_exact h0 (renderRow_headNot_hs hcon _)
    have hinner : separated_list space1 float
        (renderRow r ++ (s1 ++ (bytes ("]") ++ (ws ++ (60 :: X)))))
        = .ok (s1 ++ (bytes ("]") ++ (ws ++ (60 :: X)))) (rowToks r) :=
      row_exact hcon h1 (by decide : isRowStopB 93 = false)
    have hclose : spaced (tag (bytes ("]"))) (s1 ++ (bytes ("]") ++ (ws ++ (60 :: X))))
        = .ok (ws.dropWhile isHSpaceB ++ (60 :: X)) (bytes ("]")) := by
      apply delimited_intro (sp0_exact h1 (headNot_cons2 isHSpaceB 93 _ (by decide)))
        (tag_intro (bytes ("]")) _)
      exact sp0_run hrest
    unfold vector
    exact pmap_intro (delimited_intro hopen hinner hclose)

/-- Parse one row where the rendering continues with the remaining rows or
the matrix close: the inner list stops exactly at the row boundary. -/
theorem row_at_junction {r : GRow} {rows : List (Input × Input × GRow)} {mE ws X : Input}
    (hr : WFRowB r = true)
    (hall : rows.all (fun t => hRunB t.1 && hRunB t.2.1 && WFRowB t.2.2) = true)
    (hmE : hRunB mE = true) :
    separated_list space1 float
      (renderRow r ++
        ((rows.map (fun t => t.1 ++ (bytes ("\n") ++ (t.2.1 ++ renderRow t.2.2)))).flatten
          ++ (mE ++ (bytes ("]") ++ (ws ++ (60 :: X))))))
      = .ok ((rows.map (fun t => t.1 ++ (bytes ("\n") ++ (t.2.1 ++ renderRow t.2.2)))).flatten
          ++ (mE ++ (bytes ("]") ++ (ws ++ (60 :: X))))) (rowToks r) := by
  cases rows with
  | nil =>
    simp only [List.map_nil, List.flatten_nil, List.nil_append]
    exact row_exact hr hmE (headNot_cons2 isRowStopB 93 _ (by decide))
  | cons t rows2 =>
    simp only [List.all_cons, Bool.and_eq_true] at hall
    simp only [List.map_cons, List.flatten_cons, List.append_assoc]
    exact row_exact hr hall.1.1.1 (headNot_cons2 isRowStopB 10 _ (by decide))

/-- The outer separator loop of `matrix` consumes the remaining rendered
rows, stopping before the trailing padding and the close bracket. -/
theorem sepLoop_rows (mE ws X : Input) (hmE : hRunB mE = true) :
    ∀ (rows : List (Input × Input × GRow)) (fuel : Nat),
      rows.all (fun t => hRunB t.1 && hRunB t.2.1 && WFRowB t.2.2) = true →
      ((rows.map (fun t => t.1 ++ (bytes ("\n") ++ (t.2.1 ++ renderRow t.2.2)))).flatten
        ++ (mE ++ (bytes ("]") ++ (ws ++ (60 :: X))))).length ≤ fuel →
      sepLoop (spaced (tag (bytes ("\n")))) (separated_list space1 float) fuel
        ((rows.map (fun t => t.1 ++ (bytes ("\n") ++ (t.2.1 ++ renderRow t.2.2)))).flatten
          ++ (mE ++ (bytes ("]") ++ (ws ++ (60 :: X)))))
        = .ok (mE ++ (bytes ("]") ++ (ws ++ (60 :: X))))
          (rows.map (fun t => rowToks t.2.2)) := by
  intro rows
  induction rows with
  | nil =>
    intro fuel _ _
    simp only [List.map_nil, List.flatten_nil, List.nil_append]
    have hsep : spaced (tag (bytes ("\n"))) (mE ++ (bytes ("]") ++ (ws ++ (60 :: X))))
        = .err (bytes ("]") ++ (ws ++ (60 :: X))) .tagK := by
      apply delimited_intro_err2 (sp0_exact hmE (headNot_cons2 isHSpaceB 93 _ (by decide)))
      apply tag_intro_err
      rfl
    rw [sepLoop]
    simp only [hsep]
  | cons t rows2 ih =>
    intro fuel hall hfuel
    simp only [List.all_cons, Bool.and_eq_true] at hall
    obtain ⟨⟨⟨h1, h2⟩, h3⟩, hall2⟩ := hall
    simp only [List.map_cons, List.flatten_cons, List.append_assoc] at hfuel ⊢
    set tail := (rows2.map (fun t => t.1 ++ (bytes ("\n") ++ (t.2.1 ++ renderRow t.2.2)))).flatten
      ++ (mE ++ (bytes ("]") ++ (ws ++ (60 :: X)))) with htail
    have hsep : spaced (tag (bytes ("\n")))
        (t.1 ++ (bytes ("\n") ++ (t.2.1 ++ (renderRow t.2.2 ++ tail))))
        = .ok (renderRow t.2.2 ++ tail) (bytes ("\n")) := by
      apply delimited_intro (sp0_exact h1 (headNot_cons2 isHSpaceB 10 _ (by decide)))
        (tag_intro (bytes ("\n")) _)
      exact sp0_exact h2 (renderRow_headNot_hs h3 _)
    have hinner : separated_list space1 float (renderRow t.2.2 ++ tail)
        = .ok tail (rowToks t.2.2) := by
      rw [htail]
      exact row_at_junction h3 hall2 hmE
    have hne1 : ¬ renderRow t.2.2 ++ tail
        = t.1 ++ (bytes ("\n") ++ (t.2.1 ++ (renderRow t.2.2 ++ tail))) := by
      intro he
      have := congrArg List.length he
      simp only [List.length_append, show (bytes ("\n")).length = 1 from rfl] at this
      omega
    have hne2 : ¬ tail = t.1 ++ (bytes ("\n") ++ (t.2.1 ++ (renderRow t.2.2 ++ tail))) := by
      intro he
      have := congrArg List.length he
      simp only [List.length_append, show (bytes ("\n")).length = 1 from rfl] at this
      omega
    have hlt2 : tail.length
        < (t.1 ++ (bytes ("\n") ++ (t.2.1 ++ (renderRow t.2.2 ++ tail)))).length := by
      simp only [List.length_append, show (bytes ("\n")).length = 1 from rfl]
      omega
    cases fuel with
    | zero =>
      exfalso
      simp only [List.length_append, show (bytes ("\n")).length = 1 from rfl] at hfuel
      omega
    | succ fuel2 =>
      have hrec : sepLoop (spaced (tag (bytes ("\n")))) (separated_list space1 float) fuel2 tail
          = .ok (mE ++ (bytes ("]") ++ (ws ++ (60 :: X)))) (rows2.map (fun t => rowToks t.2.2)) := by
        apply ih fuel2 hall2
        simp only [List.length_append, show (bytes ("\n")).length = 1 from rfl] at hfuel ⊢
        omega
      rw [sepLoop]
      simp only [hsep, if_neg hne1, hinner, if_neg hne2, if_pos hlt2, hrec]

theorem flatten_const_length (L : Nat) :
    ∀ (ls : List (List Input)), (∀ x ∈ ls, x.length = L) →
      ls.flatten.length = ls.length * L := by
  intro ls
  induction ls with
  | nil => intro _; simp
  | cons x t ih =>
    intro h
    simp only [List.flatten_cons, List.length_append, List.length_cons]
    rw [h x (List.mem_cons_self x t), ih (fun y hy => h y (List.mem_cons_of_mem x hy)),
      Nat.succ_mul]
    omega

/-- `matrixRows` consumes exactly a rendered multi-row literal and the
whole trailing whitespace. -/
theorem matrixRows_mat {m0 : Input} {row0 : GRow} {rows : List (Input × Input × GRow)}
    {mE ws X : Input}
    (hm0 : wsRunB m0 = true) (h0 : WFRowB row0 = true)
    (hall : rows.all (fun t => hRunB t.1 && hRunB t.2.1 && WFRowB t.2.2) = true)
    (hmE : hRunB mE = true) (hws : wsRunB ws = true) :
    matrixRows (renderTensor (.matLit m0 row0 rows mE) ++ (ws ++ (60 :: X)))
      = .ok (60 :: X) ((matRowsOf row0 rows).map rowToks) := by
  simp only [renderTensor, List.append_assoc]
  set flat := (rows.map (fun t => t.1 ++ (bytes ("\n") ++ (t.2.1 ++ renderRow t.2.2)))).flatten
    with hflat
  have hopen : multispaced (tag (bytes ("[")))
      (bytes ("[") ++ (m0 ++ (renderRow row0 ++ (flat ++ (mE ++ (bytes ("]") ++ (ws ++ (60 :: X))))))))
      = .ok (renderRow row0 ++ (flat ++ (mE ++ (bytes ("]") ++ (ws ++ (60 :: X)))))) (bytes ("[")) := by
    unfold multispaced
    apply delimited_intro (ms0_skip2 91 _ (by decide)) (tag_intro (bytes ("[")) _)
    exact ms0_exact hm0 (renderRow_headNot_ms h0 _)
  have hfirst : separated_list space1 float
      (renderRow row0 ++ (flat ++ (mE ++ (bytes ("]") ++ (ws ++ (60 :: X))))))
      = .ok (flat ++ (mE ++ (bytes ("]") ++ (ws ++ (60 :: X))))) (rowToks row0) := by
    rw [hflat]
    exact row_at_junction h0 hall hmE
  have hrpos : 0 < (renderRow row0).length := by
    simp only [WFRowB, Bool.and_eq_true] at h0
    obtain ⟨c, t2, he, _⟩ := floatTok_head h0.1
    unfold renderRow
    rw [he]
    simp
  have hne1 : ¬ flat ++ (mE ++ (bytes ("]") ++ (ws ++ (60 :: X))))
      = renderRow row0 ++ (flat ++ (mE ++ (bytes ("]") ++ (ws ++ (60 :: X))))) := by
    intro he
    have := congrArg List.length he
    simp only [List.length_append] at this
    omega
  have hloop : sepLoop (spaced (tag (bytes ("\n")))) (separated_list space1 float)
      (flat ++ (mE ++ (bytes ("]") ++ (ws ++ (60 :: X))))).length
      (flat ++ (mE ++ (bytes ("]") ++ (ws ++ (60 :: X)))))
      = .ok (mE ++ (bytes ("]") ++ (ws ++ (60 :: X)))) (rows.map (fun t => rowToks t.2.2)) := by
    rw [hflat]
    exact sepLoop_rows mE ws X hmE rows _ hall (le_refl _)
  have hlist : separated_list (spaced (tag (bytes ("\n")))) (separated_list space1 float)
      (renderRow row0 ++ (flat ++ (mE ++ (bytes ("]") ++ (ws ++ (60 :: X))))))
      = .ok (mE ++ (bytes ("]") ++ (ws ++ (60 :: X))))
        (rowToks row0 :: rows.map (fun t => rowToks t.2.2)) := by
    rw [separated_list_intro_cons hfirst hne1, hloop]
  have hclose : multispaced (tag (bytes ("]"))) (mE ++ (bytes ("]") ++ (ws ++ (60 :: X))))
      = .ok (60 :: X) (bytes ("]")) := by
    unfold multispaced
    apply delimited_intro (ms0_exact (wsRun_of_hRun hmE) (headNot_cons2 isMSpaceB 93 _ (by decide)))
      (tag_intro (bytes ("]")) _)
    exact ms0_exact hws (headNot_cons2 isMSpaceB 60 _ (by decide))
  have hval : (matRowsOf row0 rows).map rowToks
      = rowToks row0 :: rows.map (fun t => rowToks t.2.2) := by
    unfold matRowsOf
    simp [List.map_map, Function.comp]
  rw [hval]
  unfold matrixRows
  exact delimited_intro hopen hlist hclose

/-- `matrix` on a rendered multi-row literal with equal-length rows. -/
theorem matrix_mat {m0 : Input} {row0 : GRow} {rows : List (Input × Input × GRow)}
    {mE ws X : Input} (hwf : WFTensorB (.matLit m0 row0 rows mE) = true)
    (hws : wsRunB ws = true) :
    matrix (renderTensor (.matLit m0 row0 rows mE) ++ (ws ++ (60 :: X)))
      = .ok (60 :: X) (valueTensor (.matLit m0 row0 rows mE)) := by
  simp only [WFTensorB, Bool.and_eq_true] at hwf
  obtain ⟨⟨⟨⟨⟨hm0, h0⟩, hnemp⟩, hall⟩, hmE⟩, heqlen⟩ := hwf
  have hrows : matrixRows (renderTensor (.matLit m0 row0 rows mE) ++ (ws ++ (60 :: X)))
      = .ok (60 :: X) ((matRowsOf row0 rows).map rowToks) :=
    matrixRows_mat hm0 h0 hall hmE hws
  have hpos : 0 < ((matRowsOf row0 rows).map rowToks).length := by
    simp [matRowsOf]
  have hflatlen : ((matRowsOf row0 rows).map rowToks).flatten.length
      = ((matRowsOf row0 rows).map rowToks).length * (rowToks row0).length := by
    apply flatten_const_length
    intro x hx
    obtain ⟨r, hr, hxr⟩ := List.mem_map.mp hx
    rw [← hxr]
    exact of_decide_eq_true (List.all_eq_true.mp heqlen r hr)
  have hne0 : ¬ ((matRowsOf row0 rows).map rowToks).length = 0 := by
    simp [matRowsOf]
  have hcols : ((matRowsOf row0 rows).map rowToks).flatten.length
      / ((matRowsOf row0 rows).map rowToks).length = (rowToks row0).length := by
    rw [hflatlen, Nat.mul_div_cancel_left _ hpos]
  have hdiv : ((matRowsOf row0 rows).map rowToks).length *
      (((matRowsOf row0 rows).map rowToks).flatten.length
        / ((matRowsOf row0 rows).map rowToks).length)
      = ((matRowsOf row0 rows).map rowToks).flatten.length := by
    rw [hcols, hflatlen]
  simp only [matrix, hrows, if_neg hne0, if_pos hdiv]
  rw [hcols]
  unfold valueTensor
  rw [List.length_map]

/-- `vector` fails on every rendered multi-row literal: either the padding
after the bracket reaches a newline, or the single-row parse stops at the
first row's end where no close bracket follows. -/
theorem vector_err_mat {m0 : Input} {row0 : GRow} {rows : List (Input × Input × GRow)}
    {mE ws X : Input} (hm0 : wsRunB m0 = true) (h0 : WFRowB row0 = true)
    (hnemp : ¬ rows = [])
    (hall : rows.all (fun t => hRunB t.1 && hRunB t.2.1 && WFRowB t.2.2) = true) :
    ∃ p k, vector (renderTensor (.matLit m0 row0 rows mE) ++ (ws ++ (60 :: X)))
      = .err p k := by
  obtain ⟨t, rows2, hrows⟩ : ∃ t rows2, rows = t :: rows2 := by
    cases rows with
    | nil => exact absurd rfl hnemp
    | cons a b => exact ⟨a, b, rfl⟩
  subst hrows
  simp only [List.all_cons, Bool.and_eq_true] at hall
  obtain ⟨⟨⟨h1, h2⟩, h3⟩, hall2⟩ := hall
  simp only [renderTensor, List.map_cons, List.flatten_cons, List.append_assoc]
  cases hdw : m0.dropWhile isHSpaceB with
  | nil =>
    have hm0h : hRunB m0 = true := by
      have h4 : m0.takeWhile isHSpaceB ++ m0.dropWhile isHSpaceB = m0 :=
        List.takeWhile_append_dropWhile _ _
      rw [hdw, List.append_nil] at h4
      rw [hRunB, ← h4]
      exact takeWhile_all _ _
    have hopen : spaced (tag (bytes ("[")))
        (bytes ("[") ++ (m0 ++ (renderRow row0 ++ (t.1 ++ (bytes ("\n") ++ (t.2.1 ++
          (renderRow t.2.2 ++ ((rows2.map (fun t => t.1 ++ (bytes ("\n") ++ (t.2.1 ++ renderRow t.2.2)))).flatten
            ++ (mE ++ (bytes ("]") ++ (ws ++ (60 :: X))))))))))))
        = .ok (renderRow row0 ++ (t.1 ++ (bytes ("\n") ++ (t.2.1 ++
          (renderRow t.2.2 ++ ((rows2.map (fun t => t.1 ++ (bytes ("\n") ++ (t.2.1 ++ renderRow t.2.2)))).flatten
            ++ (mE ++ (bytes ("]") ++ (ws ++ (60 :: X)))))))))) (bytes ("[")) := by
      apply delimited_intro (sp0_skip2 91 _ (by decide)) (tag_intro (bytes ("[")) _)
      exact sp0_exact hm0h (renderRow_headNot_hs h0 _)
    have hinner : separated_list space1 float
        (renderRow row0 ++ (t.1 ++ (bytes ("\n") ++ (t.2.1 ++
          (renderRow t.2.2 ++ ((rows2.map (fun t => t.1 ++ (bytes ("\n") ++ (t.2.1 ++ renderRow t.2.2)))).flatten
            ++ (mE ++ (bytes ("]") ++ (ws ++ (60 :: X))))))))))
        = .ok (t.1 ++ (bytes ("\n") ++ (t.2.1 ++
          (renderRow t.2.2 ++ ((rows2.map (fun t => t.1 ++ (bytes ("\n") ++ (t.2.1 ++ renderRow t.2.2)))).flatten
            ++ (mE ++ (bytes ("]") ++ (ws ++ (60 :: X))))))))) (rowToks row0) :=
      row_exact h0 h1 (headNot_cons2 isRowStopB 10 _ (by decide))
    have hcl : spaced (tag (bytes ("]")))
        (t.1 ++ (bytes ("\n") ++ (t.2.1 ++
          (renderRow t.2.2 ++ ((rows2.map (fun t => t.1 ++ (bytes ("\n") ++ (t.2.1 ++ renderRow t.2.2)))).flatten
            ++ (mE ++ (bytes ("]") ++ (ws ++ (60 :: X)))))))))
        = .err (bytes ("\n") ++ (t.2.1 ++
          (renderRow t.2.2 ++ ((rows2.map (fun t => t.1 ++ (bytes ("\n") ++ (t.2.1 ++ renderRow t.2.2)))).flatten
            ++ (mE ++ (bytes ("]") ++ (ws ++ (60 :: X)))))))) .tagK := by
      apply delimited_intro_err2 (sp0_exact h1 (headNot_cons2 isHSpaceB 10 _ (by decide)))
      apply tag_intro_err
      rfl
    exact ⟨_, _, pmap_intro_err (delimited_intro_err3 hopen hinner hcl)⟩
  | cons c crest =>
    have hcms : isMSpaceB c = true := by
      have hsub : (m0.dropWhile isHSpaceB).all isMSpaceB = true := all_dropWhile hm0 _
      rw [hdw] at hsub
      simp only [List.all_cons, Bool.and_eq_true] at hsub
      exact hsub.1
    have hchs : isHSpaceB c = false := dropWhile_head_false isHSpaceB hdw
    have hc1310 : c = 13 ∨ c = 10 := by
      simp only [isMSpaceB, Bool.or_eq_true, decide_eq_true_eq] at hcms
      simp only [isHSpaceB, Bool.or_eq_false_iff, decide_eq_false_iff_not] at hchs
      omega
    obtain ⟨tw, htw, hm0eq⟩ : ∃ tw, hRunB tw = true ∧ m0 = tw ++ (c :: crest) := by
      refine ⟨m0.takeWhile isHSpaceB, takeWhile_all _ _, ?_⟩
      have h4 : m0.takeWhile isHSpaceB ++ m0.dropWhile isHSpaceB = m0 :=
        List.takeWhile_append_dropWhile _ _
      rw [hdw] at h4
      exact h4.symm
    rw [hm0eq, List.append_assoc]
    have hcd : isDigitB c = false ∧ ¬ c = 43 ∧ ¬ c = 45 ∧ ¬ c = 46 ∧ isHSpaceB c = false ∧
        List.isPrefixOf (bytes ("]")) (c :: (crest ++ (renderRow row0 ++ (t.1 ++ (bytes ("\n") ++ (t.2.1 ++
          (renderRow t.2.2 ++ ((rows2.map (fun t => t.1 ++ (bytes ("\n") ++ (t.2.1 ++ renderRow t.2.2)))).flatten
            ++ (mE ++ (bytes ("]") ++ (ws ++ (60 :: X)))))))))))) = false := by
      rcases hc1310 with hc | hc <;> subst hc <;>
        exact ⟨by decide, by decide, by decide, by decide, by decide, rfl⟩
    have hopen : spaced (tag (bytes ("[")))
        (bytes ("[") ++ (tw ++ ((c :: crest) ++ (renderRow row0 ++ (t.1 ++ (bytes ("\n") ++ (t.2.1 ++
          (renderRow t.2.2 ++ ((rows2.map (fun t => t.1 ++ (bytes ("\n") ++ (t.2.1 ++ renderRow t.2.2)))).flatten
            ++ (mE ++ (bytes ("]") ++ (ws ++ (60 :: X)))))))))))))
        = .ok ((c :: crest) ++ (renderRow row0 ++ (t.1 ++ (bytes ("\n") ++ (t.2.1 ++
          (renderRow t.2.2 ++ ((rows2.map (fun t => t.1 ++ (bytes ("\n") ++ (t.2.1 ++ renderRow t.2.2)))).flatten
            ++ (mE ++ (bytes ("]") ++ (ws ++ (60 :: X)))))))))) ) (bytes ("[")) := by
      apply delimited_intro (sp0_skip2 91 _ (by decide)) (tag_intro (bytes ("[")) _)
      exact sp0_exact htw (headNot_cons2 isHSpaceB c _ hcd.2.2.2.2.1)
    have hfl : float ((c :: crest) ++ (renderRow row0 ++ (t.1 ++ (bytes ("\n") ++ (t.2.1 ++
          (renderRow t.2.2 ++ ((rows2.map (fun t => t.1 ++ (bytes ("\n") ++ (t.2.1 ++ renderRow t.2.2)))).flatten
            ++ (mE ++ (bytes ("]") ++ (ws ++ (60 :: X)))))))))))
        = .err ((c :: crest) ++ (renderRow row0 ++ (t.1 ++ (bytes ("\n") ++ (t.2.1 ++
          (renderRow t.2.2 ++ ((rows2.map (fun t => t.1 ++ (bytes ("\n") ++ (t.2.1 ++ renderRow t.2.2)))).flatten
            ++ (mE ++ (bytes ("]") ++ (ws ++ (60 :: X)))))))))) ) .charK :=
      float_err_head _ hcd.1 hcd.2.1 hcd.2.2.1 hcd.2.2.2.1
    have hinner : separated_list space1 float
        ((c :: crest) ++ (renderRow row0 ++ (t.1 ++ (bytes ("\n") ++ (t.2.1 ++
          (renderRow t.2.2 ++ ((rows2.map (fun t => t.1 ++ (bytes ("\n") ++ (t.2.1 ++ renderRow t.2.2)))).flatten
            ++ (mE ++ (bytes ("]") ++ (ws ++ (60 :: X)))))))))))
        = .ok ((c :: crest) ++ (renderRow row0 ++ (t.1 ++ (bytes ("\n") ++ (t.2.1 ++
          (renderRow t.2.2 ++ ((rows2.map (fun t => t.1 ++ (bytes ("\n") ++ (t.2.1 ++ renderRow t.2.2)))).flatten
            ++ (mE ++ (bytes ("]") ++ (ws ++ (60 :: X)))))))))) ) [] := by
      simp only [separated_list, hfl]
    have hcl : spaced (tag (bytes ("]")))
        ((c :: crest) ++ (renderRow row0 ++ (t.1 ++ (bytes ("\n") ++ (t.2.1 ++
          (renderRow t.2.2 ++ ((rows2.map (fun t => t.1 ++ (bytes ("\n") ++ (t.2.1 ++ renderRow t.2.2)))).flatten
            ++ (mE ++ (bytes ("]") ++ (ws ++ (60 :: X)))))))))))
        = .err ((c :: crest) ++ (renderRow row0 ++ (t.1 ++ (bytes ("\n") ++ (t.2.1 ++
          (renderRow t.2.2 ++ ((rows2.map (fun t => t.1 ++ (bytes ("\n") ++ (t.2.1 ++ renderRow t.2.2)))).flatten
            ++ (mE ++ (bytes ("]") ++ (ws ++ (60 :: X)))))))))) ) .tagK := by
      apply delimited_intro_err2 (sp0_skip (headNot_cons2 isHSpaceB c _ hcd.2.2.2.2.1))
      exact tag_intro_err hcd.2.2.2.2.2
    exact ⟨_, _, pmap_intro_err (delimited_intro_err3 hopen hinner hcl)⟩

theorem dropWhile_len_le (p : Nat → Bool) (l : Input) :
    (l.dropWhile p).length ≤ l.length := by
  have h := congrArg List.length (List.takeWhile_append_dropWhile p l)
  simp only [List.length_append] at h
  omega

/-- `tensor` on a rendered literal followed by whitespace and a `<`: the
scalar alternative wins for scalar tokens, the vector alternative for
bracketed single rows, and the matrix alternative for multi-row blocks.
Some suffix of the whitespace may remain unconsumed. -/
theorem tensor_exact {g : GTensor} {ws X : Input} (hwf : WFTensorB g = true)
    (hws : wsRunB ws = true) :
    ∃ ws2, wsRunB ws2 = true ∧ ws2.length ≤ ws.length ∧
      tensor (renderTensor g ++ (ws ++ (60 :: X)))
        = .ok (ws2 ++ (60 :: X)) (valueTensor g) := by
  cases g with
  | sFloat tok =>
    refine ⟨ws, hws, le_refl _, ?_⟩
    have hfl : float (tok ++ (ws ++ (60 :: X))) = .ok (ws ++ (60 :: X)) tok :=
      float_exact hwf (headNot_floatExt_ws_lt X hws)
    exact altP_intro_ok (altP_intro_ok (pmap_intro hfl))
  | sTrue =>
    refine ⟨ws, hws, le_refl _, ?_⟩
    have hfl : float (84 :: (ws ++ (60 :: X))) = .err (84 :: (ws ++ (60 :: X))) .charK :=
      float_err_head _ (by decide) (by decide) (by decide) (by decide)
    have hint : integer (84 :: (ws ++ (60 :: X))) = .err (84 :: (ws ++ (60 :: X))) .mapResK :=
      integer_err_head _ (by decide) (by decide)
    have hF : tag (bytes ("F")) (84 :: (ws ++ (60 :: X)))
        = .err (84 :: (ws ++ (60 :: X))) .tagK := tag_intro_err rfl
    have hT : tag (bytes ("T")) (84 :: (ws ++ (60 :: X))) = .ok (ws ++ (60 :: X)) (bytes ("T")) :=
      tag_intro (bytes ("T")) (ws ++ (60 :: X))
    have hsc : scalar (84 :: (ws ++ (60 :: X)))
        = .ok (ws ++ (60 :: X)) (Tensor.boolScalar true) := by
      unfold scalar
      rw [altP_intro_err (pmap_intro_err hfl), altP_intro_err (pmap_intro_err hint),
        altP_intro_err (pmap_intro_err hF)]
      exact pmap_intro hT
    exact altP_intro_ok hsc
  | sFalse =>
    refine ⟨ws, hws, le_refl _, ?_⟩
    have hfl : float (70 :: (ws ++ (60 :: X))) = .err (70 :: (ws ++ (60 :: X))) .charK :=
      float_err_head _ (by decide) (by decide) (by decide) (by decide)
    have hint : integer (70 :: (ws ++ (60 :: X))) = .err (70 :: (ws ++ (60 :: X))) .mapResK :=
      integer_err_head _ (by decide) (by decide)
    have hF : tag (bytes ("F")) (70 :: (ws ++ (60 :: X))) = .ok (ws ++ (60 :: X)) (bytes ("F")) :=
      tag_intro (bytes ("F")) (ws ++ (60 :: X))
    have hsc : scalar (70 :: (ws ++ (60 :: X)))
        = .ok (ws ++ (60 :: X)) (Tensor.boolScalar false) := by
      unfold scalar
      rw [altP_intro_err (pmap_intro_err hfl), altP_intro_err (pmap_intro_err hint)]
      exact altP_intro_ok (pmap_intro hF)
    exact altP_intro_ok hsc
  | vecLit s0 content s1 =>
    have hwf2 := hwf
    simp only [WFTensorB, Bool.and_eq_true] at hwf2
    obtain ⟨⟨h0, h1⟩, hcon⟩ := hwf2
    refine ⟨ws.dropWhile isHSpaceB, all_dropWhile hws _, dropWhile_len_le _ _, ?_⟩
    have hv : vector (renderTensor (.vecLit s0 content s1) ++ (ws ++ (60 :: X)))
        = .ok (ws.dropWhile isHSpaceB ++ (60 :: X)) (Tensor.rank1 (rowOptToks content)) :=
      vector_vec h0 h1 hcon hws
    have hsc : scalar (renderTensor (.vecLit s0 content s1) ++ (ws ++ (60 :: X)))
        = .err (renderTensor (.vecLit s0 content s1) ++ (ws ++ (60 :: X))) .tagK :=
      scalar_err_head _ (Or.inr (Or.inr rfl))
    show altP scalar (altP vector matrix) (renderTensor (.vecLit s0 content s1) ++ (ws ++ (60 :: X)))
      = .ok (ws.dropWhile isHSpaceB ++ (60 :: X)) (valueTensor (.vecLit s0 content s1))
    rw [altP_intro_err hsc]
    exact altP_intro_ok hv
  | matLit m0 row0 rows mE =>
    refine ⟨[], rfl, Nat.zero_le _, ?_⟩
    have hwf2 := hwf
    simp only [WFTensorB, Bool.and_eq_true] at hwf2
    obtain ⟨⟨⟨⟨⟨hm0, h0⟩, hnemp⟩, hall⟩, hmE⟩, _⟩ := hwf2
    have hnemp2 : ¬ rows = [] := by
      intro he
      subst he
      simp at hnemp
    have hsc : scalar (renderTensor (.matLit m0 row0 rows mE) ++ (ws ++ (60 :: X)))
        = .err (renderTensor (.matLit m0 row0 rows mE) ++ (ws ++ (60 :: X))) .tagK :=
      scalar_err_head _ (Or.inr (Or.inr rfl))
    have hvex : ∃ p k, vector (renderTensor (.matLit m0 row0 rows mE) ++ (ws ++ (60 :: X)))
        = .err p k := vector_err_mat hm0 h0 hnemp2 hall
    obtain ⟨p, k, hv⟩ := hvex
    have hm : matrix (renderTensor (.matLit m0 row0 rows mE) ++ (ws ++ (60 :: X)))
        = .ok (60 :: X) (valueTensor (.matLit m0 row0 rows mE)) := matrix_mat hwf hws
    show altP scalar (altP vector matrix) (renderTensor (.matLit m0 row0 rows mE) ++ (ws ++ (60 :: X)))
      = .ok ([] ++ (60 :: X)) (valueTensor (.matLit m0 row0 rows mE))
    rw [altP_intro_err hsc, altP_intro_err hv]
    exact hm

/-! ### Configuration section, integer and count extraction -/

theorem findSub_drop_left {t : Input} :
    ∀ (a b : Input), findSub t (a ++ (b ++ t)) = some (a ++ b).length →
      findSub t (b ++ t) = some b.length := by
  intro a
  induction a with
  | nil =>
    intro b h
    simpa using h
  | cons c a2 ih =>
    intro b h
    rw [show (c :: a2) ++ (b ++ t) = c :: (a2 ++ (b ++ t)) from rfl, findSub] at h
    split at h
    next hp =>
      simp only [Option.some.injEq] at h
      exfalso
      simp at h
    next hp =>
      simp only [Option.map_eq_some'] at h
      obtain ⟨n, hn, hadd⟩ := h
      have hlen : n = (a2 ++ b).length := by
        simp only [List.length_cons, List.length_append] at hadd ⊢
        omega
      subst hlen
      exact ih b (by simpa using hn)

theorem findSub_extend {t : Input} :
    ∀ (b c : Input), findSub t (b ++ t) = some b.length →
      findSub t (b ++ (t ++ c)) = some b.length := by
  intro b
  induction b with
  | nil =>
    intro c h
    simp only [List.nil_append, List.length_nil] at h ⊢
    cases htc : t ++ c with
    | nil =>
      have ht : t = [] := by
        cases t with
        | nil => rfl
        | cons x xs => simp at htc
      subst ht
      rw [findSub]
      simp [List.isPrefixOf]
    | cons x xs =>
      rw [findSub]
      have hpre : t.isPrefixOf (x :: xs) = true := by
        rw [← htc]
        exact isPrefixOf_append_self t c
      rw [if_pos hpre]
  | cons d b2 ih =>
    intro c h
    rw [show (d :: b2) ++ t = d :: (b2 ++ t) from rfl, findSub] at h
    rw [show (d :: b2) ++ (t ++ c) = d :: (b2 ++ (t ++ c)) from rfl, findSub]
    split at h
    next hp =>
      simp only [Option.some.injEq] at h
      exfalso
      simp at h
    next hp =>
      have hp2 : t.isPrefixOf (d :: (b2 ++ (t ++ c))) = false := by
        cases hq : t.isPrefixOf (d :: (b2 ++ (t ++ c))) with
        | false => rfl
        | true =>
          exfalso
          apply hp
          have hpre : t <+: d :: (b2 ++ (t ++ c)) := List.isPrefixOf_iff_prefix.mp hq
          have hle : t.length ≤ (d :: (b2 ++ t)).length := by
            simp only [List.length_cons, List.length_append]
            omega
          have hpre2 : (d :: (b2 ++ t)) <+: (d :: (b2 ++ (t ++ c))) := by
            refine ⟨c, ?_⟩
            simp [List.append_assoc]
          exact List.isPrefixOf_iff_prefix.mpr (List.prefix_of_prefix_length_le hpre hpre2 hle)
      rw [if_neg (by simp [hp2] : ¬ t.isPrefixOf (d :: (b2 ++ (t ++ c))) = true)]
      simp only [Option.map_eq_some'] at h
      obtain ⟨n, hn, hadd⟩ := h
      have hlen : n = b2.length := by
        simp only [List.length_cons] at hadd
        omega
      subst hlen
      rw [ih c hn]
      simp

/-- `take_until` on the marker: consume up to the first occurrence. -/
theorem take_until_exact {t b c : Input} (h : findSub t (b ++ t) = some b.length) :
    take_until t (b ++ (t ++ c)) = .ok (t ++ c) b := by
  have hf := findSub_extend b c h
  simp only [take_until, hf]
  rw [List.drop_left, List.take_left]

theorem digitsVal_shape {nd : Input} {n : Nat} (h : digitsVal? nd = some n) :
    ¬ nd = [] ∧ nd.all isDigitB = true := by
  unfold digitsVal? at h
  split at h
  next he => cases h
  next he =>
    split at h
    next hall => exact ⟨fun hn => by subst hn; simp at he, hall⟩
    next => cases h

theorem digit_not_ms {b : Nat} (h : isDigitB b = true) : isMSpaceB b = false := by
  simp only [isDigitB, Bool.and_eq_true, decide_eq_true_eq] at h
  simp only [isMSpaceB, Bool.or_eq_false_iff, decide_eq_false_iff_not]
  omega

theorem digits_headNot_ms {nd : Input} (hne : ¬ nd = []) (hall : nd.all isDigitB = true)
    (Y : Input) : HeadNot isMSpaceB (nd ++ Y) := by
  cases nd with
  | nil => exact absurd rfl hne
  | cons d t =>
    simp only [List.all_cons, Bool.and_eq_true] at hall
    exact digit_not_ms hall.1

theorem take_while_exact {p : Nat → Bool} {a rest : Input} (ha : a.all p = true)
    (hr : HeadNot p rest) : take_while p (a ++ rest) = .ok rest a := by
  have ht : (a ++ rest).takeWhile p = a := takeWhile_append_exact ha hr
  simp only [take_while, ht, List.drop_left]

/-- `integer` consumes exactly an unsigned digit run whose value fits. -/
theorem integer_exact {ds rest : Input} {n : Nat} (hds : digitsVal? ds = some n)
    (hn : n < 2 ^ 31) (hr : HeadNot isDigitB rest) :
    integer (ds ++ rest) = .ok rest ((n : Int)) := by
  obtain ⟨hne, hall⟩ := digitsVal_shape hds
  obtain ⟨d, t, hdt⟩ : ∃ d t, ds = d :: t := by
    cases ds with
    | nil => exact absurd rfl hne
    | cons d t => exact ⟨d, t, rfl⟩
  have hd45 : ¬ d = 45 := by
    rw [hdt] at hall
    simp only [List.all_cons, Bool.and_eq_true] at hall
    have := hall.1
    simp only [isDigitB, Bool.and_eq_true, decide_eq_true_eq] at this
    omega
  have htag : tag (bytes ("-")) (ds ++ rest) = .err (ds ++ rest) .tagK := by
    apply tag_intro_err
    rw [hdt]
    simp [show bytes ("-") = [45] from by decide, List.isPrefixOf]
    intro he
    exact absurd he.symm hd45
  have htw : take_while isDigitB (ds ++ rest) = .ok rest ds := take_while_exact hall hr
  have hpair : pairP (opt (tag (bytes ("-")))) (take_while isDigitB) (ds ++ rest)
      = .ok rest (none, ds) := pairP_intro (opt_intro_err htag) htw
  have hrec : recognize (pairP (opt (tag (bytes ("-")))) (take_while isDigitB)) (ds ++ rest)
      = .ok rest ds := by
    rw [recognize_intro hpair]
    have harith : (ds ++ rest).length - rest.length = ds.length := by
      simp only [List.length_append]
      omega
    rw [harith, List.take_left]
  have hascii : ds.all (fun x => x ≤ 127) = true := by
    rw [List.all_eq_true]
    intro x hx
    have := List.all_eq_true.mp hall x hx
    simp only [isDigitB, Bool.and_eq_true, decide_eq_true_eq] at this
    simp only [decide_eq_true_eq]
    omega
  have hutf : from_utf8 ds = some ds := by
    unfold from_utf8
    rw [if_pos (utf8Valid_ascii _ hascii)]
  have hp32 : parse_i32 ds = some ((n : Int)) := by
    rw [hdt]
    simp only [parse_i32, if_neg hd45]
    rw [← hdt, hds]
    simp only [Option.some_bind]
    rw [if_pos hn]
  unfold integer
  exact map_res_intro_some (map_res_intro_some hrec hutf) hp32

/-- `num_components` consumes the rendered count tag, the digits and the
following whitespace. -/
theorem num_components_exact {wsD nd wsN0 Z : Input} {n : Nat}
    (hwsD : wsRunB wsD = true) (hnd : digitsVal? nd = some n) (hn : n < 2 ^ 31)
    (hws0 : wsRunB wsN0 = true) (hZms : HeadNot isMSpaceB Z) (hZdig : HeadNot isDigitB Z) :
    num_components (bytes ("<NumComponents>") ++ (wsD ++ (nd ++ (wsN0 ++ Z))))
      = .ok Z n := by
  obtain ⟨hne, hall⟩ := digitsVal_shape hnd
  have hopen : openTag (bytes ("NumComponents"))
      (bytes ("<NumComponents>") ++ (wsD ++ (nd ++ (wsN0 ++ Z))))
      = .ok (nd ++ (wsN0 ++ Z)) () := by
    have h2 : openTag (bytes ("NumComponents"))
        ([] ++ (bytes ("<") ++ (bytes ("NumComponents") ++ (bytes (">") ++
          (wsD ++ (nd ++ (wsN0 ++ Z)))))))
        = .ok (nd ++ (wsN0 ++ Z)) () :=
      openTag_exact rfl hwsD (digits_headNot_ms hne hall _)
    exact h2
  have hdigbound : HeadNot isDigitB (wsN0 ++ Z) := by
    cases wsN0 with
    | nil => exact hZdig
    | cons c u =>
      simp only [wsRunB, List.all_cons, Bool.and_eq_true] at hws0
      have h2 := hws0.1
      simp only [isMSpaceB, Bool.or_eq_true, decide_eq_true_eq] at h2
      show isDigitB c = false
      simp only [isDigitB, decide_eq_true_eq]
      rcases h2 with ((h2 | h2) | h2) | h2 <;> subst h2 <;> decide
  have hint : multispaced integer (nd ++ (wsN0 ++ Z)) = .ok Z ((n : Int)) := by
    unfold multispaced
    exact delimited_intro (ms0_skip (digits_headNot_ms hne hall _))
      (integer_exact hnd hn hdigbound)
      (ms0_exact hws0 hZms)
  have husize : usizeOfI32 ((n : Int)) = n := by
    unfold usizeOfI32
    rw [Int.emod_eq_of_lt (by omega) ?hlt]
    · simp
    case hlt =>
      have : (n : Int) < 2 ^ 31 := by exact_mod_cast hn
      omega
  unfold num_components
  rw [hopen]
  simp only [hint, husize]

/-! ### The attribute loop and components -/

theorem renderTensor_headNot_ms {g : GTensor} (h : WFTensorB g = true) (Y : Input) :
    HeadNot isMSpaceB (renderTensor g ++ Y) := by
  cases g with
  | sFloat tok => exact floatTok_headNot_ms h Y
  | sTrue => exact (by decide : isMSpaceB 84 = false)
  | sFalse => exact (by decide : isMSpaceB 70 = false)
  | vecLit s0 c s1 => exact (by decide : isMSpaceB 91 = false)
  | matLit m0 r0 rs mE => exact (by decide : isMSpaceB 91 = false)

theorem many0Go_stop {O : Type} {f : P O} {i p : Input} {k : ErrKind} (fuel : Nat)
    (h : f i = .err p k) : many0Go f fuel i = .ok i [] := by
  rw [many0Go]
  simp [h]

/-- `open_any` fails at a closing tag even after leading whitespace. -/
theorem open_any_err_close_ws {wsA Z : Input} (hws : wsRunB wsA = true) :
    open_any (wsA ++ (bytes ("</") ++ Z)) = .err ([47] ++ Z) .alphaK := by
  have htg : tag (bytes ("<")) (bytes ("</") ++ Z) = .ok ([47] ++ Z) (bytes ("<")) :=
    tag_intro (bytes ("<")) ([47] ++ Z)
  unfold open_any multispaced
  exact delimited_intro_err2 (ms0_exact hws (headNot_cons2 isMSpaceB 60 _ (by decide)))
    (delimited_intro_err2 htg (name_err_slash Z))

/-- The attribute loop consumes attribute renderings one by one: the
leading whitespace of each attribute may be partly pre-consumed by the
preceding tensor parse, so the loop is stated with an arbitrary leading
run. -/
theorem many0_attrsGo (wsEnd Z : Input) (hwsEnd : wsRunB wsEnd = true) :
    ∀ (attrs : List GAttr) (a : GAttr) (wsL : Input) (fuel : Nat),
      WFAttrB a = true → attrs.all WFAttrB = true → wsRunB wsL = true →
      (wsL ++ (renderAttrTail a ++ ((attrs.map renderAttr).flatten
        ++ (wsEnd ++ (bytes ("</") ++ Z))))).length ≤ fuel →
      ∃ wsY, wsRunB wsY = true ∧
        many0Go (pairP open_any tensor) fuel
          (wsL ++ (renderAttrTail a ++ ((attrs.map renderAttr).flatten
            ++ (wsEnd ++ (bytes ("</") ++ Z)))))
          = .ok (wsY ++ (bytes ("</") ++ Z)) (valueAttr a :: attrs.map valueAttr) := by
  intro attrs
  induction attrs with
  | nil =>
    intro a wsL fuel hwfa _ hwsL hfuel
    simp only [WFAttrB, Bool.and_eq_true] at hwfa
    obtain ⟨⟨⟨_, hname⟩, hwsB⟩, hlit⟩ := hwfa
    have hA : renderAttrTail a
        = bytes ("<") ++ (a.aname ++ (bytes (">") ++ (a.wsB ++ renderTensor a.lit))) := by
      simp only [renderAttrTail, List.append_assoc]
    simp only [List.map_nil, List.flatten_nil, List.nil_append] at hfuel ⊢
    rw [hA] at hfuel ⊢
    simp only [List.append_assoc] at hfuel ⊢
    have hopen : open_any (wsL ++ (bytes ("<") ++ (a.aname ++ (bytes (">") ++ (a.wsB ++
        (renderTensor a.lit ++ (wsEnd ++ (bytes ("</") ++ Z))))))))
        = .ok (renderTensor a.lit ++ (wsEnd ++ (bytes ("</") ++ Z))) a.aname :=
      open_any_exact hwsL hname hwsB (renderTensor_headNot_ms hlit _)
    have hex : ∃ ws2, wsRunB ws2 = true ∧ ws2.length ≤ wsEnd.length ∧
        tensor (renderTensor a.lit ++ (wsEnd ++ (bytes ("</") ++ Z)))
          = .ok (ws2 ++ (bytes ("</") ++ Z)) (valueTensor a.lit) := tensor_exact hlit hwsEnd
    obtain ⟨ws2, hws2, hlen2, hten⟩ := hex
    have hpairP : pairP open_any tensor (wsL ++ (bytes ("<") ++ (a.aname ++ (bytes (">") ++ (a.wsB ++
        (renderTensor a.lit ++ (wsEnd ++ (bytes ("</") ++ Z))))))))
        = .ok (ws2 ++ (bytes ("</") ++ Z)) (a.aname, valueTensor a.lit) :=
      pairP_intro hopen hten
    have hlt : (ws2 ++ (bytes ("</") ++ Z)).length < (wsL ++ (bytes ("<") ++ (a.aname ++ (bytes (">") ++ (a.wsB ++
        (renderTensor a.lit ++ (wsEnd ++ (bytes ("</") ++ Z)))))))).length := by
      simp only [List.length_append, show (bytes ("<")).length = 1 from rfl,
        show (bytes (">")).length = 1 from rfl]
      omega
    cases fuel with
    | zero =>
      exfalso
      simp only [List.length_append, show (bytes ("<")).length = 1 from rfl,
        show (bytes (">")).length = 1 from rfl] at hfuel
      omega
    | succ fuel2 =>
      have hstop : many0Go (pairP open_any tensor) fuel2 (ws2 ++ (bytes ("</") ++ Z))
          = .ok (ws2 ++ (bytes ("</") ++ Z)) [] :=
        many0Go_stop fuel2 (pairP_intro_err (open_any_err_close_ws hws2))
      refine ⟨ws2, hws2, ?_⟩
      rw [many0Go]
      simp only [hpairP, if_pos hlt, hstop, valueAttr]
  | cons t attrs2 ih =>
    intro a wsL fuel hwfa hall hwsL hfuel
    simp only [WFAttrB, Bool.and_eq_true] at hwfa
    obtain ⟨⟨⟨_, hname⟩, hwsB⟩, hlit⟩ := hwfa
    simp only [List.all_cons, Bool.and_eq_true] at hall
    obtain ⟨hwft, hall2⟩ := hall
    have htwsA : wsRunB t.wsA = true := by
      simp only [WFAttrB, Bool.and_eq_true] at hwft
      exact hwft.1.1.1
    have hA : renderAttrTail a
        = bytes ("<") ++ (a.aname ++ (bytes (">") ++ (a.wsB ++ renderTensor a.lit))) := by
      simp only [renderAttrTail, List.append_assoc]
    simp only [List.map_cons, List.flatten_cons, renderAttr] at hfuel ⊢
    rw [hA] at hfuel ⊢
    simp only [List.append_assoc] at hfuel ⊢
    have hopen : open_any (wsL ++ (bytes ("<") ++ (a.aname ++ (bytes (">") ++ (a.wsB ++
        (renderTensor a.lit ++ (t.wsA ++ (renderAttrTail t ++ ((attrs2.map renderAttr).flatten
          ++ (wsEnd ++ (bytes ("</") ++ Z)))))))))))
        = .ok (renderTensor a.lit ++ (t.wsA ++ (renderAttrTail t ++ ((attrs2.map renderAttr).flatten
          ++ (wsEnd ++ (bytes ("</") ++ Z)))))) a.aname :=
      open_any_exact hwsL hname hwsB (renderTensor_headNot_ms hlit _)
    have hex : ∃ ws2, wsRunB ws2 = true ∧ ws2.length ≤ t.wsA.length ∧
        tensor (renderTensor a.lit ++ (t.wsA ++ (renderAttrTail t ++ ((attrs2.map renderAttr).flatten
          ++ (wsEnd ++ (bytes ("</") ++ Z))))))
          = .ok (ws2 ++ (renderAttrTail t ++ ((attrs2.map renderAttr).flatten
            ++ (wsEnd ++ (bytes ("</") ++ Z))))) (valueTensor a.lit) := tensor_exact hlit htwsA
    obtain ⟨ws2, hws2, hlen2, hten⟩ := hex
    have hpairP : pairP open_any tensor (wsL ++ (bytes ("<") ++ (a.aname ++ (bytes (">") ++ (a.wsB ++
        (renderTensor a.lit ++ (t.wsA ++ (renderAttrTail t ++ ((attrs2.map renderAttr).flatten
          ++ (wsEnd ++ (bytes ("</") ++ Z)))))))))))
        = .ok (ws2 ++ (renderAttrTail t ++ ((attrs2.map renderAttr).flatten
          ++ (wsEnd ++ (bytes ("</") ++ Z))))) (a.aname, valueTensor a.lit) :=
      pairP_intro hopen hten
    have hlt : (ws2 ++ (renderAttrTail t ++ ((attrs2.map renderAttr).flatten
        ++ (wsEnd ++ (bytes ("</") ++ Z))))).length
        < (wsL ++ (bytes ("<") ++ (a.aname ++ (bytes (">") ++ (a.wsB ++
          (renderTensor a.lit ++ (t.wsA ++ (renderAttrTail t ++ ((attrs2.map renderAttr).flatten
            ++ (wsEnd ++ (bytes ("</") ++ Z))))))))))).length := by
      simp only [List.length_append, show (bytes ("<")).length = 1 from rfl,
        show (bytes (">")).length = 1 from rfl]
      omega
    cases fuel with
    | zero =>
      exfalso
      simp only [List.length_append, show (bytes ("<")).length = 1 from rfl,
        show (bytes (">")).length = 1 from rfl] at hfuel
      omega
    | succ fuel2 =>
      have hbound : (ws2 ++ (renderAttrTail t ++ ((attrs2.map renderAttr).flatten
          ++ (wsEnd ++ (bytes ("</") ++ Z))))).length ≤ fuel2 := by
        simp only [List.length_append, show (bytes ("<")).length = 1 from rfl,
          show (bytes (">")).length = 1 from rfl] at hfuel ⊢
        omega
      obtain ⟨wsY, hwsY, hrec⟩ := ih t ws2 fuel2 hwft hall2 hws2 hbound
      refine ⟨wsY, hwsY, ?_⟩
      rw [many0Go]
      simp only [hpairP, if_pos hlt, hrec, valueAttr]

theorem nameTok_headNot_ms {k : Input} (h : nameTokB k = true) (Y : Input) :
    HeadNot isMSpaceB (k ++ Y) := by
  cases k with
  | nil => simp [nameTokB] at h
  | cons b t =>
    simp only [nameTokB, Bool.and_eq_true] at h
    have hb := h.1
    simp only [isAlphaB, Bool.or_eq_true, Bool.and_eq_true, decide_eq_true_eq] at hb
    show isMSpaceB b = false
    simp only [isMSpaceB, Bool.or_eq_false_iff, decide_eq_false_iff_not]
    omega

theorem headNot_nameChar_ws_lt {wsK : Input} (Z : Input) (h : wsRunB wsK = true) :
    HeadNot isNameCharB (wsK ++ (60 :: Z)) := by
  cases wsK with
  | nil => exact (by decide : isNameCharB 60 = false)
  | cons c u =>
    simp only [wsRunB, List.all_cons, Bool.and_eq_true] at h
    have hc := h.1
    simp only [isMSpaceB, Bool.or_eq_true, decide_eq_true_eq] at hc
    show isNameCharB c = false
    rcases hc with ((hc | hc) | hc) | hc <;> subst hc <;> decide

/-- `component` consumes exactly a rendered component body (the part after
`<ComponentName> name ws`), including trailing whitespace, up to a hard
`<` boundary. -/
theorem component_exact {c : GComp} {Z : Input} (hwf : WFCompB c = true)
    (hZ : HeadNot isMSpaceB Z) :
    component (bytes ("<") ++ (c.klass ++ (bytes (">") ++ ((c.attrs.map renderAttr).flatten
      ++ (c.wsEnd ++ (bytes ("</") ++ (c.klass ++ (bytes (">") ++ (c.wsAfter ++ Z)))))))))
      = .ok Z (valueComp c) := by
  have hwf2 := hwf
  simp only [WFCompB, Bool.and_eq_true] at hwf2
  obtain ⟨⟨⟨⟨⟨⟨_, _⟩, _⟩, hklass⟩, hattrs⟩, hwsEnd⟩, hwsAfter⟩ := hwf2
  cases hca : c.attrs with
  | nil =>
    simp only [List.map_nil, List.flatten_nil, List.nil_append]
    have hopen : open_any (bytes ("<") ++ (c.klass ++ (bytes (">") ++ (c.wsEnd ++
        (bytes ("</") ++ (c.klass ++ (bytes (">") ++ (c.wsAfter ++ Z))))))))
        = .ok (bytes ("</") ++ (c.klass ++ (bytes (">") ++ (c.wsAfter ++ Z)))) c.klass :=
      open_any_exact (show wsRunB [] = true from rfl) hklass hwsEnd (headNot_cons2 isMSpaceB 60 _ (by decide))
    have hmany : many0 (pairP open_any tensor)
        (bytes ("</") ++ (c.klass ++ (bytes (">") ++ (c.wsAfter ++ Z))))
        = .ok (bytes ("</") ++ (c.klass ++ (bytes (">") ++ (c.wsAfter ++ Z)))) [] :=
      attrs_stop_close _
    have hclose : closeTag c.klass
        (bytes ("</") ++ (c.klass ++ (bytes (">") ++ (c.wsAfter ++ Z)))) = .ok Z () :=
      closeTag_exact (show wsRunB [] = true from rfl) hwsAfter hZ
    simp only [component, hopen, hmany, hclose, valueComp, hca, List.map_nil]
  | cons a attrs2 =>
    rw [hca] at hattrs
    simp only [List.all_cons, Bool.and_eq_true] at hattrs
    obtain ⟨hwfa, hall2⟩ := hattrs
    have hwsaA : wsRunB a.wsA = true := by
      simp only [WFAttrB, Bool.and_eq_true] at hwfa
      exact hwfa.1.1.1
    simp only [List.map_cons, List.flatten_cons, renderAttr, List.append_assoc]
    have hopen : open_any (bytes ("<") ++ (c.klass ++ (bytes (">") ++ (a.wsA ++
        (renderAttrTail a ++ ((attrs2.map renderAttr).flatten ++ (c.wsEnd ++
          (bytes ("</") ++ (c.klass ++ (bytes (">") ++ (c.wsAfter ++ Z)))))))))))
        = .ok (renderAttrTail a ++ ((attrs2.map renderAttr).flatten ++ (c.wsEnd ++
            (bytes ("</") ++ (c.klass ++ (bytes (">") ++ (c.wsAfter ++ Z))))))) c.klass := by
      apply open_any_exact (show wsRunB [] = true from rfl) hklass hwsaA
      cases hta : renderAttrTail a with
      | nil =>
        exfalso
        have : (renderAttrTail a).length = 0 := by rw [hta]; rfl
        simp only [renderAttrTail, List.length_append,
          show (bytes ("<")).length = 1 from rfl] at this
        omega
      | cons b bt =>
        have hb : b = 60 := by
          have h60 : (renderAttrTail a).headD 256 = 60 := by
            simp only [renderAttrTail, List.append_assoc]
            rfl
          rw [hta] at h60
          simpa using h60
        subst hb
        exact headNot_cons2 isMSpaceB 60 _ (by decide)
    have hex : ∃ wsY, wsRunB wsY = true ∧
        many0Go (pairP open_any tensor)
          (renderAttrTail a ++ ((attrs2.map renderAttr).flatten ++ (c.wsEnd ++
            (bytes ("</") ++ (c.klass ++ (bytes (">") ++ (c.wsAfter ++ Z))))))).length
          (renderAttrTail a ++ ((attrs2.map renderAttr).flatten ++ (c.wsEnd ++
            (bytes ("</") ++ (c.klass ++ (bytes (">") ++ (c.wsAfter ++ Z)))))))
          = .ok (wsY ++ (bytes ("</") ++ (c.klass ++ (bytes (">") ++ (c.wsAfter ++ Z)))))
            (valueAttr a :: attrs2.map valueAttr) :=
      many0_attrsGo c.wsEnd (c.klass ++ (bytes (">") ++ (c.wsAfter ++ Z))) hwsEnd
        attrs2 a [] _ hwfa hall2 rfl (le_refl _)
    obtain ⟨wsY, hwsY, hmany0⟩ := hex
    have hmany : many0 (pairP open_any tensor)
        (renderAttrTail a ++ ((attrs2.map renderAttr).flatten ++ (c.wsEnd ++
          (bytes ("</") ++ (c.klass ++ (bytes (">") ++ (c.wsAfter ++ Z)))))))
        = .ok (wsY ++ (bytes ("</") ++ (c.klass ++ (bytes (">") ++ (c.wsAfter ++ Z)))))
          (valueAttr a :: attrs2.map valueAttr) := hmany0
    have hclose : closeTag c.klass
        (wsY ++ (bytes ("</") ++ (c.klass ++ (bytes (">") ++ (c.wsAfter ++ Z))))) = .ok Z () :=
      closeTag_exact hwsY hwsAfter hZ
    simp only [component, hopen, hmany, hclose, valueComp, hca, List.map_cons]

/-- `component_name` consumes the name tag, the identifier and the
following whitespace up to a `<`. -/
theorem component_name_exact {wsN cname wsK Z : Input}
    (h1 : wsRunB wsN = true) (hn : nameTokB cname = true) (h2 : wsRunB wsK = true) :
    component_name (bytes ("<ComponentName>") ++ (wsN ++ (cname ++ (wsK ++ (60 :: Z)))))
      = .ok (60 :: Z) cname := by
  have hopen : openTag (bytes ("ComponentName"))
      (bytes ("<ComponentName>") ++ (wsN ++ (cname ++ (wsK ++ (60 :: Z)))))
      = .ok (cname ++ (wsK ++ (60 :: Z))) () :=
    openTag_exact (show wsRunB [] = true from rfl) h1 (nameTok_headNot_ms hn _)
  have hname : name (cname ++ (wsK ++ (60 :: Z))) = .ok (wsK ++ (60 :: Z)) cname :=
    name_exact hn (headNot_nameChar_ws_lt _ h2)
  have hms : multispace0 (wsK ++ (60 :: Z)) = .ok (60 :: Z) wsK :=
    ms0_exact h2 (headNot_cons2 isMSpaceB 60 _ (by decide))
  unfold component_name multispaced
  exact delimited_intro (ms0_skip2 60 _ (by decide))
    (delimited_intro hopen hname hms) (ms0_skip2 60 _ (by decide))

theorem comps_flat_headNot_ms (cs : List GComp) (W : Input) :
    HeadNot isMSpaceB ((cs.map renderComp).flatten ++ (60 :: W)) := by
  cases cs with
  | nil => exact (by decide : isMSpaceB 60 = false)
  | cons c cs2 => exact (by decide : isMSpaceB 60 = false)

/-- The component loop of `parse_top_level` consumes exactly the rendered
component blocks, folding each into the accumulated map. -/
theorem compLoop_exact (W : Input) :
    ∀ (cs : List GComp) (m : AMap Component),
      cs.all WFCompB = true →
      compLoop cs.length m ((cs.map renderComp).flatten ++ (60 :: W))
        = .ok (60 :: W) (cs.foldl (fun acc c => insertA acc c.cname (valueComp c)) m) := by
  intro cs
  induction cs with
  | nil =>
    intro m _
    simp only [List.map_nil, List.flatten_nil, List.nil_append, List.length_nil,
      List.foldl_nil]
    rfl
  | cons c cs2 ih =>
    intro m hall
    simp only [List.all_cons, Bool.and_eq_true] at hall
    obtain ⟨hwfc, hall2⟩ := hall
    have hwfc2 := hwfc
    simp only [WFCompB, Bool.and_eq_true] at hwfc2
    obtain ⟨⟨⟨⟨⟨⟨hwsN, hcname⟩, hwsK⟩, hklass⟩, _⟩, _⟩, _⟩ := hwfc2
    have hR : renderComp c = bytes ("<ComponentName>") ++ (c.wsN ++ (c.cname ++ (c.wsK ++
        (bytes ("<") ++ (c.klass ++ (bytes (">") ++ ((c.attrs.map renderAttr).flatten ++
          (c.wsEnd ++ (bytes ("</") ++ (c.klass ++ (bytes (">") ++ c.wsAfter))))))))))) := by
      simp only [renderComp, List.append_assoc]
    simp only [List.map_cons, List.flatten_cons, List.length_cons, List.foldl_cons,
      List.append_assoc]
    rw [hR]
    simp only [List.append_assoc]
    have hcn : component_name (bytes ("<ComponentName>") ++ (c.wsN ++ (c.cname ++ (c.wsK ++
        (bytes ("<") ++ (c.klass ++ (bytes (">") ++ ((c.attrs.map renderAttr).flatten ++
          (c.wsEnd ++ (bytes ("</") ++ (c.klass ++ (bytes (">") ++ (c.wsAfter ++
            ((cs2.map renderComp).flatten ++ (60 :: W)))))))))))))))
        = .ok (bytes ("<") ++ (c.klass ++ (bytes (">") ++ ((c.attrs.map renderAttr).flatten ++
            (c.wsEnd ++ (bytes ("</") ++ (c.klass ++ (bytes (">") ++ (c.wsAfter ++
              ((cs2.map renderComp).flatten ++ (60 :: W))))))))))) c.cname :=
      component_name_exact hwsN hcname hwsK
    have hcomp : component (bytes ("<") ++ (c.klass ++ (bytes (">") ++
        ((c.attrs.map renderAttr).flatten ++ (c.wsEnd ++ (bytes ("</") ++ (c.klass ++
          (bytes (">") ++ (c.wsAfter ++ ((cs2.map renderComp).flatten ++ (60 :: W)))))))))))
        = .ok ((cs2.map renderComp).flatten ++ (60 :: W)) (valueComp c) :=
      component_exact hwfc (comps_flat_headNot_ms cs2 W)
    have hpair : pairP component_name component (bytes ("<ComponentName>") ++ (c.wsN ++ (c.cname ++ (c.wsK ++
        (bytes ("<") ++ (c.klass ++ (bytes (">") ++ ((c.attrs.map renderAttr).flatten ++
          (c.wsEnd ++ (bytes ("</") ++ (c.klass ++ (bytes (">") ++ (c.wsAfter ++
            ((cs2.map renderComp).flatten ++ (60 :: W)))))))))))))))
        = .ok ((cs2.map renderComp).flatten ++ (60 :: W)) (c.cname, valueComp c) :=
      pairP_intro hcn hcomp
    rw [compLoop]
    simp only [hpair]
    exact ih (insertA m c.cname (valueComp c)) hall2

/-! ### Top-level assembly -/

theorem ms0_run {ws rest : Input} (hrest : HeadNot isMSpaceB rest) :
    multispace0 (ws ++ rest)
      = .ok (ws.dropWhile isMSpaceB ++ rest) (ws.takeWhile isMSpaceB) := by
  have ht : (ws ++ rest).takeWhile isMSpaceB = ws.takeWhile isMSpaceB :=
    takeWhile_append_headNot ws hrest
  have hd := drop_tw_append isMSpaceB ws rest
  simp only [multispace0, ht, hd]

/-- `open(t)` at the document head: the trailing whitespace skip eats the
leading whitespace run of the configuration section. -/
theorem openTag_head {t cfg rest : Input} (hrest : HeadNot isMSpaceB rest) :
    openTag t (bytes ("<") ++ (t ++ (bytes (">") ++ (cfg ++ rest))))
      = .ok (cfg.dropWhile isMSpaceB ++ rest) () := by
  unfold openTag multispaced
  apply pmap_intro
  exact delimited_intro (ms0_skip2 60 _ (by decide))
    (tuple3_intro (tag_intro (bytes ("<")) _) (tag_intro t _) (tag_intro (bytes (">")) _))
    (ms0_run hrest)

theorem comps_close_headNot (p : Nat → Bool) (hp : p 60 = false) (cs : List GComp) :
    HeadNot p ((cs.map renderComp).flatten ++ bytes ("</Nnet3>")) := by
  cases cs with
  | nil => exact hp
  | cons c cs2 => exact hp

theorem all_takeWhile_le127_of_ms {l : Input} :
    (l.takeWhile isMSpaceB).all (fun x => x ≤ 127) = true := by
  rw [List.all_eq_true]
  intro x hx
  have hms := List.mem_takeWhile_imp hx
  simp only [isMSpaceB, Bool.or_eq_true, decide_eq_true_eq] at hms
  simp only [decide_eq_true_eq]
  omega

/-- `parse_top_level` on a rendered well-formed document with valid UTF-8
configuration bytes: it returns the configuration text (sans the leading
whitespace absorbed by the envelope tag) and the folded component map. -/
theorem parse_top_level_exact {d : GModel} (hwf : WFModelB d = true)
    (hutf : utf8Valid d.config = true) :
    parse_top_level (renderModel d)
      = .ok [] (d.config.dropWhile isMSpaceB,
          d.comps.foldl (fun acc c => insertA acc c.cname (valueComp c)) []) := by
  have hwf2 := hwf
  simp only [WFModelB, Bool.and_eq_true] at hwf2
  obtain ⟨⟨⟨⟨⟨hfindB, hwsD⟩, hdigB⟩, hltB⟩, hallc⟩, hws0⟩ := hwf2
  have hfind : findSub (bytes ("<NumComponents>")) (d.config ++ bytes ("<NumComponents>"))
      = some d.config.length := of_decide_eq_true hfindB
  have hdig : digitsVal? d.ndigits = some d.comps.length := of_decide_eq_true hdigB
  have hlt31 : d.comps.length < 2 ^ 31 := of_decide_eq_true hltB
  simp only [renderModel, List.append_assoc]
  have hopen : openTag (bytes ("Nnet3"))
      (bytes ("<Nnet3>") ++ (d.config ++ (bytes ("<NumComponents>") ++ (d.wsD ++ (d.ndigits ++
        (d.wsN0 ++ ((d.comps.map renderComp).flatten ++ bytes ("</Nnet3>"))))))))
      = .ok (d.config.dropWhile isMSpaceB ++ (bytes ("<NumComponents>") ++ (d.wsD ++ (d.ndigits ++
          (d.wsN0 ++ ((d.comps.map renderComp).flatten ++ bytes ("</Nnet3>"))))))) () :=
    openTag_head (headNot_cons2 isMSpaceB 60 _ (by decide))
  -- the marker search succeeds at the head of the stripped configuration
  obtain ⟨tw, htw127, hconfig⟩ : ∃ tw, tw.all (fun x => x ≤ 127) = true ∧
      tw ++ d.config.dropWhile isMSpaceB = d.config :=
    ⟨d.config.takeWhile isMSpaceB, all_takeWhile_le127_of_ms,
      List.takeWhile_append_dropWhile _ _⟩
  have hfind2 : findSub (bytes ("<NumComponents>"))
      (d.config.dropWhile isMSpaceB ++ bytes ("<NumComponents>"))
      = some (d.config.dropWhile isMSpaceB).length := by
    rw [← hconfig, List.append_assoc] at hfind
    exact findSub_drop_left tw _ hfind
  have hutf2 : from_utf8 (d.config.dropWhile isMSpaceB)
      = some (d.config.dropWhile isMSpaceB) := by
    unfold from_utf8
    rw [if_pos]
    apply utf8Valid_of_ascii_append htw127
    rw [hconfig]
    exact hutf
  have hcfg : map_res (take_until (bytes ("<NumComponents>"))) from_utf8
      (d.config.dropWhile isMSpaceB ++ (bytes ("<NumComponents>") ++ (d.wsD ++ (d.ndigits ++
        (d.wsN0 ++ ((d.comps.map renderComp).flatten ++ bytes ("</Nnet3>")))))))
      = .ok (bytes ("<NumComponents>") ++ (d.wsD ++ (d.ndigits ++
          (d.wsN0 ++ ((d.comps.map renderComp).flatten ++ bytes ("</Nnet3>"))))))
        (d.config.dropWhile isMSpaceB) :=
    map_res_intro_some (take_until_exact hfind2) hutf2
  have hnum : num_components (bytes ("<NumComponents>") ++ (d.wsD ++ (d.ndigits ++
      (d.wsN0 ++ ((d.comps.map renderComp).flatten ++ bytes ("</Nnet3>"))))))
      = .ok ((d.comps.map renderComp).flatten ++ bytes ("</Nnet3>")) d.comps.length :=
    num_components_exact hwsD hdig hlt31 hws0
      (comps_close_headNot isMSpaceB (by decide) d.comps)
      (comps_close_headNot isDigitB (by decide) d.comps)
  have hloop : compLoop d.comps.length []
      ((d.comps.map renderComp).flatten ++ bytes ("</Nnet3>"))
      = .ok (bytes ("</Nnet3>"))
        (d.comps.foldl (fun acc c => insertA acc c.cname (valueComp c)) []) :=
    compLoop_exact (bytes ("/Nnet3>")) d.comps [] hallc
  have hclose : closeTag (bytes ("Nnet3")) (bytes ("</Nnet3>")) = .ok [] () :=
    closeTag_exact (show wsRunB [] = true from rfl) (show wsRunB [] = true from rfl)
      True.intro
  simp only [parse_top_level, hopen, hcfg, hnum, hloop, hclose]

/-- The declared `<NumComponents>` integer of a rendered document is its
number of component blocks. -/
theorem declaredNum_exact {d : GModel} (hwf : WFModelB d = true) :
    declaredNumComponents (renderModel d) = some d.comps.length := by
  have hwf2 := hwf
  simp only [WFModelB, Bool.and_eq_true] at hwf2
  obtain ⟨⟨⟨⟨⟨hfindB, hwsD⟩, hdigB⟩, hltB⟩, hallc⟩, hws0⟩ := hwf2
  have hfind : findSub (bytes ("<NumComponents>")) (d.config ++ bytes ("<NumComponents>"))
      = some d.config.length := of_decide_eq_true hfindB
  have hdig : digitsVal? d.ndigits = some d.comps.length := of_decide_eq_true hdigB
  have hlt31 : d.comps.length < 2 ^ 31 := of_decide_eq_true hltB
  simp only [renderModel, List.append_assoc]
  have hopen : openTag (bytes ("Nnet3"))
      (bytes ("<Nnet3>") ++ (d.config ++ (bytes ("<NumComponents>") ++ (d.wsD ++ (d.ndigits ++
        (d.wsN0 ++ ((d.comps.map renderComp).flatten ++ bytes ("</Nnet3>"))))))))
      = .ok (d.config.dropWhile isMSpaceB ++ (bytes ("<NumComponents>") ++ (d.wsD ++ (d.ndigits ++
          (d.wsN0 ++ ((d.comps.map renderComp).flatten ++ bytes ("</Nnet3>"))))))) () :=
    openTag_head (headNot_cons2 isMSpaceB 60 _ (by decide))
  obtain ⟨tw, htw127, hconfig⟩ : ∃ tw, tw.all (fun x => x ≤ 127) = true ∧
      tw ++ d.config.dropWhile isMSpaceB = d.config :=
    ⟨d.config.takeWhile isMSpaceB, all_takeWhile_le127_of_ms,
      List.takeWhile_append_dropWhile _ _⟩
  have hfind2 : findSub (bytes ("<NumComponents>"))
      (d.config.dropWhile isMSpaceB ++ bytes ("<NumComponents>"))
      = some (d.config.dropWhile isMSpaceB).length := by
    rw [← hconfig, List.append_assoc] at hfind
    exact findSub_drop_left tw _ hfind
  have htu : take_until (bytes ("<NumComponents>"))
      (d.config.dropWhile isMSpaceB ++ (bytes ("<NumComponents>") ++ (d.wsD ++ (d.ndigits ++
        (d.wsN0 ++ ((d.comps.map renderComp).flatten ++ bytes ("</Nnet3>")))))))
      = .ok (bytes ("<NumComponents>") ++ (d.wsD ++ (d.ndigits ++
          (d.wsN0 ++ ((d.comps.map renderComp).flatten ++ bytes ("</Nnet3>"))))))
        (d.config.dropWhile isMSpaceB) :=
    take_until_exact hfind2
  have hnum : num_components (bytes ("<NumComponents>") ++ (d.wsD ++ (d.ndigits ++
      (d.wsN0 ++ ((d.comps.map renderComp).flatten ++ bytes ("</Nnet3>"))))))
      = .ok ((d.comps.map renderComp).flatten ++ bytes ("</Nnet3>")) d.comps.length :=
    num_components_exact hwsD hdig hlt31 hws0
      (comps_close_headNot isMSpaceB (by decide) d.comps)
      (comps_close_headNot isDigitB (by decide) d.comps)
  simp only [declaredNumComponents, hopen, htu, hnum]

/-! ### Size of the collected component map -/

theorem keysA_insertA {V : Type} (m : AMap V) (k : Input) (v : V) :
    (insertA m k v).map Prod.fst
      = if k ∈ m.map Prod.fst then m.map Prod.fst else m.map Prod.fst ++ [k] := by
  have hmem : (m.any (fun p => p.1 = k)) = true ↔ k ∈ m.map Prod.fst := by
    rw [List.any_eq_true]
    constructor
    · rintro ⟨p, hp, hpk⟩
      exact List.mem_map.mpr ⟨p, hp, of_decide_eq_true hpk⟩
    · intro hm
      obtain ⟨p, hp, hpk⟩ := List.mem_map.mp hm
      exact ⟨p, hp, decide_eq_true hpk⟩
  unfold insertA
  by_cases hk : k ∈ m.map Prod.fst
  · rw [if_pos (hmem.mpr hk), if_pos hk, List.map_map]
    apply List.map_congr_left
    intro p hp
    by_cases hpk : p.1 = k
    · simp [Function.comp, hpk]
    · simp [Function.comp, hpk]
  · rw [if_neg (fun hc => hk (hmem.mp hc)), if_neg hk, List.map_append]
    rfl

theorem keysA_insertA_nodup {V : Type} {m : AMap V} (h : (m.map Prod.fst).Nodup)
    (k : Input) (v : V) : ((insertA m k v).map Prod.fst).Nodup := by
  rw [keysA_insertA]
  by_cases hk : k ∈ m.map Prod.fst
  · rw [if_pos hk]
    exact h
  · rw [if_neg hk, List.nodup_append]
    refine ⟨h, List.nodup_singleton k, ?_⟩
    intro a ha hb
    rw [List.mem_singleton] at hb
    subst hb
    exact hk ha

/-- The size of the map accumulated by the component loop counts the
distinct keys inserted. -/
theorem size_foldl_insert :
    ∀ (cs : List GComp) (m : AMap Component), (m.map Prod.fst).Nodup →
      sizeA (cs.foldl (fun acc c => insertA acc c.cname (valueComp c)) m)
        = ((m.map Prod.fst) ++ cs.map GComp.cname).toFinset.card := by
  intro cs
  induction cs with
  | nil =>
    intro m hnd
    simp only [List.foldl_nil, List.map_nil, List.append_nil]
    rw [List.toFinset_card_of_nodup hnd, List.length_map]
    rfl
  | cons c cs2 ih =>
    intro m hnd
    simp only [List.foldl_cons, List.map_cons]
    rw [ih _ (keysA_insertA_nodup hnd _ _)]
    congr 1
    rw [keysA_insertA]
    by_cases hk : c.cname ∈ m.map Prod.fst
    · rw [if_pos hk]
      simp only [List.toFinset_append, List.toFinset_cons]
      rw [Finset.union_insert]
      exact (Finset.insert_eq_self.mpr
        (Finset.mem_union_left _ (List.mem_toFinset.mpr hk))).symm
    · rw [if_neg hk]
      simp only [List.toFinset_append, List.toFinset_cons, List.toFinset_nil]
      rw [Finset.union_assoc, Finset.insert_union, Finset.empty_union]

theorem size_of_fold (cs : List GComp) :
    sizeA (cs.foldl (fun acc c => insertA acc c.cname (valueComp c)) [])
      = (cs.map GComp.cname).dedup.length := by
  have h := size_foldl_insert cs [] (by simp)
  simp only [List.map_nil, List.nil_append] at h
  rw [h]
  exact List.card_toFinset _

/-- Claim C2 (amended): every input matching the §6 grammar whose
configuration bytes are valid UTF-8 parses successfully; the declared
`<NumComponents>` integer equals the number of component blocks, the
returned map has one entry per distinct declared component name, and it
has exactly the declared number of entries when the declared names are
pairwise distinct (duplicate names collapse). -/
theorem claim2_amended :
    ∀ d : GModel, WFModelB d = true → utf8Valid d.config = true →
      declaredNumComponents (renderModel d) = some d.comps.length ∧
      ∃ m : KaldiProtoModel, nnet3 (renderModel d) = .ok m ∧
        sizeA m.components = (declaredNames d).dedup.length ∧
        ((declaredNames d).Nodup → sizeA m.components = d.comps.length) := by
  intro d hwf hutf
  refine ⟨declaredNum_exact hwf, ?_⟩
  have hptl := parse_top_level_exact hwf hutf
  refine ⟨KaldiProtoModel.mk (d.config.dropWhile isMSpaceB)
    (d.comps.foldl (fun acc c => insertA acc c.cname (valueComp c)) []), ?_, ?_, ?_⟩
  · simp only [nnet3, hptl, parse_config]
  · exact size_of_fold d.comps
  · intro hnodup
    have hnodup2 : (d.comps.map GComp.cname).Nodup := hnodup
    have h := size_of_fold d.comps
    rw [List.dedup_eq_self.mpr hnodup2, List.length_map] at h
    exact h

/-- Witness for claim C2 (amended), at the two-component document `gDup`:
the well-formedness and UTF-8 hypotheses hold by evaluation, the declared
count is the block count, and the parse succeeds with one map entry per
distinct name. -/
theorem claim2_witness :
    WFModelB gDup = true ∧ utf8Valid gDup.config = true ∧
    (declaredNumComponents (renderModel gDup) = some gDup.comps.length ∧
      ∃ m : KaldiProtoModel, nnet3 (renderModel gDup) = .ok m ∧
        sizeA m.components = (declaredNames gDup).dedup.length ∧
        ((declaredNames gDup).Nodup → sizeA m.components = gDup.comps.length)) :=
  ⟨by decide, by decide, claim2_amended gDup (by decide) (by decide)⟩

end Kaldi
